import Mathlib

/-!
# Verification of sleipnir path-string compaction, paint capture and rendering

A shallow embedding, over `ℚ`, of the core of the `sleipnir` crate
(`pathstyle.rs`, `pens.rs`, `iconid.rs`, `ligatures.rs`, `icon2png.rs`,
`icon2svg.rs`), together with theorems about the embedded functions.

Floating point (`f64` / `f32`) is modelled by `ℚ`; `f64::round` (round half
away from zero) is modelled by `roundHalfAway`.  The Rust `Display` of a
value rounded to `p` decimal places is modelled by exact decimal printing of
the rounded rational, including the `-0` that Rust prints for a negative
value whose rounding is zero.
-/

namespace Sleipnir

/-- 2D point with rational coordinates (model of `kurbo::Point`). -/
structure Pt where
  x : ℚ
  y : ℚ
deriving DecidableEq, Repr

/-- Pointwise addition, model of `kurbo::Point + kurbo::Vec2`. -/
def Pt.add (a b : Pt) : Pt := ⟨a.x + b.x, a.y + b.y⟩

/-- Pointwise subtraction, model of `kurbo::Point - kurbo::Point` (a `Vec2`). -/
def Pt.sub (a b : Pt) : Pt := ⟨a.x - b.x, a.y - b.y⟩

/-- One element of a `kurbo::BezPath`. -/
inductive PathEl where
  | moveTo (p : Pt)
  | lineTo (p : Pt)
  | quadTo (p1 p2 : Pt)
  | curveTo (p1 p2 p3 : Pt)
  | closePath
deriving DecidableEq, Repr

/-- Model of Rust `f64::round`: round to nearest, ties away from zero. -/
def roundHalfAway (q : ℚ) : ℤ :=
  if 0 ≤ q then ⌊q + 1/2⌋ else -⌊-q + 1/2⌋

/-- `Rounding::round_prec` for `f64` from `pathstyle.rs`:
`(self * 10^precision).round() / 10^precision`. -/
def roundPrec (q : ℚ) (precision : ℕ) : ℚ :=
  (roundHalfAway (q * 10 ^ precision) : ℚ) / 10 ^ precision

/-- `Rounding::round_prec` for `Point`: round both coordinates. -/
def roundPrecPt (p : Pt) (precision : ℕ) : Pt :=
  ⟨roundPrec p.x precision, roundPrec p.y precision⟩

/-- `SvgPathStyle` from `pathstyle.rs`. -/
inductive SvgPathStyle where
  | Unchanged (precision : ℕ)
  | Compact (precision : ℕ)
deriving DecidableEq, Repr

/-- `SvgPathStyle::precision`. -/
def SvgPathStyle.precision : SvgPathStyle → ℕ
  | .Unchanged p => p
  | .Compact p => p

/-- `SvgPathStyle::round_eq` on scalars. -/
def SvgPathStyle.roundEqQ (s : SvgPathStyle) (a b : ℚ) : Bool :=
  roundPrec a s.precision = roundPrec b s.precision

/-- `SvgPathStyle::round_eq` on points. -/
def SvgPathStyle.roundEqPt (s : SvgPathStyle) (a b : Pt) : Bool :=
  roundPrecPt a s.precision = roundPrecPt b s.precision

/-! ## Decimal formatting (`round_coord` and its helpers)

`round_coord` in `pathstyle.rs` formats `pt.round_prec(precision)` with
Rust's `Display` and then strips trailing zeros and a trailing decimal
point.  For a multiple of `10^-precision` the shortest round-trip decimal
Rust prints is the exact decimal expansion, so we print that directly.
Rust prints `-0` for the negative zero float produced by rounding a small
negative value; `round_coord` keeps that sign, and we reproduce it from the
sign of the unrounded input. -/

/-- Big-endian decimal digit characters of `n`; empty for `0`. -/
def natChars (n : ℕ) : List Char :=
  ((Nat.digits 10 n).map Nat.digitChar).reverse

/-- Decimal string of a natural number (`"0"` for zero). -/
def natStr (n : ℕ) : List Char :=
  if n = 0 then ['0'] else natChars n

/-- Strip trailing `'0'` characters. -/
def dropTrailingZeros (l : List Char) : List Char :=
  (l.reverse.dropWhile (fun c => c = '0')).reverse

/-- Exact decimal expansion of `n / 10^p`, trailing zeros stripped. -/
def formatScaled (n : ℤ) (p : ℕ) : List Char :=
  let m := n.natAbs
  let ip := m / 10 ^ p
  let fp := m % 10 ^ p
  let fracFull := List.replicate (p - (natChars fp).length) '0' ++ natChars fp
  let frac := dropTrailingZeros fracFull
  (if n < 0 then ['-'] else []) ++ natStr ip ++
    (if frac = [] then [] else '.' :: frac)

/-- `round_coord` from `pathstyle.rs`: format `q` rounded to `precision`
decimal places, stripping trailing zeros/decimal point.  When the rounded
value is zero but `q` was negative, Rust's `f64` keeps the sign (negative
zero) and prints `-0`. -/
def round_coord (q : ℚ) (precision : ℕ) : List Char :=
  let n := roundHalfAway (q * 10 ^ precision)
  if n = 0 ∧ q < 0 then ['-', '0'] else formatScaled n precision

/-! ## Drawing command vocabulary (`draw_commands.rs`) -/

/-- `DrawingCommand`: absolute and relative token of one command. -/
structure DrawingCommand where
  abs : List Char
  rel : List Char

/-- `DrawingCommandType`: SVG `d` syntax vs Kotlin builder-call syntax. -/
inductive DrawingCommandType where
  | Svg
  | Kt
deriving DecidableEq, Repr

namespace DrawingCommandType

def move_cmd : DrawingCommandType → DrawingCommand
  | .Svg => ⟨['M'], ['m']⟩
  | .Kt => ⟨"moveTo".data, "moveToRelative".data⟩

def line_cmd : DrawingCommandType → DrawingCommand
  | .Svg => ⟨['L'], ['l']⟩
  | .Kt => ⟨"lineTo".data, "lineToRelative".data⟩

def horizontal_line_cmd : DrawingCommandType → DrawingCommand
  | .Svg => ⟨['H'], ['h']⟩
  | .Kt => ⟨"horizontalLineTo".data, "horizontalLineToRelative".data⟩

def vertical_line_cmd : DrawingCommandType → DrawingCommand
  | .Svg => ⟨['V'], ['v']⟩
  | .Kt => ⟨"verticalLineTo".data, "verticalLineToRelative".data⟩

def curve_cmd : DrawingCommandType → DrawingCommand
  | .Svg => ⟨['C'], ['c']⟩
  | .Kt => ⟨"curveTo".data, "curveToRelative".data⟩

def smooth_curve_cmd : DrawingCommandType → DrawingCommand
  | .Svg => ⟨['S'], ['s']⟩
  | .Kt => ⟨"reflectiveCurveTo".data, "reflectiveCurveToRelative".data⟩

def quad_cmd : DrawingCommandType → DrawingCommand
  | .Svg => ⟨['Q'], ['q']⟩
  | .Kt => ⟨"quadTo".data, "quadToRelative".data⟩

def smooth_quad_cmd : DrawingCommandType → DrawingCommand
  | .Svg => ⟨['T'], ['t']⟩
  | .Kt => ⟨"reflectiveQuadTo".data, "reflectiveQuadToRelative".data⟩

def close_cmd : DrawingCommandType → DrawingCommand
  | .Svg => ⟨['Z'], ['z']⟩
  | .Kt => ⟨"            close()\n".data, "            close()\n".data⟩

/-- `collect_coords`: join coordinate strings.  In SVG syntax a space is
inserted before a coordinate unless the output is still empty or the
coordinate starts with `-`. -/
def collect_coords (dt : DrawingCommandType) (coords : List (List Char)) :
    List Char :=
  match dt with
  | .Svg =>
    coords.foldl
      (fun path coord =>
        path ++
          (if path ≠ [] ∧ coord.head? ≠ some '-' then [' '] else []) ++ coord)
      []
  | .Kt => '(' :: (List.intercalate ", ".data coords) ++ ")\n".data

def padding : DrawingCommandType → List Char
  | .Svg => []
  | .Kt => "            ".data

end DrawingCommandType

/-! ## Coordinate serialization (`ToSvgCoord`) -/

/-- `ToSvgCoord` trait from `pathstyle.rs`. -/
class ToSvgCoord (α : Type) where
  writeAbs : α → SvgPathStyle → DrawingCommandType → List Char
  writeRel : α → α → SvgPathStyle → DrawingCommandType → List Char

/-- The `f` suffix Kotlin coordinates get (`val.push('f')`). -/
def DrawingCommandType.coordSuffix : DrawingCommandType → List Char
  | .Kt => ['f']
  | .Svg => []

/-- `ToSvgCoord for f64`. -/
instance : ToSvgCoord ℚ where
  writeAbs q style dt := round_coord q style.precision ++ dt.coordSuffix
  writeRel q other style dt :=
    round_coord (q - other) style.precision ++ dt.coordSuffix

/-- Absolute form of one scalar coordinate. -/
def writeAbsQ (q : ℚ) (style : SvgPathStyle) (dt : DrawingCommandType) :
    List Char :=
  ToSvgCoord.writeAbs q style dt

/-- Absolute form of one point coordinate: `x` then `y`, comma-joined for
SVG unless the (unrounded) `y` is negative, `", "`-joined for Kotlin. -/
def writeAbsPt (p : Pt) (style : SvgPathStyle) (dt : DrawingCommandType) :
    List Char :=
  let xs := writeAbsQ p.x style dt
  let ys := writeAbsQ p.y style dt
  match dt with
  | .Kt => xs ++ ", ".data ++ ys
  | .Svg => if p.y < 0 then xs ++ ys else xs ++ ',' :: ys

/-- `ToSvgCoord for Point`. -/
instance : ToSvgCoord Pt where
  writeAbs := writeAbsPt
  writeRel p other style dt := writeAbsPt (Pt.sub p other) style dt

/-- Fragment appended to the output by `add_command` in `pathstyle.rs`:
serialize the coordinates both absolutely and (when a reference point is
given) relatively, keep whichever string is strictly shorter, prefixing the
matching command token. -/
def commandFrag {α : Type} [ToSvgCoord α] (style : SvgPathStyle)
    (dt : DrawingCommandType) (command : DrawingCommand) (coords : List α)
    (relativeTo : Option α) : List Char :=
  let absolute :=
    dt.collect_coords (coords.map (fun p => ToSvgCoord.writeAbs p style dt))
  let relative := relativeTo.map (fun relTo =>
    dt.collect_coords
      (coords.map (fun p => ToSvgCoord.writeRel p relTo style dt)))
  dt.padding ++
    match relative with
    | some rel =>
      if rel.length < absolute.length then command.rel ++ rel
      else command.abs ++ absolute
    | none => command.abs ++ absolute

/-- `add_command`: append the chosen serialization to the output string. -/
def add_command {α : Type} [ToSvgCoord α] (svg : List Char)
    (style : SvgPathStyle) (dt : DrawingCommandType)
    (command : DrawingCommand) (coords : List α) (relativeTo : Option α) :
    List Char :=
  svg ++ commandFrag style dt command coords relativeTo

/-! ## `to_unchanged_path` -/

/-- Loop state of `to_unchanged_path`. -/
structure UnchangedState where
  svg : List Char
  subpath_start : Pt
  curr : Pt

/-- Fragment emitted by one loop iteration of `to_unchanged_path`. -/
def unchangedFrag (style : SvgPathStyle) (dt : DrawingCommandType)
    (subpath_start curr : Pt) : PathEl → List Char
  | .moveTo p => commandFrag style dt dt.move_cmd [p] none
  | .lineTo p => commandFrag style dt dt.line_cmd [p] none
  | .quadTo p1 p2 => commandFrag style dt dt.quad_cmd [p1, p2] none
  | .curveTo p1 p2 p3 => commandFrag style dt dt.curve_cmd [p1, p2, p3] none
  | .closePath =>
    (if curr ≠ subpath_start
     then commandFrag style dt dt.line_cmd [subpath_start] none
     else []) ++ dt.close_cmd.abs

/-- One loop iteration of `to_unchanged_path` in `pathstyle.rs`. -/
def unchangedStep (style : SvgPathStyle) (dt : DrawingCommandType)
    (s : UnchangedState) (el : PathEl) : UnchangedState :=
  { svg := s.svg ++ unchangedFrag style dt s.subpath_start s.curr el
    subpath_start :=
      match el with
      | .moveTo p => p
      | _ => s.subpath_start
    curr :=
      match el with
      | .moveTo p => p
      | .lineTo p => p
      | .quadTo _ p2 => p2
      | .curveTo _ _ p3 => p3
      | .closePath => s.subpath_start }

/-- `to_unchanged_path` from `pathstyle.rs`. -/
def to_unchanged_path (path : List PathEl) (dt : DrawingCommandType)
    (style : SvgPathStyle) : List Char :=
  (path.foldl (unchangedStep style dt) ⟨[], ⟨0, 0⟩, ⟨0, 0⟩⟩).svg

/-! ## `to_compact_path` -/

/-- `compact_line_to` from `pathstyle.rs` (emitted fragment). -/
def compact_line_to (style : SvgPathStyle) (dt : DrawingCommandType)
    (p curr : Pt) : List Char :=
  if p.x = curr.x then
    commandFrag style dt dt.vertical_line_cmd [p.y] (some curr.y)
  else if p.y = curr.y then
    commandFrag style dt dt.horizontal_line_cmd [p.x] (some curr.x)
  else
    commandFrag style dt dt.line_cmd [p] (some curr)

/-- `implied_control`: reflection of the prior control over the prior end. -/
def implied_control (prior_control prior_end : Pt) : Pt :=
  ⟨prior_control.x + 2 * (prior_end.x - prior_control.x),
   prior_control.y + 2 * (prior_end.y - prior_control.y)⟩

/-- `try_add_smooth_quad`: `some` fragment when the smooth form applies,
`none` otherwise (the Rust function returns `false` and emits nothing). -/
def try_add_smooth_quad (style : SvgPathStyle) (dt : DrawingCommandType)
    (prev : Option PathEl) (p1 p2 : Pt) : Option (List Char) :=
  match prev with
  | some (.quadTo prev_p1 prev_p2) =>
    if style.roundEqPt (implied_control prev_p1 prev_p2) p1 then
      some (commandFrag style dt dt.smooth_quad_cmd [p2] (some prev_p2))
    else none
  | _ => none

/-- `try_add_smooth_curve`. -/
def try_add_smooth_curve (style : SvgPathStyle) (dt : DrawingCommandType)
    (prev : Option PathEl) (p1 p2 p3 : Pt) : Option (List Char) :=
  match prev with
  | some (.curveTo _ prev_p2 prev_p3) =>
    if style.roundEqPt (implied_control prev_p2 prev_p3) p1 then
      some (commandFrag style dt dt.smooth_curve_cmd [p2, p3] (some prev_p3))
    else none
  | _ => none

/-- Loop state of `to_compact_path`. -/
structure CompactState where
  svg : List Char
  subpath_start : Pt
  curr : Pt
  prev : Option PathEl

/-- Fragment emitted by one loop iteration of `to_compact_path`. -/
def compactFrag (style : SvgPathStyle) (dt : DrawingCommandType)
    (subpath_start curr : Pt) (prev : Option PathEl) : PathEl → List Char
  | .moveTo p => commandFrag style dt dt.move_cmd [p] (some curr)
  | .lineTo p =>
    if style.roundEqPt curr p then [] else compact_line_to style dt p curr
  | .quadTo p1 p2 =>
    if style.roundEqPt curr p2 then []
    else
      match try_add_smooth_quad style dt prev p1 p2 with
      | some frag => frag
      | none => commandFrag style dt dt.quad_cmd [p1, p2] (some curr)
  | .curveTo p1 p2 p3 =>
    if style.roundEqPt curr p3 then []
    else
      match try_add_smooth_curve style dt prev p1 p2 p3 with
      | some frag => frag
      | none => commandFrag style dt dt.curve_cmd [p1, p2, p3] (some curr)
  | .closePath =>
    (if style.roundEqPt curr subpath_start then []
     else compact_line_to style dt subpath_start curr) ++ dt.close_cmd.abs

/-- One loop iteration of `to_compact_path` in `pathstyle.rs`. -/
def compactStep (style : SvgPathStyle) (dt : DrawingCommandType)
    (s : CompactState) (el : PathEl) : CompactState :=
  { svg := s.svg ++ compactFrag style dt s.subpath_start s.curr s.prev el
    subpath_start :=
      match el with
      | .moveTo p => p
      | _ => s.subpath_start
    curr :=
      match el with
      | .moveTo p => p
      | .lineTo p => p
      | .quadTo _ p2 => p2
      | .curveTo _ _ p3 => p3
      | .closePath => s.subpath_start
    prev := some el }

/-- `to_compact_path` from `pathstyle.rs`. -/
def to_compact_path (path : List PathEl) (dt : DrawingCommandType)
    (style : SvgPathStyle) : List Char :=
  (path.foldl (compactStep style dt) ⟨[], ⟨0, 0⟩, ⟨0, 0⟩, none⟩).svg

/-- `SvgPathStyle::write_path`. -/
def write_path (style : SvgPathStyle) (path : List PathEl)
    (dt : DrawingCommandType) : List Char :=
  match style with
  | .Unchanged _ => to_unchanged_path path dt style
  | .Compact _ => to_compact_path path dt style

/-- `SvgPathStyle::write_svg_path`, as a Lean `String`. -/
def write_svg_path (style : SvgPathStyle) (path : List PathEl) : String :=
  ⟨write_path style path .Svg⟩

/-! ## Decoding SVG path strings back into drawing commands

Modelled from the spec: "decoding Compact-style output and decoding
Unchanged-style output must describe the same polygon after rounding to the
configured precision".  The decoder below parses an SVG path-data string
per the SVG grammar (absolute and relative commands, `H`/`V` shorthands,
smooth `T`/`S` forms, `Z`) and records the polygon it describes: the
sequence of on-curve points visited. -/

/-- Numeric value of a decimal digit character. -/
def digitVal (c : Char) : ℕ := c.toNat - '0'.toNat

/-- Value of a big-endian decimal digit string. -/
def charsToNat (l : List Char) : ℕ := l.foldl (fun a c => 10 * a + digitVal c) 0

/-- Parse an optional fractional part `'.' digit+` after the integer
digits, returning the fraction value and the remaining characters;
`none` when a `'.'` is present but not followed by a digit. -/
def parseFrac (cs2 : List Char) : Option (ℚ × List Char) :=
  if cs2.head? = some '.' then
    if cs2.tail.takeWhile Char.isDigit = [] then none
    else
      some ((charsToNat (cs2.tail.takeWhile Char.isDigit) : ℚ) /
          10 ^ (cs2.tail.takeWhile Char.isDigit).length,
        cs2.tail.dropWhile Char.isDigit)
  else some (0, cs2)

/-- Parse an unsigned decimal number `digit+ ['.' digit+]`, negated when
`neg` is set. -/
def parseNumCore (neg : Bool) (cs1 : List Char) : Option (ℚ × List Char) :=
  if cs1.takeWhile Char.isDigit = [] then none
  else
    match parseFrac (cs1.dropWhile Char.isDigit) with
    | none => none
    | some (frac, rest) =>
      some ((if neg then -1 else 1) *
          ((charsToNat (cs1.takeWhile Char.isDigit) : ℚ) + frac),
        rest)

/-- Parse one signed decimal number: `['-'] digit+ ['.' digit+]`. -/
def parseNum (cs : List Char) : Option (ℚ × List Char) :=
  if cs.head? = some '-' then parseNumCore true cs.tail
  else parseNumCore false cs

/-- Skip SVG coordinate separators. -/
def skipSeps (cs : List Char) : List Char :=
  cs.dropWhile (fun c => c = ',' ∨ c = ' ')

/-- Parse `k` numbers, each preceded by optional separators. -/
def parseNums : ℕ → List Char → Option (List ℚ × List Char)
  | 0, cs => some ([], cs)
  | k + 1, cs =>
    match parseNum (skipSeps cs) with
    | none => none
    | some (q, rest) =>
      match parseNums k rest with
      | none => none
      | some (qs, rest2) => some (q :: qs, rest2)

theorem length_dropWhile_le (p : Char → Bool) (l : List Char) :
    (l.dropWhile p).length ≤ l.length := by
  induction l with
  | nil => simp
  | cons a t ih =>
    by_cases h : p a <;> simp [List.dropWhile_cons, h] <;> omega

theorem parseFrac_length_le {cs2 : List Char} {q : ℚ} {rest : List Char}
    (h : parseFrac cs2 = some (q, rest)) : rest.length ≤ cs2.length := by
  unfold parseFrac at h
  split at h
  · split at h
    · exact absurd h (by simp)
    · simp only [Option.some.injEq, Prod.mk.injEq] at h
      rw [← h.2]
      calc (cs2.tail.dropWhile Char.isDigit).length
          ≤ cs2.tail.length := length_dropWhile_le _ _
        _ ≤ cs2.length := by cases cs2 <;> simp
  · simp only [Option.some.injEq, Prod.mk.injEq] at h
    simp [← h.2]

theorem parseNumCore_length_le {neg : Bool} {cs1 : List Char} {q : ℚ}
    {rest : List Char} (h : parseNumCore neg cs1 = some (q, rest)) :
    rest.length ≤ cs1.length := by
  unfold parseNumCore at h
  split at h
  · exact absurd h (by simp)
  · split at h
    · exact absurd h (by simp)
    · rename_i fq frest hf
      simp only [Option.some.injEq, Prod.mk.injEq] at h
      rw [← h.2]
      calc frest.length ≤ (cs1.dropWhile Char.isDigit).length :=
            parseFrac_length_le hf
        _ ≤ cs1.length := length_dropWhile_le _ _

theorem parseNum_length_le {cs : List Char} {q : ℚ} {rest : List Char}
    (h : parseNum cs = some (q, rest)) : rest.length ≤ cs.length := by
  unfold parseNum at h
  split at h
  · calc rest.length ≤ cs.tail.length := parseNumCore_length_le h
      _ ≤ cs.length := by cases cs <;> simp
  · exact parseNumCore_length_le h

theorem skipSeps_length_le (cs : List Char) :
    (skipSeps cs).length ≤ cs.length := length_dropWhile_le _ _

theorem parseNums_length_le :
    ∀ {k : ℕ} {cs : List Char} {qs : List ℚ} {rest : List Char},
      parseNums k cs = some (qs, rest) → rest.length ≤ cs.length := by
  intro k
  induction k with
  | zero =>
    intro cs qs rest h
    simp [parseNums] at h
    simp [h.2]
  | succ n ih =>
    intro cs qs rest h
    unfold parseNums at h
    split at h
    · exact absurd h (by simp)
    · rename_i q r1 h1
      split at h
      · exact absurd h (by simp)
      · rename_i qs2 r2 h2
        simp only [Option.some.injEq, Prod.mk.injEq] at h
        rw [← h.2]
        calc r2.length ≤ r1.length := ih h2
          _ ≤ (skipSeps cs).length := parseNum_length_le h1
          _ ≤ cs.length := skipSeps_length_le cs

/-- Decoder state: current point, subpath start, and the polygon vertices
(on-curve points) recorded so far. -/
structure DecState where
  curr : Pt
  start : Pt
  verts : List Pt
deriving DecidableEq, Repr

/-- Number of coordinate scalars each SVG command letter takes. -/
def cmdArity (c : Char) : Option ℕ :=
  if c = 'M' ∨ c = 'm' ∨ c = 'L' ∨ c = 'l' ∨ c = 'T' ∨ c = 't' then some 2
  else if c = 'H' ∨ c = 'h' ∨ c = 'V' ∨ c = 'v' then some 1
  else if c = 'Q' ∨ c = 'q' ∨ c = 'S' ∨ c = 's' then some 4
  else if c = 'C' ∨ c = 'c' then some 6
  else none

/-- Apply one decoded SVG command to the decoder state.  Every drawing
command appends its on-curve endpoint to the recorded polygon; `M`/`m`
also restarts the subpath. -/
def applyCmd (st : DecState) (c : Char) (vals : List ℚ) : Option DecState :=
  match c, vals with
  | 'M', [x, y] =>
    some ⟨⟨x, y⟩, ⟨x, y⟩, st.verts ++ [⟨x, y⟩]⟩
  | 'm', [x, y] =>
    some ⟨⟨st.curr.x + x, st.curr.y + y⟩, ⟨st.curr.x + x, st.curr.y + y⟩,
      st.verts ++ [⟨st.curr.x + x, st.curr.y + y⟩]⟩
  | 'L', [x, y] => some ⟨⟨x, y⟩, st.start, st.verts ++ [⟨x, y⟩]⟩
  | 'l', [x, y] =>
    some ⟨⟨st.curr.x + x, st.curr.y + y⟩, st.start,
      st.verts ++ [⟨st.curr.x + x, st.curr.y + y⟩]⟩
  | 'H', [x] => some ⟨⟨x, st.curr.y⟩, st.start, st.verts ++ [⟨x, st.curr.y⟩]⟩
  | 'h', [x] =>
    some ⟨⟨st.curr.x + x, st.curr.y⟩, st.start,
      st.verts ++ [⟨st.curr.x + x, st.curr.y⟩]⟩
  | 'V', [y] => some ⟨⟨st.curr.x, y⟩, st.start, st.verts ++ [⟨st.curr.x, y⟩]⟩
  | 'v', [y] =>
    some ⟨⟨st.curr.x, st.curr.y + y⟩, st.start,
      st.verts ++ [⟨st.curr.x, st.curr.y + y⟩]⟩
  | 'Q', [_, _, x2, y2] => some ⟨⟨x2, y2⟩, st.start, st.verts ++ [⟨x2, y2⟩]⟩
  | 'q', [_, _, x2, y2] =>
    some ⟨⟨st.curr.x + x2, st.curr.y + y2⟩, st.start,
      st.verts ++ [⟨st.curr.x + x2, st.curr.y + y2⟩]⟩
  | 'T', [x, y] => some ⟨⟨x, y⟩, st.start, st.verts ++ [⟨x, y⟩]⟩
  | 't', [x, y] =>
    some ⟨⟨st.curr.x + x, st.curr.y + y⟩, st.start,
      st.verts ++ [⟨st.curr.x + x, st.curr.y + y⟩]⟩
  | 'S', [_, _, x3, y3] => some ⟨⟨x3, y3⟩, st.start, st.verts ++ [⟨x3, y3⟩]⟩
  | 's', [_, _, x3, y3] =>
    some ⟨⟨st.curr.x + x3, st.curr.y + y3⟩, st.start,
      st.verts ++ [⟨st.curr.x + x3, st.curr.y + y3⟩]⟩
  | 'C', [_, _, _, _, x3, y3] =>
    some ⟨⟨x3, y3⟩, st.start, st.verts ++ [⟨x3, y3⟩]⟩
  | 'c', [_, _, _, _, x3, y3] =>
    some ⟨⟨st.curr.x + x3, st.curr.y + y3⟩, st.start,
      st.verts ++ [⟨st.curr.x + x3, st.curr.y + y3⟩]⟩
  | _, _ => none

/-- Decode an SVG path-data string: one command letter followed by its
coordinates, repeatedly; `Z`/`z` closes the subpath. -/
def decodeLoop (st : DecState) : List Char → Option DecState
  | [] => some st
  | c :: cs =>
    if c = 'Z' ∨ c = 'z' then
      decodeLoop ⟨st.start, st.start, st.verts⟩ cs
    else
      match cmdArity c with
      | none => none
      | some k =>
        match h : parseNums k cs with
        | none => none
        | some (vals, rest) =>
          match applyCmd st c vals with
          | none => none
          | some st2 => decodeLoop st2 rest
termination_by cs => cs.length
decreasing_by
  · simp
  · simp only [List.length_cons]
    have := parseNums_length_le h
    omega

/-- Collapse consecutive duplicate vertices (starting from anchor `a`): a
repeated point does not change the polygon a path describes. -/
def squash (a : Pt) : List Pt → List Pt
  | [] => []
  | x :: xs => if x = a then squash a xs else x :: squash x xs

/-- The polygon described by an SVG path string, after rounding every
coordinate to `precision` decimal places: decode the drawing commands,
round the on-curve points, collapse consecutive duplicates.  `none` when
the string does not parse.  Modelled from the spec: "decoding
Compact-style output and decoding Unchanged-style output must describe the
same polygon after rounding to the configured precision". -/
def decodedGeometry (precision : ℕ) (cs : List Char) : Option (List Pt) :=
  (decodeLoop ⟨⟨0, 0⟩, ⟨0, 0⟩, []⟩ cs).map
    (fun st => squash ⟨0, 0⟩ (st.verts.map (fun p => roundPrecPt p precision)))

/-! ## Round-trip: parsing back a formatted coordinate -/

theorem digitVal_digitChar {d : ℕ} (h : d < 10) :
    digitVal (Nat.digitChar d) = d := by
  interval_cases d <;> rfl

theorem isDigit_digitChar {d : ℕ} (h : d < 10) :
    (Nat.digitChar d).isDigit = true := by
  interval_cases d <;> rfl

theorem natChars_all_digits {n : ℕ} : ∀ c ∈ natChars n, c.isDigit = true := by
  intro c hc
  unfold natChars at hc
  rw [List.mem_reverse, List.mem_map] at hc
  obtain ⟨d, hd, rfl⟩ := hc
  exact isDigit_digitChar (Nat.digits_lt_base (by norm_num) hd)

theorem natStr_all_digits {n : ℕ} : ∀ c ∈ natStr n, c.isDigit = true := by
  intro c hc
  unfold natStr at hc
  split at hc
  · simp at hc
    simp [hc]
  · exact natChars_all_digits c hc

theorem natStr_ne_nil (n : ℕ) : natStr n ≠ [] := by
  unfold natStr
  split
  · simp
  · rename_i h
    unfold natChars
    simp [Nat.digits_ne_nil_iff_ne_zero, h]

theorem charsToNat_natChars (n : ℕ) : charsToNat (natChars n) = n := by
  have key : ∀ l : List ℕ, (∀ d ∈ l, d < 10) →
      (l.map Nat.digitChar).foldr (fun c a => 10 * a + digitVal c) 0 =
        Nat.ofDigits 10 l := by
    intro l
    induction l with
    | nil => intro _; simp [Nat.ofDigits_nil]
    | cons d t ih =>
      intro hl
      simp only [List.map_cons, List.foldr_cons, Nat.ofDigits_cons]
      rw [ih (fun x hx => hl x (List.mem_cons_of_mem _ hx)),
        digitVal_digitChar (hl d (List.mem_cons_self _ _))]
      ring
  unfold charsToNat natChars
  rw [List.foldl_reverse,
    key _ (fun d hd => Nat.digits_lt_base (by norm_num) hd),
    Nat.ofDigits_digits]

theorem charsToNat_natStr (n : ℕ) : charsToNat (natStr n) = n := by
  unfold natStr
  split
  · rename_i h
    subst h
    rfl
  · exact charsToNat_natChars n

theorem charsToNat_cons_zero (l : List Char) :
    charsToNat ('0' :: l) = charsToNat l := by
  unfold charsToNat
  rw [List.foldl_cons]
  norm_num [digitVal]

theorem charsToNat_replicate_zero (k : ℕ) (l : List Char) :
    charsToNat (List.replicate k '0' ++ l) = charsToNat l := by
  induction k with
  | zero => rfl
  | succ n ih => rw [List.replicate_succ, List.cons_append, charsToNat_cons_zero, ih]

theorem charsToNat_concat (l : List Char) (c : Char) :
    charsToNat (l ++ [c]) = 10 * charsToNat l + digitVal c := by
  unfold charsToNat
  rw [List.foldl_append]
  rfl

theorem charsToNat_rev_dropZeros : ∀ r : List Char,
    charsToNat r.reverse =
      charsToNat ((r.dropWhile (fun c => c = '0')).reverse) *
        10 ^ (r.length - (r.dropWhile (fun c => c = '0')).length) := by
  intro r
  induction r with
  | nil => simp
  | cons c t ih =>
    by_cases hc : c = '0'
    · subst hc
      rw [List.dropWhile_cons]
      simp only [decide_True, if_true]
      rw [List.reverse_cons, charsToNat_concat]
      have hd0 : digitVal '0' = 0 := rfl
      rw [hd0, ih]
      have hlen : (t.dropWhile (fun c => c = '0')).length ≤ t.length :=
        length_dropWhile_le _ _
      have hexp : ('0' :: t).length - (t.dropWhile (fun c => c = '0')).length =
          (t.length - (t.dropWhile (fun c => c = '0')).length) + 1 := by
        simp only [List.length_cons]
        omega
      rw [hexp, pow_succ]
      ring
    · rw [List.dropWhile_cons]
      simp [hc]

theorem dropTrailingZeros_value (l : List Char) :
    charsToNat l =
      charsToNat (dropTrailingZeros l) *
        10 ^ (l.length - (dropTrailingZeros l).length) := by
  have h := charsToNat_rev_dropZeros l.reverse
  rw [List.reverse_reverse] at h
  unfold dropTrailingZeros
  simpa using h

theorem dropTrailingZeros_length_le (l : List Char) :
    (dropTrailingZeros l).length ≤ l.length := by
  unfold dropTrailingZeros
  calc ((l.reverse.dropWhile (fun c => c = '0')).reverse).length
      = (l.reverse.dropWhile (fun c => c = '0')).length := by simp
    _ ≤ l.reverse.length := length_dropWhile_le _ _
    _ = l.length := by simp

theorem mem_of_mem_dropWhile {p : Char → Bool} :
    ∀ {l : List Char} {c : Char}, c ∈ l.dropWhile p → c ∈ l := by
  intro l
  induction l with
  | nil => intro c hc; simp at hc
  | cons a t ih =>
    intro c hc
    rw [List.dropWhile_cons] at hc
    split at hc
    · exact List.mem_cons_of_mem _ (ih hc)
    · exact hc

theorem mem_dropTrailingZeros {c : Char} {l : List Char}
    (h : c ∈ dropTrailingZeros l) : c ∈ l := by
  unfold dropTrailingZeros at h
  rw [List.mem_reverse] at h
  have := mem_of_mem_dropWhile h
  rw [List.mem_reverse] at this
  exact this

theorem takeWhile_all_append {p : Char → Bool} :
    ∀ (l : List Char) {rest : List Char}, (∀ c ∈ l, p c = true) →
      (∀ c, rest.head? = some c → p c = false) →
      (l ++ rest).takeWhile p = l := by
  intro l
  induction l with
  | nil =>
    intro rest _ hr
    cases rest with
    | nil => rfl
    | cons r t => simp [List.takeWhile_cons, hr r rfl]
  | cons a t ih =>
    intro rest hl hr
    simp only [List.cons_append, List.takeWhile_cons,
      hl a (List.mem_cons_self _ _), if_true]
    rw [ih (fun c hc => hl c (List.mem_cons_of_mem _ hc)) hr]

theorem dropWhile_all_append {p : Char → Bool} :
    ∀ (l : List Char) {rest : List Char}, (∀ c ∈ l, p c = true) →
      (∀ c, rest.head? = some c → p c = false) →
      (l ++ rest).dropWhile p = rest := by
  intro l
  induction l with
  | nil =>
    intro rest _ hr
    cases rest with
    | nil => rfl
    | cons r t => simp [List.dropWhile_cons, hr r rfl]
  | cons a t ih =>
    intro rest hl hr
    simp only [List.cons_append, List.dropWhile_cons,
      hl a (List.mem_cons_self _ _), if_true]
    exact ih (fun c hc => hl c (List.mem_cons_of_mem _ hc)) hr

/-- Characters that can continue a number; a fragment lemma requires the
following characters not to start with one. -/
def numCont (c : Char) : Bool := c.isDigit ∨ c = '.'

theorem parseNumCore_parts (neg : Bool) (I F : List Char) {rest : List Char}
    (hI : ∀ c ∈ I, c.isDigit = true) (hIne : I ≠ [])
    (hF : ∀ c ∈ F, c.isDigit = true)
    (hrest : ∀ c, rest.head? = some c → numCont c = false) :
    parseNumCore neg (I ++ (if F = [] then [] else '.' :: F) ++ rest) =
      some ((if neg then -1 else 1) *
        ((charsToNat I : ℚ) + (charsToNat F : ℚ) / 10 ^ F.length), rest) := by
  have hrest' : ∀ c, rest.head? = some c → c.isDigit = false := by
    intro c hc
    have := hrest c hc
    unfold numCont at this
    simp at this
    exact this.1
  have hrestDot : ∀ c, rest.head? = some c → c ≠ '.' := by
    intro c hc
    have := hrest c hc
    unfold numCont at this
    simp at this
    exact this.2
  by_cases hFnil : F = []
  · subst hFnil
    simp only [if_true, List.append_nil]
    unfold parseNumCore
    rw [takeWhile_all_append I hI hrest', dropWhile_all_append I hI hrest']
    simp only [hIne, if_false]
    unfold parseFrac
    have hne : rest.head? ≠ some '.' := by
      intro hcon
      exact hrestDot '.' hcon rfl
    simp only [hne, if_false]
    simp [charsToNat]
  · have hdot : ∀ c, ('.' :: (F ++ rest)).head? = some c → c.isDigit = false := by
      intro c hc
      simp only [List.head?_cons, Option.some.injEq] at hc
      rw [← hc]
      decide
    unfold parseNumCore
    rw [if_neg hFnil]
    have h1 : I ++ '.' :: F ++ rest = I ++ ('.' :: (F ++ rest)) := by simp
    rw [h1, takeWhile_all_append I hI hdot, dropWhile_all_append I hI hdot]
    simp only [hIne, if_false]
    unfold parseFrac
    simp only [List.head?_cons, Option.some.injEq, if_pos rfl, List.tail_cons]
    rw [takeWhile_all_append F hF hrest', dropWhile_all_append F hF hrest']
    simp [hFnil]

theorem natChars_length_le {fp p : ℕ} (h : fp < 10 ^ p) :
    (natChars fp).length ≤ p := by
  unfold natChars
  simp only [List.length_reverse, List.length_map]
  rcases Nat.eq_zero_or_pos fp with h0 | hpos
  · subst h0
    simp
  · rw [Nat.digits_len 10 fp (by norm_num) (by omega)]
    have := (Nat.lt_pow_iff_log_lt (by norm_num : 1 < 10) (by omega : fp ≠ 0)).mp h
    omega

/-- The fractional digit string of `formatScaled`. -/
def fracPartStr (m p : ℕ) : List Char :=
  dropTrailingZeros
    (List.replicate (p - (natChars (m % 10 ^ p)).length) '0' ++
      natChars (m % 10 ^ p))

theorem formatScaled_eq (n : ℤ) (p : ℕ) :
    formatScaled n p =
      (if n < 0 then ['-'] else []) ++ natStr (n.natAbs / 10 ^ p) ++
        (if fracPartStr n.natAbs p = [] then []
         else '.' :: fracPartStr n.natAbs p) := rfl

theorem fracPartStr_all_digits {m p : ℕ} :
    ∀ c ∈ fracPartStr m p, c.isDigit = true := by
  intro c hc
  unfold fracPartStr at hc
  have hmem := mem_dropTrailingZeros hc
  rw [List.mem_append] at hmem
  rcases hmem with hrep | hdig
  · rw [List.eq_of_mem_replicate hrep]
    rfl
  · exact natChars_all_digits c hdig

theorem fracPartStr_spec (m p : ℕ) :
    ((m % 10 ^ p : ℕ) : ℚ) / 10 ^ p =
      (charsToNat (fracPartStr m p) : ℚ) / 10 ^ (fracPartStr m p).length := by
  have hfp : m % 10 ^ p < 10 ^ p := Nat.mod_lt _ (by positivity)
  have hlen : (natChars (m % 10 ^ p)).length ≤ p := natChars_length_le hfp
  set full := List.replicate (p - (natChars (m % 10 ^ p)).length) '0' ++
    natChars (m % 10 ^ p) with hfull
  have hfullLen : full.length = p := by
    rw [hfull]
    simp only [List.length_append, List.length_replicate]
    omega
  have hfullVal : charsToNat full = m % 10 ^ p := by
    rw [hfull, charsToNat_replicate_zero, charsToNat_natChars]
  have hval := dropTrailingZeros_value full
  have hL : (dropTrailingZeros full).length ≤ p := by
    rw [← hfullLen]
    exact dropTrailingZeros_length_le full
  rw [hfullVal, hfullLen] at hval
  unfold fracPartStr
  rw [← hfull]
  have hcast : ((m % 10 ^ p : ℕ) : ℚ) =
      (charsToNat (dropTrailingZeros full) : ℚ) *
        10 ^ (p - (dropTrailingZeros full).length) := by
    exact_mod_cast congrArg (fun k : ℕ => (k : ℚ)) hval
  rw [hcast]
  have hpow : (10 : ℚ) ^ (p - (dropTrailingZeros full).length) *
      10 ^ (dropTrailingZeros full).length = 10 ^ p := by
    rw [← pow_add]
    congr 1
    omega
  rw [div_eq_div_iff (by positivity) (by positivity)]
  rw [mul_assoc, hpow]

theorem parseNum_formatScaled (n : ℤ) (p : ℕ) {rest : List Char}
    (hrest : ∀ c, rest.head? = some c → numCont c = false) :
    parseNum (formatScaled n p ++ rest) = some ((n : ℚ) / 10 ^ p, rest) := by
  set m := n.natAbs with hm
  set I := natStr (m / 10 ^ p) with hI
  set F := fracPartStr m p with hF
  have hIdig : ∀ c ∈ I, c.isDigit = true := natStr_all_digits
  have hIne : I ≠ [] := natStr_ne_nil _
  have hFdig : ∀ c ∈ F, c.isDigit = true := fracPartStr_all_digits
  have hcompose := fun (neg : Bool) => @parseNumCore_parts neg I F rest
  have hvalNat : (charsToNat I : ℚ) + (charsToNat F : ℚ) / 10 ^ F.length =
      (m : ℚ) / 10 ^ p := by
    rw [hI, charsToNat_natStr, hF, ← fracPartStr_spec]
    have hdm : (m / 10 ^ p) * 10 ^ p + m % 10 ^ p = m := by
      rw [mul_comm]
      exact Nat.div_add_mod m (10 ^ p)
    have hcast : ((m / 10 ^ p : ℕ) : ℚ) * 10 ^ p + ((m % 10 ^ p : ℕ) : ℚ) =
        (m : ℚ) := by
      exact_mod_cast hdm
    field_simp
    linarith [hcast]
  by_cases hneg : n < 0
  · have hfmt : formatScaled n p ++ rest =
        '-' :: (I ++ (if F = [] then [] else '.' :: F) ++ rest) := by
      rw [formatScaled_eq, if_pos hneg, ← hm, ← hI, ← hF]
      simp
    rw [hfmt]
    unfold parseNum
    simp only [List.head?_cons, Option.some.injEq, if_pos rfl, List.tail_cons]
    rw [hcompose true hIdig hIne hFdig hrest, hvalNat]
    have hnm : (n : ℚ) = -(m : ℚ) := by
      rw [hm]
      push_cast [Int.cast_natAbs]
      rw [abs_of_neg (show (n : ℚ) < 0 by exact_mod_cast hneg)]
      ring
    rw [hnm, neg_div]
    norm_num
  · have hfmt : formatScaled n p ++ rest =
        I ++ (if F = [] then [] else '.' :: F) ++ rest := by
      rw [formatScaled_eq, if_neg hneg, ← hm, ← hI, ← hF]
      simp
    rw [hfmt]
    unfold parseNum
    obtain ⟨c0, t0, hI0⟩ := List.exists_cons_of_ne_nil hIne
    have hc0 : c0.isDigit = true := by
      apply hIdig
      rw [hI0]
      exact List.mem_cons_self _ _
    have hhead : (I ++ (if F = [] then [] else '.' :: F) ++ rest).head? ≠
        some '-' := by
      rw [hI0]
      simp only [List.cons_append, List.head?_cons]
      intro hcon
      injection hcon with hcon
      rw [hcon] at hc0
      exact absurd hc0 (by decide)
    rw [if_neg hhead, hcompose false hIdig hIne hFdig hrest, hvalNat]
    have hnm : (n : ℚ) = (m : ℚ) := by
      rw [hm]
      push_cast [Int.cast_natAbs]
      rw [abs_of_nonneg
        (show (0:ℚ) ≤ (n:ℚ) by push_neg at hneg; exact_mod_cast hneg)]
    rw [hnm]
    norm_num

theorem parseNum_round_coord (q : ℚ) (p : ℕ) {rest : List Char}
    (hrest : ∀ c, rest.head? = some c → numCont c = false) :
    parseNum (round_coord q p ++ rest) = some (roundPrec q p, rest) := by
  unfold round_coord roundPrec
  have hrest' : ∀ c, rest.head? = some c → c.isDigit = false := by
    intro c hc
    have := hrest c hc
    unfold numCont at this
    simp at this
    exact this.1
  by_cases hz : roundHalfAway (q * 10 ^ p) = 0 ∧ q < 0
  · rw [if_pos hz, hz.1]
    have hfmt : ['-', '0'] ++ rest = '-' :: ('0' :: rest) := rfl
    rw [hfmt]
    unfold parseNum
    simp only [List.head?_cons]
    rw [if_pos trivial, List.tail_cons]
    have hd : ∀ c ∈ (['0'] : List Char), c.isDigit = true := by
      intro c hc
      simp at hc
      rw [hc]
      rfl
    have ht : (['0'] ++ rest).takeWhile Char.isDigit = ['0'] :=
      takeWhile_all_append _ hd hrest'
    have hdp : (['0'] ++ rest).dropWhile Char.isDigit = rest :=
      dropWhile_all_append _ hd hrest'
    unfold parseNumCore
    rw [show ('0' :: rest : List Char) = ['0'] ++ rest from rfl, ht, hdp]
    simp only [List.cons_ne_nil, if_false, ite_false]
    unfold parseFrac
    have hne : rest.head? ≠ some '.' := by
      intro hcon
      have := hrest '.' hcon
      unfold numCont at this
      simp at this
    rw [if_neg hne]
    have hc0 : charsToNat ['0'] = 0 := rfl
    rw [hc0]
    norm_num
  · rw [if_neg hz]
    rw [parseNum_formatScaled _ _ hrest]

/-! ## Exact coordinates

A coordinate is exact at a precision when rounding to that precision does
not change it (it is an integer multiple of `10^-precision`). -/

/-- `q` is unchanged by rounding to `precision` decimal places. -/
def exactQ (precision : ℕ) (q : ℚ) : Prop := roundPrec q precision = q

/-- Both coordinates of `p` are exact. -/
def exactPt (precision : ℕ) (p : Pt) : Prop :=
  exactQ precision p.x ∧ exactQ precision p.y

/-- Every coordinate of a path element is exact. -/
def elExact (precision : ℕ) : PathEl → Prop
  | .moveTo p => exactPt precision p
  | .lineTo p => exactPt precision p
  | .quadTo p1 p2 => exactPt precision p1 ∧ exactPt precision p2
  | .curveTo p1 p2 p3 =>
    exactPt precision p1 ∧ exactPt precision p2 ∧ exactPt precision p3
  | .closePath => True

/-- Every coordinate of a path is exact. -/
def pathExact (precision : ℕ) (path : List PathEl) : Prop :=
  ∀ el ∈ path, elExact precision el

instance (precision : ℕ) (q : ℚ) : Decidable (exactQ precision q) := by
  unfold exactQ
  infer_instance

instance (precision : ℕ) (p : Pt) : Decidable (exactPt precision p) := by
  unfold exactPt
  infer_instance

instance (precision : ℕ) (el : PathEl) : Decidable (elExact precision el) := by
  unfold elExact
  cases el <;> infer_instance

instance (precision : ℕ) (path : List PathEl) :
    Decidable (pathExact precision path) := by
  unfold pathExact
  infer_instance

theorem exactQ_iff {precision : ℕ} {q : ℚ} :
    exactQ precision q ↔ ∃ n : ℤ, q = (n : ℚ) / 10 ^ precision := by
  constructor
  · intro h
    exact ⟨roundHalfAway (q * 10 ^ precision), h.symm⟩
  · rintro ⟨n, rfl⟩
    unfold exactQ roundPrec
    have h10 : ((10 : ℚ) ^ precision) ≠ 0 := by positivity
    rw [div_mul_cancel₀ _ h10]
    have : roundHalfAway (n : ℚ) = n := by
      unfold roundHalfAway
      by_cases hn : 0 ≤ (n : ℚ)
      · rw [if_pos hn, Int.floor_int_add]
        norm_num
      · rw [if_neg hn,
          show -(n : ℚ) + 1 / 2 = ((-n : ℤ) : ℚ) + (1 / 2 : ℚ) by push_cast; ring,
          Int.floor_int_add]
        norm_num
    rw [this]

theorem exactQ_zero (precision : ℕ) : exactQ precision 0 := by
  rw [exactQ_iff]
  exact ⟨0, by simp⟩

theorem exactQ_sub {precision : ℕ} {a b : ℚ} (ha : exactQ precision a)
    (hb : exactQ precision b) : exactQ precision (a - b) := by
  rw [exactQ_iff] at ha hb ⊢
  obtain ⟨n, rfl⟩ := ha
  obtain ⟨m, rfl⟩ := hb
  exact ⟨n - m, by push_cast; ring⟩

theorem exactQ_add {precision : ℕ} {a b : ℚ} (ha : exactQ precision a)
    (hb : exactQ precision b) : exactQ precision (a + b) := by
  rw [exactQ_iff] at ha hb ⊢
  obtain ⟨n, rfl⟩ := ha
  obtain ⟨m, rfl⟩ := hb
  exact ⟨n + m, by push_cast; ring⟩

theorem exactPt_origin (precision : ℕ) : exactPt precision ⟨0, 0⟩ :=
  ⟨exactQ_zero _, exactQ_zero _⟩

theorem roundEqQ_of_exact {style : SvgPathStyle} {a b : ℚ}
    (ha : exactQ style.precision a) (hb : exactQ style.precision b) :
    style.roundEqQ a b = true ↔ a = b := by
  unfold SvgPathStyle.roundEqQ
  unfold exactQ at ha hb
  rw [ha, hb]
  simp

theorem roundEqPt_of_exact {style : SvgPathStyle} {a b : Pt}
    (ha : exactPt style.precision a) (hb : exactPt style.precision b) :
    style.roundEqPt a b = true ↔ a = b := by
  unfold SvgPathStyle.roundEqPt
  unfold exactPt at ha hb
  unfold roundPrecPt
  unfold exactQ at ha hb
  rw [ha.1, ha.2, hb.1, hb.2]
  constructor
  · intro h
    simp at h
    cases a
    cases b
    simp at h ⊢
    exact h
  · intro h
    rw [h]
    simp

theorem roundPrec_exact {precision : ℕ} {q : ℚ} (h : exactQ precision q) :
    roundPrec q precision = q := h

/-! ## Head characters of formatted coordinates -/

theorem formatScaled_head (n : ℤ) (p : ℕ) :
    ∃ c t, formatScaled n p = c :: t ∧ (c = '-' ∨ c.isDigit = true) := by
  rw [formatScaled_eq]
  by_cases hn : n < 0
  · rw [if_pos hn]
    exact ⟨'-', _, rfl, Or.inl rfl⟩
  · rw [if_neg hn]
    obtain ⟨c0, t0, h0⟩ :=
      List.exists_cons_of_ne_nil (natStr_ne_nil (n.natAbs / 10 ^ p))
    have hdig : c0.isDigit = true := by
      apply natStr_all_digits
      rw [h0]
      exact List.mem_cons_self _ _
    refine ⟨c0, t0 ++
      (if fracPartStr n.natAbs p = [] then []
       else '.' :: fracPartStr n.natAbs p), ?_, Or.inr hdig⟩
    rw [h0]
    simp

theorem round_coord_eq (q : ℚ) (p : ℕ) :
    round_coord q p =
      if roundHalfAway (q * 10 ^ p) = 0 ∧ q < 0 then ['-', '0']
      else formatScaled (roundHalfAway (q * 10 ^ p)) p := rfl

theorem round_coord_head (q : ℚ) (p : ℕ) :
    ∃ c t, round_coord q p = c :: t ∧ (c = '-' ∨ c.isDigit = true) := by
  rw [round_coord_eq]
  split
  · exact ⟨'-', ['0'], rfl, Or.inl rfl⟩
  · exact formatScaled_head _ _

theorem round_coord_ne_nil (q : ℚ) (p : ℕ) : round_coord q p ≠ [] := by
  obtain ⟨c, t, h, -⟩ := round_coord_head q p
  rw [h]
  simp

theorem roundHalfAway_nonpos {q : ℚ} (h : q < 0) {p : ℕ} :
    roundHalfAway (q * 10 ^ p) ≤ 0 := by
  unfold roundHalfAway
  have hq : q * 10 ^ p < 0 := by
    apply mul_neg_of_neg_of_pos h
    positivity
  rw [if_neg (by linarith)]
  simp only [neg_nonpos]
  apply Int.le_floor.mpr
  push_cast
  linarith

theorem round_coord_head_neg {q : ℚ} (h : q < 0) (p : ℕ) :
    ∃ t, round_coord q p = '-' :: t := by
  by_cases hz : roundHalfAway (q * 10 ^ p) = 0 ∧ q < 0
  · rw [round_coord_eq, if_pos hz]
    exact ⟨['0'], rfl⟩
  · rw [round_coord_eq, if_neg hz]
    have hne : roundHalfAway (q * 10 ^ p) ≠ 0 := by
      intro hcon
      exact hz ⟨hcon, h⟩
    have hneg : roundHalfAway (q * 10 ^ p) < 0 :=
      lt_of_le_of_ne (roundHalfAway_nonpos h) hne
    rw [formatScaled_eq, if_pos hneg]
    exact ⟨_, rfl⟩

/-! ## Separator handling -/

theorem skipSeps_cons_not_sep {c : Char} {l : List Char}
    (h : ¬(c = ',' ∨ c = ' ')) : skipSeps (c :: l) = c :: l := by
  unfold skipSeps
  rw [List.dropWhile_cons]
  simp [h]

theorem skipSeps_not_sep_head {l : List Char}
    (h : ∀ c, l.head? = some c → ¬(c = ',' ∨ c = ' ')) : skipSeps l = l := by
  cases l with
  | nil => rfl
  | cons c t => exact skipSeps_cons_not_sep (h c rfl)

theorem parseNums_sep_cons (k : ℕ) (c : Char) (l : List Char)
    (hc : c = ',' ∨ c = ' ') :
    parseNums (k + 1) (c :: l) = parseNums (k + 1) l := by
  unfold parseNums
  have heq : skipSeps (c :: l) = skipSeps l := by
    unfold skipSeps
    rw [List.dropWhile_cons]
    rcases hc with h | h <;> simp [h]
  rw [heq]

theorem parseNums_add (k1 k2 : ℕ) (cs : List Char) :
    parseNums (k1 + k2) cs =
      match parseNums k1 cs with
      | none => none
      | some (qs, r) =>
        match parseNums k2 r with
        | none => none
        | some (qs2, r2) => some (qs ++ qs2, r2) := by
  induction k1 generalizing cs with
  | zero =>
    simp only [Nat.zero_add, parseNums]
    cases parseNums k2 cs with
    | none => rfl
    | some v =>
      cases v
      simp
  | succ n ih =>
    have hshift : n + 1 + k2 = (n + k2) + 1 := by omega
    rw [hshift]
    simp only [parseNums]
    cases hp : parseNum (skipSeps cs) with
    | none => rfl
    | some v =>
      obtain ⟨q, r⟩ := v
      simp only []
      rw [ih r]
      cases hq : parseNums n r with
      | none => rfl
      | some w =>
        obtain ⟨qs, r2⟩ := w
        simp only []
        cases hw : parseNums k2 r2 with
        | none => rfl
        | some u =>
          obtain ⟨qs3, r3⟩ := u
          rfl

/-! ## Parsing whole coordinate assemblies -/

/-- The characters following a fragment must not be able to continue a
number. -/
def restOK (rest : List Char) : Prop :=
  ∀ c, rest.head? = some c → numCont c = false

theorem restOK_nil : restOK [] := by
  intro c hc
  simp at hc

theorem restOK_cons {c : Char} {l : List Char} (hc : numCont c = false) :
    restOK (c :: l) := by
  intro d hd
  simp at hd
  rw [← hd]
  exact hc

theorem restOK_append_round_coord_neg {q : ℚ} (h : q < 0) (p : ℕ)
    (l : List Char) : restOK (round_coord q p ++ l) := by
  obtain ⟨t, heq⟩ := round_coord_head_neg h p
  rw [heq, List.cons_append]
  apply restOK_cons
  rfl

theorem skipSeps_round_coord_append (q : ℚ) (p : ℕ) (l : List Char) :
    skipSeps (round_coord q p ++ l) = round_coord q p ++ l := by
  obtain ⟨c, t, heq, hc⟩ := round_coord_head q p
  rw [heq, List.cons_append]
  apply skipSeps_cons_not_sep
  rcases hc with h | h
  · rw [h]
    decide
  · intro hcon
    rcases hcon with h2 | h2 <;> rw [h2] at h <;> exact absurd h (by decide)

theorem parseNums_one (cs : List Char) :
    parseNums 1 cs =
      match parseNum (skipSeps cs) with
      | none => none
      | some (q, r) => some ([q], r) := by
  simp only [parseNums]

theorem parseNums_one_round_coord (q : ℚ) (p : ℕ) {rest : List Char}
    (hrest : restOK rest) :
    parseNums 1 (round_coord q p ++ rest) = some ([roundPrec q p], rest) := by
  rw [parseNums_one, skipSeps_round_coord_append,
    parseNum_round_coord q p hrest]

theorem writeAbsQ_svg (q : ℚ) (style : SvgPathStyle) :
    writeAbsQ q style .Svg = round_coord q style.precision := by
  unfold writeAbsQ ToSvgCoord.writeAbs instToSvgCoordRat DrawingCommandType.coordSuffix
  simp

theorem writeAbsPt_svg (p : Pt) (style : SvgPathStyle) :
    writeAbsPt p style .Svg =
      round_coord p.x style.precision ++
        (if p.y < 0 then round_coord p.y style.precision
         else ',' :: round_coord p.y style.precision) := by
  show (if p.y < 0 then writeAbsQ p.x style .Svg ++ writeAbsQ p.y style .Svg
      else writeAbsQ p.x style .Svg ++ ',' :: writeAbsQ p.y style .Svg) = _
  rw [writeAbsQ_svg, writeAbsQ_svg]
  by_cases hy : p.y < 0
  · rw [if_pos hy, if_pos hy]
  · rw [if_neg hy, if_neg hy]

theorem writeAbsPt_ne_nil (p : Pt) (style : SvgPathStyle) :
    writeAbsPt p style .Svg ≠ [] := by
  rw [writeAbsPt_svg]
  intro hcon
  rcases List.append_eq_nil.mp hcon with ⟨h1, -⟩
  exact round_coord_ne_nil _ _ h1

theorem parseNums_two_writeAbsPt (p : Pt) (style : SvgPathStyle)
    {rest : List Char} (hrest : restOK rest) :
    parseNums 2 (writeAbsPt p style .Svg ++ rest) =
      some ([roundPrec p.x style.precision, roundPrec p.y style.precision],
        rest) := by
  rw [writeAbsPt_svg]
  have h2 : (2 : ℕ) = 1 + 1 := rfl
  rw [h2, parseNums_add 1 1]
  by_cases hy : p.y < 0
  · rw [if_pos hy]
    have hx : parseNums 1
        ((round_coord p.x style.precision ++ round_coord p.y style.precision)
          ++ rest) = some ([roundPrec p.x style.precision],
            round_coord p.y style.precision ++ rest) := by
      rw [List.append_assoc]
      exact parseNums_one_round_coord _ _
        (restOK_append_round_coord_neg hy _ _)
    rw [hx]
    dsimp only
    rw [parseNums_one_round_coord _ _ hrest]
    simp
  · rw [if_neg hy]
    have hx : parseNums 1
        ((round_coord p.x style.precision ++
          ',' :: round_coord p.y style.precision) ++ rest) =
          some ([roundPrec p.x style.precision],
            ',' :: round_coord p.y style.precision ++ rest) := by
      rw [List.append_assoc]
      exact parseNums_one_round_coord _ _ (restOK_cons rfl)
    rw [hx]
    dsimp only
    have hsep : parseNums 1
        (',' :: (round_coord p.y style.precision ++ rest)) =
        parseNums 1 (round_coord p.y style.precision ++ rest) := by
      have h1 : (1 : ℕ) = 0 + 1 := rfl
      rw [h1]
      exact parseNums_sep_cons 0 ',' _ (Or.inl rfl)
    rw [List.cons_append, hsep, parseNums_one_round_coord _ _ hrest]
    simp

theorem collect_coords_one (w : List Char) :
    DrawingCommandType.Svg.collect_coords [w] = w := by
  unfold DrawingCommandType.collect_coords
  simp

theorem collect_coords_two (w1 w2 : List Char) (h1 : w1 ≠ []) :
    DrawingCommandType.Svg.collect_coords [w1, w2] =
      w1 ++ (if w2.head? ≠ some '-' then [' '] else []) ++ w2 := by
  unfold DrawingCommandType.collect_coords
  simp [h1]

theorem collect_coords_three (w1 w2 w3 : List Char) (h1 : w1 ≠ []) :
    DrawingCommandType.Svg.collect_coords [w1, w2, w3] =
      w1 ++ (if w2.head? ≠ some '-' then [' '] else []) ++ w2 ++
        (if w3.head? ≠ some '-' then [' '] else []) ++ w3 := by
  unfold DrawingCommandType.collect_coords
  have hne : w1 ++ (if w2.head? ≠ some '-' then [' '] else []) ++ w2 ≠ [] := by
    intro hcon
    rcases List.append_eq_nil.mp hcon with ⟨h2, -⟩
    rcases List.append_eq_nil.mp h2 with ⟨h3, -⟩
    exact h1 h3
  simp only [List.foldl_cons, List.foldl_nil]
  simp [h1, hne]

/-- Parse the join of a further point after a nonempty prefix: the
separator inserted by `collect_coords` (a space, or nothing when the point
starts with `-`) is consumed correctly. -/
theorem parseNums_sep_pt (p : Pt) (style : SvgPathStyle) {rest : List Char}
    (hrest : restOK rest) :
    parseNums 2 ((if (writeAbsPt p style .Svg).head? ≠ some '-'
        then [' '] else []) ++ writeAbsPt p style .Svg ++ rest) =
      some ([roundPrec p.x style.precision, roundPrec p.y style.precision],
        rest) := by
  split
  · rw [show ((([' '] : List Char) ++ writeAbsPt p style .Svg) ++ rest) =
        ' ' :: (writeAbsPt p style .Svg ++ rest) by simp]
    rw [show (2 : ℕ) = 1 + 1 from rfl,
      parseNums_sep_cons 1 ' ' _ (Or.inr rfl)]
    exact parseNums_two_writeAbsPt p style hrest
  · rw [show ((([] : List Char) ++ writeAbsPt p style .Svg) ++ rest) =
        writeAbsPt p style .Svg ++ rest by simp]
    exact parseNums_two_writeAbsPt p style hrest

theorem restOK_sep_pt (p : Pt) (style : SvgPathStyle) (l : List Char) :
    restOK (((if (writeAbsPt p style .Svg).head? ≠ some '-'
        then [' '] else []) ++ writeAbsPt p style .Svg) ++ l) := by
  split
  · rw [show ((([' '] : List Char) ++ writeAbsPt p style .Svg) ++ l) =
        ' ' :: (writeAbsPt p style .Svg ++ l) by simp]
    exact restOK_cons rfl
  · rename_i hne
    push_neg at hne
    rcases hw : writeAbsPt p style .Svg with _ | ⟨c, t⟩
    · exact absurd hw (writeAbsPt_ne_nil p style)
    · rw [hw] at hne
      simp at hne
      rw [show ((([] : List Char) ++ (c :: t)) ++ l) = c :: (t ++ l) by simp]
      rw [hne]
      exact restOK_cons rfl

theorem parseNums_four_pts (p1 p2 : Pt) (style : SvgPathStyle)
    {rest : List Char} (hrest : restOK rest) :
    parseNums 4 (DrawingCommandType.Svg.collect_coords
        [writeAbsPt p1 style .Svg, writeAbsPt p2 style .Svg] ++ rest) =
      some ([roundPrec p1.x style.precision, roundPrec p1.y style.precision,
        roundPrec p2.x style.precision, roundPrec p2.y style.precision],
        rest) := by
  rw [collect_coords_two _ _ (writeAbsPt_ne_nil p1 style)]
  rw [show (4 : ℕ) = 2 + 2 from rfl, parseNums_add 2 2]
  rw [show (((writeAbsPt p1 style .Svg ++
      (if (writeAbsPt p2 style .Svg).head? ≠ some '-' then [' '] else [])) ++
      writeAbsPt p2 style .Svg) ++ rest) =
    writeAbsPt p1 style .Svg ++
      (((if (writeAbsPt p2 style .Svg).head? ≠ some '-' then [' '] else []) ++
        writeAbsPt p2 style .Svg) ++ rest) by simp]
  rw [parseNums_two_writeAbsPt p1 style (restOK_sep_pt p2 style rest)]
  dsimp only
  rw [parseNums_sep_pt p2 style hrest]
  simp

theorem parseNums_six_pts (p1 p2 p3 : Pt) (style : SvgPathStyle)
    {rest : List Char} (hrest : restOK rest) :
    parseNums 6 (DrawingCommandType.Svg.collect_coords
        [writeAbsPt p1 style .Svg, writeAbsPt p2 style .Svg,
          writeAbsPt p3 style .Svg] ++ rest) =
      some ([roundPrec p1.x style.precision, roundPrec p1.y style.precision,
        roundPrec p2.x style.precision, roundPrec p2.y style.precision,
        roundPrec p3.x style.precision, roundPrec p3.y style.precision],
        rest) := by
  rw [collect_coords_three _ _ _ (writeAbsPt_ne_nil p1 style)]
  rw [show (6 : ℕ) = 2 + 4 from rfl, parseNums_add 2 4]
  rw [show ((((((writeAbsPt p1 style .Svg ++
      (if (writeAbsPt p2 style .Svg).head? ≠ some '-' then [' '] else [])) ++
      writeAbsPt p2 style .Svg) ++
      (if (writeAbsPt p3 style .Svg).head? ≠ some '-' then [' '] else [])) ++
      writeAbsPt p3 style .Svg) ++ rest)) =
    writeAbsPt p1 style .Svg ++
      (((if (writeAbsPt p2 style .Svg).head? ≠ some '-' then [' '] else []) ++
        writeAbsPt p2 style .Svg) ++
        (((if (writeAbsPt p3 style .Svg).head? ≠ some '-' then [' ']
           else []) ++ writeAbsPt p3 style .Svg) ++ rest)) by simp]
  rw [parseNums_two_writeAbsPt p1 style (restOK_sep_pt p2 style _)]
  dsimp only
  rw [show (4 : ℕ) = 2 + 2 from rfl, parseNums_add 2 2]
  rw [parseNums_sep_pt p2 style (restOK_sep_pt p3 style rest)]
  dsimp only
  rw [parseNums_sep_pt p3 style hrest]
  simp

/-! ## Stepping the decoder over one emitted fragment -/

theorem decodeLoop_step {st : DecState} {c : Char} {cs : List Char}
    (hz : ¬(c = 'Z' ∨ c = 'z')) {k : ℕ} (hk : cmdArity c = some k)
    {vals : List ℚ} {rest : List Char} {st2 : DecState}
    (hp : parseNums k cs = some (vals, rest))
    (ha : applyCmd st c vals = some st2) :
    decodeLoop st (c :: cs) = decodeLoop st2 rest := by
  conv_lhs => rw [decodeLoop]
  rw [if_neg hz, hk]
  split
  · rename_i heq
    exact absurd heq (by simp)
  · rename_i k2 heq
    injection heq with heq
    subst heq
    split
    · rename_i heq2
      rw [hp] at heq2
      exact absurd heq2 (by simp)
    · rename_i vals2 rest2 heq2
      rw [hp] at heq2
      injection heq2 with heq2
      rw [Prod.mk.injEq] at heq2
      obtain ⟨hv, hr⟩ := heq2
      subst hv
      subst hr
      rw [ha]

theorem decodeLoop_close {st : DecState} {c : Char} {cs : List Char}
    (hz : c = 'Z' ∨ c = 'z') :
    decodeLoop st (c :: cs) =
      decodeLoop ⟨st.start, st.start, st.verts⟩ cs := by
  conv_lhs => rw [decodeLoop]
  rw [if_pos hz]

/-- Projections of the `ToSvgCoord` instances, for rewriting. -/
theorem writeAbs_pt_eq (p : Pt) (style : SvgPathStyle)
    (dt : DrawingCommandType) :
    ToSvgCoord.writeAbs p style dt = writeAbsPt p style dt := rfl

theorem writeRel_pt_eq (p o : Pt) (style : SvgPathStyle)
    (dt : DrawingCommandType) :
    ToSvgCoord.writeRel p o style dt = writeAbsPt (p.sub o) style dt := rfl

theorem writeAbs_q_eq (q : ℚ) (style : SvgPathStyle)
    (dt : DrawingCommandType) :
    ToSvgCoord.writeAbs q style dt =
      round_coord q style.precision ++ dt.coordSuffix := rfl

theorem writeRel_q_eq (q o : ℚ) (style : SvgPathStyle)
    (dt : DrawingCommandType) :
    ToSvgCoord.writeRel q o style dt =
      round_coord (q - o) style.precision ++ dt.coordSuffix := rfl

theorem commandFrag_pts_some (style : SvgPathStyle) (cmd : DrawingCommand)
    (ps : List Pt) (b : Pt) :
    commandFrag style .Svg cmd ps (some b) =
      (if (DrawingCommandType.Svg.collect_coords
            (ps.map (fun p => writeAbsPt (p.sub b) style .Svg))).length <
          (DrawingCommandType.Svg.collect_coords
            (ps.map (fun p => writeAbsPt p style .Svg))).length
       then cmd.rel ++ DrawingCommandType.Svg.collect_coords
         (ps.map (fun p => writeAbsPt (p.sub b) style .Svg))
       else cmd.abs ++ DrawingCommandType.Svg.collect_coords
         (ps.map (fun p => writeAbsPt p style .Svg))) := by
  unfold commandFrag
  simp only [Option.map_some, writeAbs_pt_eq, writeRel_pt_eq]
  rw [show DrawingCommandType.Svg.padding = [] from rfl, List.nil_append]
  rfl

theorem commandFrag_pts_none (style : SvgPathStyle) (cmd : DrawingCommand)
    (ps : List Pt) :
    commandFrag style .Svg cmd ps none =
      cmd.abs ++ DrawingCommandType.Svg.collect_coords
        (ps.map (fun p => writeAbsPt p style .Svg)) := by
  unfold commandFrag
  simp only [Option.map_none, writeAbs_pt_eq]
  rw [show DrawingCommandType.Svg.padding = [] from rfl, List.nil_append]
  rfl

theorem commandFrag_q_some (style : SvgPathStyle) (cmd : DrawingCommand)
    (q b : ℚ) :
    commandFrag style .Svg cmd [q] (some b) =
      (if (round_coord (q - b) style.precision).length <
          (round_coord q style.precision).length
       then cmd.rel ++ round_coord (q - b) style.precision
       else cmd.abs ++ round_coord q style.precision) := by
  unfold commandFrag
  simp only [Option.map_some, writeAbs_q_eq, writeRel_q_eq, List.map_cons,
    List.map_nil]
  rw [show DrawingCommandType.Svg.coordSuffix = [] from rfl]
  rw [show DrawingCommandType.Svg.padding = [] from rfl]
  simp [collect_coords_one]

theorem applyCmd_M (st : DecState) (x y : ℚ) :
    applyCmd st 'M' [x, y] =
      some ⟨⟨x, y⟩, ⟨x, y⟩, st.verts ++ [⟨x, y⟩]⟩ := rfl

theorem applyCmd_m (st : DecState) (x y : ℚ) :
    applyCmd st 'm' [x, y] =
      some ⟨⟨st.curr.x + x, st.curr.y + y⟩, ⟨st.curr.x + x, st.curr.y + y⟩,
        st.verts ++ [⟨st.curr.x + x, st.curr.y + y⟩]⟩ := rfl

theorem applyCmd_L (st : DecState) (x y : ℚ) :
    applyCmd st 'L' [x, y] =
      some ⟨⟨x, y⟩, st.start, st.verts ++ [⟨x, y⟩]⟩ := rfl

theorem applyCmd_l (st : DecState) (x y : ℚ) :
    applyCmd st 'l' [x, y] =
      some ⟨⟨st.curr.x + x, st.curr.y + y⟩, st.start,
        st.verts ++ [⟨st.curr.x + x, st.curr.y + y⟩]⟩ := rfl

theorem applyCmd_H (st : DecState) (x : ℚ) :
    applyCmd st 'H' [x] =
      some ⟨⟨x, st.curr.y⟩, st.start, st.verts ++ [⟨x, st.curr.y⟩]⟩ := rfl

theorem applyCmd_h (st : DecState) (x : ℚ) :
    applyCmd st 'h' [x] =
      some ⟨⟨st.curr.x + x, st.curr.y⟩, st.start,
        st.verts ++ [⟨st.curr.x + x, st.curr.y⟩]⟩ := rfl

theorem applyCmd_V (st : DecState) (y : ℚ) :
    applyCmd st 'V' [y] =
      some ⟨⟨st.curr.x, y⟩, st.start, st.verts ++ [⟨st.curr.x, y⟩]⟩ := rfl

theorem applyCmd_v (st : DecState) (y : ℚ) :
    applyCmd st 'v' [y] =
      some ⟨⟨st.curr.x, st.curr.y + y⟩, st.start,
        st.verts ++ [⟨st.curr.x, st.curr.y + y⟩]⟩ := rfl

theorem applyCmd_Q (st : DecState) (x1 y1 x2 y2 : ℚ) :
    applyCmd st 'Q' [x1, y1, x2, y2] =
      some ⟨⟨x2, y2⟩, st.start, st.verts ++ [⟨x2, y2⟩]⟩ := rfl

theorem applyCmd_q (st : DecState) (x1 y1 x2 y2 : ℚ) :
    applyCmd st 'q' [x1, y1, x2, y2] =
      some ⟨⟨st.curr.x + x2, st.curr.y + y2⟩, st.start,
        st.verts ++ [⟨st.curr.x + x2, st.curr.y + y2⟩]⟩ := rfl

theorem applyCmd_T (st : DecState) (x y : ℚ) :
    applyCmd st 'T' [x, y] =
      some ⟨⟨x, y⟩, st.start, st.verts ++ [⟨x, y⟩]⟩ := rfl

theorem applyCmd_t (st : DecState) (x y : ℚ) :
    applyCmd st 't' [x, y] =
      some ⟨⟨st.curr.x + x, st.curr.y + y⟩, st.start,
        st.verts ++ [⟨st.curr.x + x, st.curr.y + y⟩]⟩ := rfl

theorem applyCmd_S (st : DecState) (x2 y2 x3 y3 : ℚ) :
    applyCmd st 'S' [x2, y2, x3, y3] =
      some ⟨⟨x3, y3⟩, st.start, st.verts ++ [⟨x3, y3⟩]⟩ := rfl

theorem applyCmd_s (st : DecState) (x2 y2 x3 y3 : ℚ) :
    applyCmd st 's' [x2, y2, x3, y3] =
      some ⟨⟨st.curr.x + x3, st.curr.y + y3⟩, st.start,
        st.verts ++ [⟨st.curr.x + x3, st.curr.y + y3⟩]⟩ := rfl

theorem applyCmd_C (st : DecState) (x1 y1 x2 y2 x3 y3 : ℚ) :
    applyCmd st 'C' [x1, y1, x2, y2, x3, y3] =
      some ⟨⟨x3, y3⟩, st.start, st.verts ++ [⟨x3, y3⟩]⟩ := rfl

theorem applyCmd_c (st : DecState) (x1 y1 x2 y2 x3 y3 : ℚ) :
    applyCmd st 'c' [x1, y1, x2, y2, x3, y3] =
      some ⟨⟨st.curr.x + x3, st.curr.y + y3⟩, st.start,
        st.verts ++ [⟨st.curr.x + x3, st.curr.y + y3⟩]⟩ := rfl

theorem parseNums_two_writeAbsPt_exact (p : Pt) (style : SvgPathStyle)
    {rest : List Char} (hrest : restOK rest)
    (hex : exactPt style.precision p) :
    parseNums 2 (writeAbsPt p style .Svg ++ rest) =
      some ([p.x, p.y], rest) := by
  rw [parseNums_two_writeAbsPt p style hrest, hex.1, hex.2]

/-- Decode one `moveTo` fragment of the compact writer. -/
theorem decodeFrag_move (style : SvgPathStyle) (d : DecState) (p curr : Pt)
    (hp : exactPt style.precision p) (hc : exactPt style.precision curr)
    (hcurr : d.curr = curr) {rest : List Char} (hrest : restOK rest) :
    decodeLoop d (commandFrag style .Svg DrawingCommandType.Svg.move_cmd
        [p] (some curr) ++ rest) =
      decodeLoop ⟨p, p, d.verts ++ [p]⟩ rest := by
  have hsub : exactPt style.precision (p.sub curr) :=
    ⟨exactQ_sub hp.1 hc.1, exactQ_sub hp.2 hc.2⟩
  have hpt : (⟨d.curr.x + (p.sub curr).x, d.curr.y + (p.sub curr).y⟩ : Pt)
      = p := by
    rw [hcurr]
    cases p
    cases curr
    simp [Pt.sub]
  rw [commandFrag_pts_some]
  simp only [List.map_cons, List.map_nil]
  rw [collect_coords_one, collect_coords_one]
  split
  · rw [show (DrawingCommandType.Svg.move_cmd.rel ++
        writeAbsPt (p.sub curr) style .Svg) ++ rest =
      'm' :: (writeAbsPt (p.sub curr) style .Svg ++ rest) by simp; rfl]
    rw [decodeLoop_step (by decide) (by decide : cmdArity 'm' = some 2)
      (parseNums_two_writeAbsPt_exact (p.sub curr) style hrest hsub)
      (applyCmd_m d (p.sub curr).x (p.sub curr).y)]
    rw [hpt]
  · rw [show (DrawingCommandType.Svg.move_cmd.abs ++
        writeAbsPt p style .Svg) ++ rest =
      'M' :: (writeAbsPt p style .Svg ++ rest) by simp; rfl]
    rw [decodeLoop_step (by decide) (by decide : cmdArity 'M' = some 2)
      (parseNums_two_writeAbsPt_exact p style hrest hp)
      (applyCmd_M d p.x p.y)]

theorem parseNums_one_round_coord_exact (q : ℚ) (style : SvgPathStyle)
    {rest : List Char} (hrest : restOK rest) (hq : exactQ style.precision q) :
    parseNums 1 (round_coord q style.precision ++ rest) =
      some ([q], rest) := by
  rw [parseNums_one_round_coord q style.precision hrest, hq]

theorem parseNums_four_pts_exact (p1 p2 : Pt) (style : SvgPathStyle)
    {rest : List Char} (hrest : restOK rest) (h1 : exactPt style.precision p1)
    (h2 : exactPt style.precision p2) :
    parseNums 4 (DrawingCommandType.Svg.collect_coords
        [writeAbsPt p1 style .Svg, writeAbsPt p2 style .Svg] ++ rest) =
      some ([p1.x, p1.y, p2.x, p2.y], rest) := by
  rw [parseNums_four_pts p1 p2 style hrest, h1.1, h1.2, h2.1, h2.2]

theorem parseNums_six_pts_exact (p1 p2 p3 : Pt) (style : SvgPathStyle)
    {rest : List Char} (hrest : restOK rest) (h1 : exactPt style.precision p1)
    (h2 : exactPt style.precision p2) (h3 : exactPt style.precision p3) :
    parseNums 6 (DrawingCommandType.Svg.collect_coords
        [writeAbsPt p1 style .Svg, writeAbsPt p2 style .Svg,
          writeAbsPt p3 style .Svg] ++ rest) =
      some ([p1.x, p1.y, p2.x, p2.y, p3.x, p3.y], rest) := by
  rw [parseNums_six_pts p1 p2 p3 style hrest, h1.1, h1.2, h2.1, h2.2,
    h3.1, h3.2]

/-- Decode one full `lineTo` fragment (`L`/`l`). -/
theorem decodeFrag_line (style : SvgPathStyle) (d : DecState) (p curr : Pt)
    (hp : exactPt style.precision p) (hc : exactPt style.precision curr)
    (hcurr : d.curr = curr) {rest : List Char} (hrest : restOK rest) :
    decodeLoop d (commandFrag style .Svg DrawingCommandType.Svg.line_cmd
        [p] (some curr) ++ rest) =
      decodeLoop ⟨p, d.start, d.verts ++ [p]⟩ rest := by
  have hsub : exactPt style.precision (p.sub curr) :=
    ⟨exactQ_sub hp.1 hc.1, exactQ_sub hp.2 hc.2⟩
  have hpt : (⟨d.curr.x + (p.sub curr).x, d.curr.y + (p.sub curr).y⟩ : Pt)
      = p := by
    rw [hcurr]
    cases p
    cases curr
    simp [Pt.sub]
  rw [commandFrag_pts_some]
  simp only [List.map_cons, List.map_nil]
  rw [collect_coords_one, collect_coords_one]
  split
  · rw [show (DrawingCommandType.Svg.line_cmd.rel ++
        writeAbsPt (p.sub curr) style .Svg) ++ rest =
      'l' :: (writeAbsPt (p.sub curr) style .Svg ++ rest) by simp; rfl]
    rw [decodeLoop_step (by decide) (by decide : cmdArity 'l' = some 2)
      (parseNums_two_writeAbsPt_exact (p.sub curr) style hrest hsub)
      (applyCmd_l d (p.sub curr).x (p.sub curr).y)]
    rw [hpt]
  · rw [show (DrawingCommandType.Svg.line_cmd.abs ++
        writeAbsPt p style .Svg) ++ rest =
      'L' :: (writeAbsPt p style .Svg ++ rest) by simp; rfl]
    rw [decodeLoop_step (by decide) (by decide : cmdArity 'L' = some 2)
      (parseNums_two_writeAbsPt_exact p style hrest hp)
      (applyCmd_L d p.x p.y)]

/-- Decode one smooth-quad fragment (`T`/`t`); the relative base is the
prior segment end `b`, which equals the decoder's current point. -/
theorem decodeFrag_smooth_quad (style : SvgPathStyle) (d : DecState)
    (p b : Pt) (hp : exactPt style.precision p)
    (hb : exactPt style.precision b) (hcurr : d.curr = b) {rest : List Char}
    (hrest : restOK rest) :
    decodeLoop d (commandFrag style .Svg DrawingCommandType.Svg.smooth_quad_cmd
        [p] (some b) ++ rest) =
      decodeLoop ⟨p, d.start, d.verts ++ [p]⟩ rest := by
  have hsub : exactPt style.precision (p.sub b) :=
    ⟨exactQ_sub hp.1 hb.1, exactQ_sub hp.2 hb.2⟩
  have hpt : (⟨d.curr.x + (p.sub b).x, d.curr.y + (p.sub b).y⟩ : Pt) = p := by
    rw [hcurr]
    cases p
    cases b
    simp [Pt.sub]
  rw [commandFrag_pts_some]
  simp only [List.map_cons, List.map_nil]
  rw [collect_coords_one, collect_coords_one]
  split
  · rw [show (DrawingCommandType.Svg.smooth_quad_cmd.rel ++
        writeAbsPt (p.sub b) style .Svg) ++ rest =
      't' :: (writeAbsPt (p.sub b) style .Svg ++ rest) by simp; rfl]
    rw [decodeLoop_step (by decide) (by decide : cmdArity 't' = some 2)
      (parseNums_two_writeAbsPt_exact (p.sub b) style hrest hsub)
      (applyCmd_t d (p.sub b).x (p.sub b).y)]
    rw [hpt]
  · rw [show (DrawingCommandType.Svg.smooth_quad_cmd.abs ++
        writeAbsPt p style .Svg) ++ rest =
      'T' :: (writeAbsPt p style .Svg ++ rest) by simp; rfl]
    rw [decodeLoop_step (by decide) (by decide : cmdArity 'T' = some 2)
      (parseNums_two_writeAbsPt_exact p style hrest hp)
      (applyCmd_T d p.x p.y)]

/-- Decode one horizontal-line fragment (`H`/`h`); emitted when
`p.y = curr.y`. -/
theorem decodeFrag_hline (style : SvgPathStyle) (d : DecState) (p curr : Pt)
    (hp : exactPt style.precision p) (hc : exactPt style.precision curr)
    (hy : p.y = curr.y) (hcurr : d.curr = curr) {rest : List Char}
    (hrest : restOK rest) :
    decodeLoop d (commandFrag style .Svg
        DrawingCommandType.Svg.horizontal_line_cmd [p.x]
        (some curr.x) ++ rest) =
      decodeLoop ⟨p, d.start, d.verts ++ [p]⟩ rest := by
  have hsub : exactQ style.precision (p.x - curr.x) :=
    exactQ_sub hp.1 hc.1
  have hpt1 : (⟨d.curr.x + (p.x - curr.x), d.curr.y⟩ : Pt) = p := by
    rw [hcurr]
    cases p
    cases curr
    simp at hy ⊢
    simp [hy]
  have hpt2 : (⟨p.x, d.curr.y⟩ : Pt) = p := by
    rw [hcurr]
    cases p
    cases curr
    simp at hy ⊢
    simp [hy]
  rw [commandFrag_q_some]
  split
  · rw [show (DrawingCommandType.Svg.horizontal_line_cmd.rel ++
        round_coord (p.x - curr.x) style.precision) ++ rest =
      'h' :: (round_coord (p.x - curr.x) style.precision ++ rest)
      by simp; rfl]
    rw [decodeLoop_step (by decide) (by decide : cmdArity 'h' = some 1)
      (parseNums_one_round_coord_exact (p.x - curr.x) style hrest hsub)
      (applyCmd_h d (p.x - curr.x))]
    rw [hpt1]
  · rw [show (DrawingCommandType.Svg.horizontal_line_cmd.abs ++
        round_coord p.x style.precision) ++ rest =
      'H' :: (round_coord p.x style.precision ++ rest) by simp; rfl]
    rw [decodeLoop_step (by decide) (by decide : cmdArity 'H' = some 1)
      (parseNums_one_round_coord_exact p.x style hrest hp.1)
      (applyCmd_H d p.x)]
    rw [hpt2]

/-- Decode one vertical-line fragment (`V`/`v`); emitted when
`p.x = curr.x`. -/
theorem decodeFrag_vline (style : SvgPathStyle) (d : DecState) (p curr : Pt)
    (hp : exactPt style.precision p) (hc : exactPt style.precision curr)
    (hx : p.x = curr.x) (hcurr : d.curr = curr) {rest : List Char}
    (hrest : restOK rest) :
    decodeLoop d (commandFrag style .Svg
        DrawingCommandType.Svg.vertical_line_cmd [p.y]
        (some curr.y) ++ rest) =
      decodeLoop ⟨p, d.start, d.verts ++ [p]⟩ rest := by
  have hsub : exactQ style.precision (p.y - curr.y) :=
    exactQ_sub hp.2 hc.2
  have hpt1 : (⟨d.curr.x, d.curr.y + (p.y - curr.y)⟩ : Pt) = p := by
    rw [hcurr]
    cases p
    cases curr
    simp at hx ⊢
    simp [hx]
  have hpt2 : (⟨d.curr.x, p.y⟩ : Pt) = p := by
    rw [hcurr]
    cases p
    cases curr
    simp at hx ⊢
    simp [hx]
  rw [commandFrag_q_some]
  split
  · rw [show (DrawingCommandType.Svg.vertical_line_cmd.rel ++
        round_coord (p.y - curr.y) style.precision) ++ rest =
      'v' :: (round_coord (p.y - curr.y) style.precision ++ rest)
      by simp; rfl]
    rw [decodeLoop_step (by decide) (by decide : cmdArity 'v' = some 1)
      (parseNums_one_round_coord_exact (p.y - curr.y) style hrest hsub)
      (applyCmd_v d (p.y - curr.y))]
    rw [hpt1]
  · rw [show (DrawingCommandType.Svg.vertical_line_cmd.abs ++
        round_coord p.y style.precision) ++ rest =
      'V' :: (round_coord p.y style.precision ++ rest) by simp; rfl]
    rw [decodeLoop_step (by decide) (by decide : cmdArity 'V' = some 1)
      (parseNums_one_round_coord_exact p.y style hrest hp.2)
      (applyCmd_V d p.y)]
    rw [hpt2]

/-- Decode one full `quadTo` fragment (`Q`/`q`). -/
theorem decodeFrag_quad (style : SvgPathStyle) (d : DecState)
    (p1 p2 curr : Pt) (h1 : exactPt style.precision p1)
    (h2 : exactPt style.precision p2) (hc : exactPt style.precision curr)
    (hcurr : d.curr = curr) {rest : List Char} (hrest : restOK rest) :
    decodeLoop d (commandFrag style .Svg DrawingCommandType.Svg.quad_cmd
        [p1, p2] (some curr) ++ rest) =
      decodeLoop ⟨p2, d.start, d.verts ++ [p2]⟩ rest := by
  have hs1 : exactPt style.precision (p1.sub curr) :=
    ⟨exactQ_sub h1.1 hc.1, exactQ_sub h1.2 hc.2⟩
  have hs2 : exactPt style.precision (p2.sub curr) :=
    ⟨exactQ_sub h2.1 hc.1, exactQ_sub h2.2 hc.2⟩
  have hpt : (⟨d.curr.x + (p2.sub curr).x, d.curr.y + (p2.sub curr).y⟩ : Pt)
      = p2 := by
    rw [hcurr]
    cases p2
    cases curr
    simp [Pt.sub]
  rw [commandFrag_pts_some]
  simp only [List.map_cons, List.map_nil]
  split
  · rw [show (DrawingCommandType.Svg.quad_cmd.rel ++
        DrawingCommandType.Svg.collect_coords
          [writeAbsPt (p1.sub curr) style .Svg,
            writeAbsPt (p2.sub curr) style .Svg]) ++ rest =
      'q' :: (DrawingCommandType.Svg.collect_coords
          [writeAbsPt (p1.sub curr) style .Svg,
            writeAbsPt (p2.sub curr) style .Svg] ++ rest) by simp; rfl]
    rw [decodeLoop_step (by decide) (by decide : cmdArity 'q' = some 4)
      (parseNums_four_pts_exact (p1.sub curr) (p2.sub curr) style hrest
        hs1 hs2)
      (applyCmd_q d (p1.sub curr).x (p1.sub curr).y (p2.sub curr).x
        (p2.sub curr).y)]
    rw [hpt]
  · rw [show (DrawingCommandType.Svg.quad_cmd.abs ++
        DrawingCommandType.Svg.collect_coords
          [writeAbsPt p1 style .Svg, writeAbsPt p2 style .Svg]) ++ rest =
      'Q' :: (DrawingCommandType.Svg.collect_coords
          [writeAbsPt p1 style .Svg, writeAbsPt p2 style .Svg] ++ rest)
      by simp; rfl]
    rw [decodeLoop_step (by decide) (by decide : cmdArity 'Q' = some 4)
      (parseNums_four_pts_exact p1 p2 style hrest h1 h2)
      (applyCmd_Q d p1.x p1.y p2.x p2.y)]

/-- Decode one smooth-cubic fragment (`S`/`s`); the relative base is the
prior segment end `b`, which equals the decoder's current point. -/
theorem decodeFrag_smooth_curve (style : SvgPathStyle) (d : DecState)
    (p2 p3 b : Pt) (h2 : exactPt style.precision p2)
    (h3 : exactPt style.precision p3) (hb : exactPt style.precision b)
    (hcurr : d.curr = b) {rest : List Char} (hrest : restOK rest) :
    decodeLoop d (commandFrag style .Svg
        DrawingCommandType.Svg.smooth_curve_cmd [p2, p3] (some b) ++ rest) =
      decodeLoop ⟨p3, d.start, d.verts ++ [p3]⟩ rest := by
  have hs2 : exactPt style.precision (p2.sub b) :=
    ⟨exactQ_sub h2.1 hb.1, exactQ_sub h2.2 hb.2⟩
  have hs3 : exactPt style.precision (p3.sub b) :=
    ⟨exactQ_sub h3.1 hb.1, exactQ_sub h3.2 hb.2⟩
  have hpt : (⟨d.curr.x + (p3.sub b).x, d.curr.y + (p3.sub b).y⟩ : Pt)
      = p3 := by
    rw [hcurr]
    cases p3
    cases b
    simp [Pt.sub]
  rw [commandFrag_pts_some]
  simp only [List.map_cons, List.map_nil]
  split
  · rw [show (DrawingCommandType.Svg.smooth_curve_cmd.rel ++
        DrawingCommandType.Svg.collect_coords
          [writeAbsPt (p2.sub b) style .Svg,
            writeAbsPt (p3.sub b) style .Svg]) ++ rest =
      's' :: (DrawingCommandType.Svg.collect_coords
          [writeAbsPt (p2.sub b) style .Svg,
            writeAbsPt (p3.sub b) style .Svg] ++ rest) by simp; rfl]
    rw [decodeLoop_step (by decide) (by decide : cmdArity 's' = some 4)
      (parseNums_four_pts_exact (p2.sub b) (p3.sub b) style hrest hs2 hs3)
      (applyCmd_s d (p2.sub b).x (p2.sub b).y (p3.sub b).x (p3.sub b).y)]
    rw [hpt]
  · rw [show (DrawingCommandType.Svg.smooth_curve_cmd.abs ++
        DrawingCommandType.Svg.collect_coords
          [writeAbsPt p2 style .Svg, writeAbsPt p3 style .Svg]) ++ rest =
      'S' :: (DrawingCommandType.Svg.collect_coords
          [writeAbsPt p2 style .Svg, writeAbsPt p3 style .Svg] ++ rest)
      by simp; rfl]
    rw [decodeLoop_step (by decide) (by decide : cmdArity 'S' = some 4)
      (parseNums_four_pts_exact p2 p3 style hrest h2 h3)
      (applyCmd_S d p2.x p2.y p3.x p3.y)]

/-- Decode one full `curveTo` fragment (`C`/`c`). -/
theorem decodeFrag_curve (style : SvgPathStyle) (d : DecState)
    (p1 p2 p3 curr : Pt) (h1 : exactPt style.precision p1)
    (h2 : exactPt style.precision p2) (h3 : exactPt style.precision p3)
    (hc : exactPt style.precision curr) (hcurr : d.curr = curr)
    {rest : List Char} (hrest : restOK rest) :
    decodeLoop d (commandFrag style .Svg DrawingCommandType.Svg.curve_cmd
        [p1, p2, p3] (some curr) ++ rest) =
      decodeLoop ⟨p3, d.start, d.verts ++ [p3]⟩ rest := by
  have hs1 : exactPt style.precision (p1.sub curr) :=
    ⟨exactQ_sub h1.1 hc.1, exactQ_sub h1.2 hc.2⟩
  have hs2 : exactPt style.precision (p2.sub curr) :=
    ⟨exactQ_sub h2.1 hc.1, exactQ_sub h2.2 hc.2⟩
  have hs3 : exactPt style.precision (p3.sub curr) :=
    ⟨exactQ_sub h3.1 hc.1, exactQ_sub h3.2 hc.2⟩
  have hpt : (⟨d.curr.x + (p3.sub curr).x, d.curr.y + (p3.sub curr).y⟩ : Pt)
      = p3 := by
    rw [hcurr]
    cases p3
    cases curr
    simp [Pt.sub]
  rw [commandFrag_pts_some]
  simp only [List.map_cons, List.map_nil]
  split
  · rw [show (DrawingCommandType.Svg.curve_cmd.rel ++
        DrawingCommandType.Svg.collect_coords
          [writeAbsPt (p1.sub curr) style .Svg,
            writeAbsPt (p2.sub curr) style .Svg,
            writeAbsPt (p3.sub curr) style .Svg]) ++ rest =
      'c' :: (DrawingCommandType.Svg.collect_coords
          [writeAbsPt (p1.sub curr) style .Svg,
            writeAbsPt (p2.sub curr) style .Svg,
            writeAbsPt (p3.sub curr) style .Svg] ++ rest) by simp; rfl]
    rw [decodeLoop_step (by decide) (by decide : cmdArity 'c' = some 6)
      (parseNums_six_pts_exact (p1.sub curr) (p2.sub curr) (p3.sub curr)
        style hrest hs1 hs2 hs3)
      (applyCmd_c d (p1.sub curr).x (p1.sub curr).y (p2.sub curr).x
        (p2.sub curr).y (p3.sub curr).x (p3.sub curr).y)]
    rw [hpt]
  · rw [show (DrawingCommandType.Svg.curve_cmd.abs ++
        DrawingCommandType.Svg.collect_coords
          [writeAbsPt p1 style .Svg, writeAbsPt p2 style .Svg,
            writeAbsPt p3 style .Svg]) ++ rest =
      'C' :: (DrawingCommandType.Svg.collect_coords
          [writeAbsPt p1 style .Svg, writeAbsPt p2 style .Svg,
            writeAbsPt p3 style .Svg] ++ rest) by simp; rfl]
    rw [decodeLoop_step (by decide) (by decide : cmdArity 'C' = some 6)
      (parseNums_six_pts_exact p1 p2 p3 style hrest h1 h2 h3)
      (applyCmd_C d p1.x p1.y p2.x p2.y p3.x p3.y)]

/-- Decode one absolute `moveTo` fragment (unchanged mode). -/
theorem decodeFrag_move_abs (style : SvgPathStyle) (d : DecState) (p : Pt)
    (hp : exactPt style.precision p) {rest : List Char}
    (hrest : restOK rest) :
    decodeLoop d (commandFrag style .Svg DrawingCommandType.Svg.move_cmd
        [p] none ++ rest) =
      decodeLoop ⟨p, p, d.verts ++ [p]⟩ rest := by
  rw [commandFrag_pts_none]
  simp only [List.map_cons, List.map_nil]
  rw [collect_coords_one]
  rw [show (DrawingCommandType.Svg.move_cmd.abs ++
      writeAbsPt p style .Svg) ++ rest =
    'M' :: (writeAbsPt p style .Svg ++ rest) by simp; rfl]
  rw [decodeLoop_step (by decide) (by decide : cmdArity 'M' = some 2)
    (parseNums_two_writeAbsPt_exact p style hrest hp)
    (applyCmd_M d p.x p.y)]

/-- Decode one absolute `lineTo` fragment (unchanged mode). -/
theorem decodeFrag_line_abs (style : SvgPathStyle) (d : DecState) (p : Pt)
    (hp : exactPt style.precision p) {rest : List Char}
    (hrest : restOK rest) :
    decodeLoop d (commandFrag style .Svg DrawingCommandType.Svg.line_cmd
        [p] none ++ rest) =
      decodeLoop ⟨p, d.start, d.verts ++ [p]⟩ rest := by
  rw [commandFrag_pts_none]
  simp only [List.map_cons, List.map_nil]
  rw [collect_coords_one]
  rw [show (DrawingCommandType.Svg.line_cmd.abs ++
      writeAbsPt p style .Svg) ++ rest =
    'L' :: (writeAbsPt p style .Svg ++ rest) by simp; rfl]
  rw [decodeLoop_step (by decide) (by decide : cmdArity 'L' = some 2)
    (parseNums_two_writeAbsPt_exact p style hrest hp)
    (applyCmd_L d p.x p.y)]

/-- Decode one absolute `quadTo` fragment (unchanged mode). -/
theorem decodeFrag_quad_abs (style : SvgPathStyle) (d : DecState)
    (p1 p2 : Pt) (h1 : exactPt style.precision p1)
    (h2 : exactPt style.precision p2) {rest : List Char}
    (hrest : restOK rest) :
    decodeLoop d (commandFrag style .Svg DrawingCommandType.Svg.quad_cmd
        [p1, p2] none ++ rest) =
      decodeLoop ⟨p2, d.start, d.verts ++ [p2]⟩ rest := by
  rw [commandFrag_pts_none]
  simp only [List.map_cons, List.map_nil]
  rw [show (DrawingCommandType.Svg.quad_cmd.abs ++
      DrawingCommandType.Svg.collect_coords
        [writeAbsPt p1 style .Svg, writeAbsPt p2 style .Svg]) ++ rest =
    'Q' :: (DrawingCommandType.Svg.collect_coords
        [writeAbsPt p1 style .Svg, writeAbsPt p2 style .Svg] ++ rest)
    by simp; rfl]
  rw [decodeLoop_step (by decide) (by decide : cmdArity 'Q' = some 4)
    (parseNums_four_pts_exact p1 p2 style hrest h1 h2)
    (applyCmd_Q d p1.x p1.y p2.x p2.y)]

/-- Decode one absolute `curveTo` fragment (unchanged mode). -/
theorem decodeFrag_curve_abs (style : SvgPathStyle) (d : DecState)
    (p1 p2 p3 : Pt) (h1 : exactPt style.precision p1)
    (h2 : exactPt style.precision p2) (h3 : exactPt style.precision p3)
    {rest : List Char} (hrest : restOK rest) :
    decodeLoop d (commandFrag style .Svg DrawingCommandType.Svg.curve_cmd
        [p1, p2, p3] none ++ rest) =
      decodeLoop ⟨p3, d.start, d.verts ++ [p3]⟩ rest := by
  rw [commandFrag_pts_none]
  simp only [List.map_cons, List.map_nil]
  rw [show (DrawingCommandType.Svg.curve_cmd.abs ++
      DrawingCommandType.Svg.collect_coords
        [writeAbsPt p1 style .Svg, writeAbsPt p2 style .Svg,
          writeAbsPt p3 style .Svg]) ++ rest =
    'C' :: (DrawingCommandType.Svg.collect_coords
        [writeAbsPt p1 style .Svg, writeAbsPt p2 style .Svg,
          writeAbsPt p3 style .Svg] ++ rest) by simp; rfl]
  rw [decodeLoop_step (by decide) (by decide : cmdArity 'C' = some 6)
    (parseNums_six_pts_exact p1 p2 p3 style hrest h1 h2 h3)
    (applyCmd_C d p1.x p1.y p2.x p2.y p3.x p3.y)]

/-- Decode the `Z` token. -/
theorem decodeFrag_closeZ (dt : DrawingCommandType) (d : DecState)
    (hdt : dt = .Svg) (rest : List Char) :
    decodeLoop d (dt.close_cmd.abs ++ rest) =
      decodeLoop ⟨d.start, d.start, d.verts⟩ rest := by
  subst hdt
  rw [show (DrawingCommandType.Svg.close_cmd.abs ++ rest) = 'Z' :: rest
    by rfl]
  exact decodeLoop_close (Or.inl rfl)

/-! ## Emission traces and specified vertex sequences -/

/-- The `(subpath_start, curr)` state after one path element; both writers
update their state identically. -/
def elEndState (start curr : Pt) : PathEl → Pt × Pt
  | .moveTo p => (p, p)
  | .lineTo p => (start, p)
  | .quadTo _ p2 => (start, p2)
  | .curveTo _ _ p3 => (start, p3)
  | .closePath => (start, start)

/-- The `(subpath_start, curr)` state after a whole path. -/
def pathEndState (start curr : Pt) : List PathEl → Pt × Pt
  | [] => (start, curr)
  | el :: els =>
    pathEndState (elEndState start curr el).1 (elEndState start curr el).2 els

/-- The endpoint of a path element (`start` for a close). -/
def elEnd (start : Pt) : PathEl → Pt
  | .moveTo p => p
  | .lineTo p => p
  | .quadTo _ p2 => p2
  | .curveTo _ _ p3 => p3
  | .closePath => start

/-- Everything `to_unchanged_path` emits from a given state onward. -/
def unchangedTrace (style : SvgPathStyle) (dt : DrawingCommandType) :
    Pt → Pt → List PathEl → List Char
  | _, _, [] => []
  | start, curr, el :: els =>
    unchangedFrag style dt start curr el ++
      unchangedTrace style dt (elEndState start curr el).1
        (elEndState start curr el).2 els

/-- Everything `to_compact_path` emits from a given state onward. -/
def compactTrace (style : SvgPathStyle) (dt : DrawingCommandType) :
    Pt → Pt → Option PathEl → List PathEl → List Char
  | _, _, _, [] => []
  | start, curr, prev, el :: els =>
    compactFrag style dt start curr prev el ++
      compactTrace style dt (elEndState start curr el).1
        (elEndState start curr el).2 (some el) els

theorem unchangedStep_fields (style : SvgPathStyle)
    (dt : DrawingCommandType) (s : UnchangedState) (el : PathEl) :
    unchangedStep style dt s el =
      ⟨s.svg ++ unchangedFrag style dt s.subpath_start s.curr el,
        (elEndState s.subpath_start s.curr el).1,
        (elEndState s.subpath_start s.curr el).2⟩ := by
  cases el <;> rfl

theorem foldl_unchangedStep (style : SvgPathStyle)
    (dt : DrawingCommandType) :
    ∀ (els : List PathEl) (s : UnchangedState),
      (els.foldl (unchangedStep style dt) s).svg =
        s.svg ++ unchangedTrace style dt s.subpath_start s.curr els := by
  intro els
  induction els with
  | nil =>
    intro s
    simp [unchangedTrace]
  | cons el els ih =>
    intro s
    rw [List.foldl_cons, ih, unchangedStep_fields]
    simp [unchangedTrace]

theorem to_unchanged_path_eq_trace (style : SvgPathStyle)
    (dt : DrawingCommandType) (path : List PathEl) :
    to_unchanged_path path dt style =
      unchangedTrace style dt ⟨0, 0⟩ ⟨0, 0⟩ path := by
  unfold to_unchanged_path
  rw [foldl_unchangedStep]
  simp

theorem compactStep_fields (style : SvgPathStyle) (dt : DrawingCommandType)
    (s : CompactState) (el : PathEl) :
    compactStep style dt s el =
      ⟨s.svg ++ compactFrag style dt s.subpath_start s.curr s.prev el,
        (elEndState s.subpath_start s.curr el).1,
        (elEndState s.subpath_start s.curr el).2, some el⟩ := by
  cases el <;> rfl

theorem foldl_compactStep (style : SvgPathStyle) (dt : DrawingCommandType) :
    ∀ (els : List PathEl) (s : CompactState),
      (els.foldl (compactStep style dt) s).svg =
        s.svg ++ compactTrace style dt s.subpath_start s.curr s.prev els := by
  intro els
  induction els with
  | nil =>
    intro s
    simp [compactTrace]
  | cons el els ih =>
    intro s
    rw [List.foldl_cons, ih, compactStep_fields]
    simp [compactTrace]

theorem to_compact_path_eq_trace (style : SvgPathStyle)
    (dt : DrawingCommandType) (path : List PathEl) :
    to_compact_path path dt style =
      compactTrace style dt ⟨0, 0⟩ ⟨0, 0⟩ none path := by
  unfold to_compact_path
  rw [foldl_compactStep]
  simp

/-- Vertices (on-curve points) the unchanged output describes, from a given
state. -/
def uVerts : Pt → Pt → List PathEl → List Pt
  | _, _, [] => []
  | start, curr, el :: els =>
    (match el with
     | .moveTo p => [p]
     | .lineTo p => [p]
     | .quadTo _ p2 => [p2]
     | .curveTo _ _ p3 => [p3]
     | .closePath => if curr ≠ start then [start] else []) ++
      uVerts (elEndState start curr el).1 (elEndState start curr el).2 els

/-- Vertices (on-curve points) the compact output describes, from a given
state. -/
def cVerts (style : SvgPathStyle) : Pt → Pt → List PathEl → List Pt
  | _, _, [] => []
  | start, curr, el :: els =>
    (match el with
     | .moveTo p => [p]
     | .lineTo p => if style.roundEqPt curr p then [] else [p]
     | .quadTo _ p2 => if style.roundEqPt curr p2 then [] else [p2]
     | .curveTo _ _ p3 => if style.roundEqPt curr p3 then [] else [p3]
     | .closePath =>
       if style.roundEqPt curr start then [] else [start]) ++
      cVerts style (elEndState start curr el).1
        (elEndState start curr el).2 els

/-- Invariant relating the compact writer's `prev` element to its current
state. -/
def prevInv (precision : ℕ) (start curr : Pt) : Option PathEl → Prop
  | none => True
  | some el => elExact precision el ∧ curr = elEnd start el

/-! ## Heads of emitted fragments -/

theorem compact_line_to_head (style : SvgPathStyle) (p curr : Pt) :
    ∃ c t, compact_line_to style .Svg p curr = c :: t ∧ numCont c = false := by
  unfold compact_line_to
  by_cases h1 : p.x = curr.x
  · rw [if_pos h1, commandFrag_q_some]
    split
    · exact ⟨'v', _, rfl, by decide⟩
    · exact ⟨'V', _, rfl, by decide⟩
  · rw [if_neg h1]
    by_cases h2 : p.y = curr.y
    · rw [if_pos h2, commandFrag_q_some]
      split
      · exact ⟨'h', _, rfl, by decide⟩
      · exact ⟨'H', _, rfl, by decide⟩
    · rw [if_neg h2, commandFrag_pts_some]
      simp only [List.map_cons, List.map_nil]
      split
      · exact ⟨'l', _, rfl, by decide⟩
      · exact ⟨'L', _, rfl, by decide⟩

theorem try_add_smooth_quad_head {style : SvgPathStyle}
    {prev : Option PathEl} {p1 p2 : Pt} {f : List Char}
    (h : try_add_smooth_quad style .Svg prev p1 p2 = some f) :
    ∃ c t, f = c :: t ∧ numCont c = false := by
  unfold try_add_smooth_quad at h
  split at h
  · split at h
    · injection h with h
      rw [← h, commandFrag_pts_some]
      simp only [List.map_cons, List.map_nil]
      split
      · exact ⟨'t', _, rfl, by decide⟩
      · exact ⟨'T', _, rfl, by decide⟩
    · exact absurd h (by simp)
  · exact absurd h (by simp)

theorem try_add_smooth_curve_head {style : SvgPathStyle}
    {prev : Option PathEl} {p1 p2 p3 : Pt} {f : List Char}
    (h : try_add_smooth_curve style .Svg prev p1 p2 p3 = some f) :
    ∃ c t, f = c :: t ∧ numCont c = false := by
  unfold try_add_smooth_curve at h
  split at h
  · split at h
    · injection h with h
      rw [← h, commandFrag_pts_some]
      simp only [List.map_cons, List.map_nil]
      split
      · exact ⟨'s', _, rfl, by decide⟩
      · exact ⟨'S', _, rfl, by decide⟩
    · exact absurd h (by simp)
  · exact absurd h (by simp)

theorem compactFrag_head (style : SvgPathStyle) (start curr : Pt)
    (prev : Option PathEl) (el : PathEl) :
    compactFrag style .Svg start curr prev el = [] ∨
      ∃ c t, compactFrag style .Svg start curr prev el = c :: t ∧
        numCont c = false := by
  cases el with
  | moveTo p =>
    right
    simp only [compactFrag]
    rw [commandFrag_pts_some]
    simp only [List.map_cons, List.map_nil]
    split
    · exact ⟨'m', _, rfl, by decide⟩
    · exact ⟨'M', _, rfl, by decide⟩
  | lineTo p =>
    simp only [compactFrag]
    split
    · exact Or.inl rfl
    · exact Or.inr (compact_line_to_head style p curr)
  | quadTo p1 p2 =>
    simp only [compactFrag]
    split
    · exact Or.inl rfl
    · right
      rcases hs : try_add_smooth_quad style .Svg prev p1 p2 with _ | f
      · dsimp only
        rw [commandFrag_pts_some]
        simp only [List.map_cons, List.map_nil]
        split
        · exact ⟨'q', _, rfl, by decide⟩
        · exact ⟨'Q', _, rfl, by decide⟩
      · dsimp only
        exact try_add_smooth_quad_head hs
  | curveTo p1 p2 p3 =>
    simp only [compactFrag]
    split
    · exact Or.inl rfl
    · right
      rcases hs : try_add_smooth_curve style .Svg prev p1 p2 p3 with _ | f
      · dsimp only
        rw [commandFrag_pts_some]
        simp only [List.map_cons, List.map_nil]
        split
        · exact ⟨'c', _, rfl, by decide⟩
        · exact ⟨'C', _, rfl, by decide⟩
      · dsimp only
        exact try_add_smooth_curve_head hs
  | closePath =>
    right
    simp only [compactFrag]
    split
    · exact ⟨'Z', _, rfl, by decide⟩
    · obtain ⟨c, t, heq, hc⟩ := compact_line_to_head style start curr
      rw [heq]
      exact ⟨c, _, rfl, hc⟩

theorem unchangedFrag_head (style : SvgPathStyle) (start curr : Pt)
    (el : PathEl) :
    ∃ c t, unchangedFrag style .Svg start curr el = c :: t ∧
      numCont c = false := by
  cases el with
  | moveTo p =>
    simp only [unchangedFrag]
    rw [commandFrag_pts_none]
    simp only [List.map_cons, List.map_nil]
    exact ⟨'M', _, rfl, by decide⟩
  | lineTo p =>
    simp only [unchangedFrag]
    rw [commandFrag_pts_none]
    simp only [List.map_cons, List.map_nil]
    exact ⟨'L', _, rfl, by decide⟩
  | quadTo p1 p2 =>
    simp only [unchangedFrag]
    rw [commandFrag_pts_none]
    simp only [List.map_cons, List.map_nil]
    exact ⟨'Q', _, rfl, by decide⟩
  | curveTo p1 p2 p3 =>
    simp only [unchangedFrag]
    rw [commandFrag_pts_none]
    simp only [List.map_cons, List.map_nil]
    exact ⟨'C', _, rfl, by decide⟩
  | closePath =>
    simp only [unchangedFrag]
    split
    · rw [commandFrag_pts_none]
      simp only [List.map_cons, List.map_nil]
      exact ⟨'L', _, rfl, by decide⟩
    · exact ⟨'Z', _, rfl, by decide⟩

theorem restOK_compactTrace (style : SvgPathStyle) :
    ∀ (els : List PathEl) (start curr : Pt) (prev : Option PathEl)
      {rest : List Char}, restOK rest →
      restOK (compactTrace style .Svg start curr prev els ++ rest) := by
  intro els
  induction els with
  | nil =>
    intro start curr prev rest h
    simpa [compactTrace] using h
  | cons el els ih =>
    intro start curr prev rest h
    simp only [compactTrace, List.append_assoc]
    rcases compactFrag_head style start curr prev el with hnil | ⟨c, t, heq, hc⟩
    · rw [hnil, List.nil_append]
      exact ih _ _ _ h
    · rw [heq, List.cons_append]
      exact restOK_cons hc

theorem restOK_unchangedTrace (style : SvgPathStyle) :
    ∀ (els : List PathEl) (start curr : Pt) {rest : List Char},
      restOK rest →
      restOK (unchangedTrace style .Svg start curr els ++ rest) := by
  intro els
  induction els with
  | nil =>
    intro start curr rest h
    simpa [unchangedTrace] using h
  | cons el els ih =>
    intro start curr rest h
    simp only [unchangedTrace, List.append_assoc]
    obtain ⟨c, t, heq, hc⟩ := unchangedFrag_head style start curr el
    rw [heq, List.cons_append]
    exact restOK_cons hc

/-! ## Simulation: decoding what each writer emits -/

theorem simU (style : SvgPathStyle) :
    ∀ (els : List PathEl) (start curr : Pt) (d : DecState)
      (rest : List Char),
      pathExact style.precision els →
      exactPt style.precision start → exactPt style.precision curr →
      d.start = start → d.curr = curr → restOK rest →
      decodeLoop d (unchangedTrace style .Svg start curr els ++ rest) =
        decodeLoop ⟨(pathEndState start curr els).2,
          (pathEndState start curr els).1,
          d.verts ++ uVerts start curr els⟩ rest := by
  intro els
  induction els with
  | nil =>
    intro start curr d rest _ _ _ hds hdc _
    simp only [unchangedTrace, List.nil_append, pathEndState, uVerts,
      List.append_nil]
    cases d
    simp only at hds hdc
    rw [hds, hdc]
  | cons el els ih =>
    intro start curr d rest hex hs hc hds hdc hrest
    have hexEl : elExact style.precision el :=
      hex el (List.mem_cons_self _ _)
    have hexRest : pathExact style.precision els :=
      fun e he => hex e (List.mem_cons_of_mem _ he)
    have hrest2 : restOK (unchangedTrace style .Svg
        (elEndState start curr el).1 (elEndState start curr el).2 els ++
          rest) := restOK_unchangedTrace style els _ _ hrest
    simp only [unchangedTrace, List.append_assoc]
    cases el with
    | moveTo p =>
      dsimp only [elEndState] at hrest2 ⊢
      rw [show unchangedFrag style .Svg start curr (.moveTo p) =
        commandFrag style .Svg DrawingCommandType.Svg.move_cmd [p] none
        from rfl]
      rw [decodeFrag_move_abs style d p hexEl hrest2]
      rw [ih p p ⟨p, p, d.verts ++ [p]⟩ rest hexRest hexEl hexEl rfl rfl
        hrest]
      simp [pathEndState, elEndState, uVerts]
    | lineTo p =>
      dsimp only [elEndState] at hrest2 ⊢
      rw [show unchangedFrag style .Svg start curr (.lineTo p) =
        commandFrag style .Svg DrawingCommandType.Svg.line_cmd [p] none
        from rfl]
      rw [decodeFrag_line_abs style d p hexEl hrest2]
      rw [ih start p ⟨p, d.start, d.verts ++ [p]⟩ rest hexRest hs hexEl hds
        rfl hrest]
      simp [pathEndState, elEndState, uVerts]
    | quadTo p1 p2 =>
      dsimp only [elEndState] at hrest2 ⊢
      rw [show unchangedFrag style .Svg start curr (.quadTo p1 p2) =
        commandFrag style .Svg DrawingCommandType.Svg.quad_cmd [p1, p2] none
        from rfl]
      rw [decodeFrag_quad_abs style d p1 p2 hexEl.1 hexEl.2 hrest2]
      rw [ih start p2 ⟨p2, d.start, d.verts ++ [p2]⟩ rest hexRest hs
        hexEl.2 hds rfl hrest]
      simp [pathEndState, elEndState, uVerts]
    | curveTo p1 p2 p3 =>
      dsimp only [elEndState] at hrest2 ⊢
      rw [show unchangedFrag style .Svg start curr (.curveTo p1 p2 p3) =
        commandFrag style .Svg DrawingCommandType.Svg.curve_cmd [p1, p2, p3]
          none from rfl]
      rw [decodeFrag_curve_abs style d p1 p2 p3 hexEl.1 hexEl.2.1
        hexEl.2.2 hrest2]
      rw [ih start p3 ⟨p3, d.start, d.verts ++ [p3]⟩ rest hexRest hs
        hexEl.2.2 hds rfl hrest]
      simp [pathEndState, elEndState, uVerts]
    | closePath =>
      dsimp only [elEndState] at hrest2 ⊢
      rw [show unchangedFrag style .Svg start curr .closePath =
        (if curr ≠ start
         then commandFrag style .Svg DrawingCommandType.Svg.line_cmd [start]
           none
         else []) ++ DrawingCommandType.Svg.close_cmd.abs from rfl]
      by_cases hne : curr ≠ start
      · rw [if_pos hne, List.append_assoc]
        have hrest3 : restOK (DrawingCommandType.Svg.close_cmd.abs ++
            (unchangedTrace style .Svg start start els ++ rest)) := by
          rw [show (DrawingCommandType.Svg.close_cmd.abs ++
            (unchangedTrace style .Svg start start els ++ rest)) =
            'Z' :: (unchangedTrace style .Svg start start els ++ rest)
            from rfl]
          exact restOK_cons (by decide)
        rw [decodeFrag_line_abs style d start hs hrest3]
        rw [decodeFrag_closeZ .Svg ⟨start, d.start, d.verts ++ [start]⟩ rfl]
        rw [show ((⟨start, d.start, d.verts ++ [start]⟩ : DecState).start) =
          d.start from rfl]
        rw [show ((⟨start, d.start, d.verts ++ [start]⟩ : DecState).verts) =
          d.verts ++ [start] from rfl]
        rw [hds]
        rw [ih start start ⟨start, start, d.verts ++ [start]⟩ rest hexRest
          hs hs rfl rfl hrest]
        simp only [pathEndState, elEndState, uVerts, if_pos hne]
        simp
      · rw [if_neg hne, List.nil_append]
        rw [decodeFrag_closeZ .Svg d rfl]
        rw [hds]
        rw [ih start start ⟨start, start, d.verts⟩ rest hexRest hs hs rfl
          rfl hrest]
        simp only [pathEndState, elEndState, uVerts, if_neg hne]
        simp

theorem try_add_smooth_quad_some {style : SvgPathStyle}
    {prev : Option PathEl} {p1 p2 : Pt} {f : List Char}
    (h : try_add_smooth_quad style .Svg prev p1 p2 = some f) :
    ∃ pp1 pp2, prev = some (.quadTo pp1 pp2) ∧
      style.roundEqPt (implied_control pp1 pp2) p1 = true ∧
      f = commandFrag style .Svg DrawingCommandType.Svg.smooth_quad_cmd
        [p2] (some pp2) := by
  unfold try_add_smooth_quad at h
  split at h
  · rename_i pp1 pp2
    split at h
    · rename_i hcond
      injection h with h
      exact ⟨pp1, pp2, rfl, hcond, h.symm⟩
    · exact absurd h (by simp)
  · exact absurd h (by simp)

theorem try_add_smooth_curve_some {style : SvgPathStyle}
    {prev : Option PathEl} {p1 p2 p3 : Pt} {f : List Char}
    (h : try_add_smooth_curve style .Svg prev p1 p2 p3 = some f) :
    ∃ pp1 pp2 pp3, prev = some (.curveTo pp1 pp2 pp3) ∧
      style.roundEqPt (implied_control pp2 pp3) p1 = true ∧
      f = commandFrag style .Svg DrawingCommandType.Svg.smooth_curve_cmd
        [p2, p3] (some pp3) := by
  unfold try_add_smooth_curve at h
  split at h
  · rename_i pp1 pp2 pp3
    split at h
    · rename_i hcond
      injection h with h
      exact ⟨pp1, pp2, pp3, rfl, hcond, h.symm⟩
    · exact absurd h (by simp)
  · exact absurd h (by simp)

theorem simC (style : SvgPathStyle) :
    ∀ (els : List PathEl) (start curr : Pt) (prev : Option PathEl)
      (d : DecState) (rest : List Char),
      pathExact style.precision els →
      exactPt style.precision start → exactPt style.precision curr →
      prevInv style.precision start curr prev →
      d.start = start → d.curr = curr → restOK rest →
      decodeLoop d (compactTrace style .Svg start curr prev els ++ rest) =
        decodeLoop ⟨(pathEndState start curr els).2,
          (pathEndState start curr els).1,
          d.verts ++ cVerts style start curr els⟩ rest := by
  intro els
  induction els with
  | nil =>
    intro start curr prev d rest _ _ _ _ hds hdc _
    simp only [compactTrace, List.nil_append, pathEndState, cVerts,
      List.append_nil]
    cases d
    simp only at hds hdc
    rw [hds, hdc]
  | cons el els ih =>
    intro start curr prev d rest hex hs hc hprev hds hdc hrest
    have hexEl : elExact style.precision el :=
      hex el (List.mem_cons_self _ _)
    have hexRest : pathExact style.precision els :=
      fun e he => hex e (List.mem_cons_of_mem _ he)
    have hrest2 : restOK (compactTrace style .Svg
        (elEndState start curr el).1 (elEndState start curr el).2 (some el)
        els ++ rest) := restOK_compactTrace style els _ _ _ hrest
    simp only [compactTrace, List.append_assoc]
    cases el with
    | moveTo p =>
      dsimp only [elEndState] at hrest2 ⊢
      rw [show compactFrag style .Svg start curr prev (.moveTo p) =
        commandFrag style .Svg DrawingCommandType.Svg.move_cmd [p]
          (some curr) from rfl]
      rw [decodeFrag_move style d p curr hexEl hc hdc hrest2]
      rw [ih p p (some (.moveTo p)) ⟨p, p, d.verts ++ [p]⟩ rest hexRest
        hexEl hexEl ⟨hexEl, rfl⟩ rfl rfl hrest]
      simp [pathEndState, elEndState, cVerts]
    | lineTo p =>
      dsimp only [elEndState] at hrest2 ⊢
      rw [show compactFrag style .Svg start curr prev (.lineTo p) =
        (if style.roundEqPt curr p then []
         else compact_line_to style .Svg p curr) from rfl]
      by_cases helide : style.roundEqPt curr p = true
      · rw [if_pos helide, List.nil_append]
        have hcp : curr = p := (roundEqPt_of_exact hc hexEl).mp helide
        rw [ih start p (some (.lineTo p)) d rest hexRest hs hexEl
          ⟨hexEl, rfl⟩ hds (hdc.trans hcp) hrest]
        simp [pathEndState, elEndState, cVerts, helide]
      · rw [if_neg helide]
        unfold compact_line_to
        by_cases hx : p.x = curr.x
        · rw [if_pos hx]
          rw [decodeFrag_vline style d p curr hexEl hc hx hdc hrest2]
          rw [ih start p (some (.lineTo p)) ⟨p, d.start, d.verts ++ [p]⟩
            rest hexRest hs hexEl ⟨hexEl, rfl⟩ hds rfl hrest]
          simp [pathEndState, elEndState, cVerts, helide]
        · rw [if_neg hx]
          by_cases hy : p.y = curr.y
          · rw [if_pos hy]
            rw [decodeFrag_hline style d p curr hexEl hc hy hdc hrest2]
            rw [ih start p (some (.lineTo p)) ⟨p, d.start, d.verts ++ [p]⟩
              rest hexRest hs hexEl ⟨hexEl, rfl⟩ hds rfl hrest]
            simp [pathEndState, elEndState, cVerts, helide]
          · rw [if_neg hy]
            rw [decodeFrag_line style d p curr hexEl hc hdc hrest2]
            rw [ih start p (some (.lineTo p)) ⟨p, d.start, d.verts ++ [p]⟩
              rest hexRest hs hexEl ⟨hexEl, rfl⟩ hds rfl hrest]
            simp [pathEndState, elEndState, cVerts, helide]
    | quadTo p1 p2 =>
      dsimp only [elEndState] at hrest2 ⊢
      rw [show compactFrag style .Svg start curr prev (.quadTo p1 p2) =
        (if style.roundEqPt curr p2 then []
         else match try_add_smooth_quad style .Svg prev p1 p2 with
           | some frag => frag
           | none => commandFrag style .Svg DrawingCommandType.Svg.quad_cmd
             [p1, p2] (some curr)) from rfl]
      by_cases helide : style.roundEqPt curr p2 = true
      · rw [if_pos helide, List.nil_append]
        have hcp : curr = p2 := (roundEqPt_of_exact hc hexEl.2).mp helide
        rw [ih start p2 (some (.quadTo p1 p2)) d rest hexRest hs hexEl.2
          ⟨hexEl, rfl⟩ hds (hdc.trans hcp) hrest]
        simp [pathEndState, elEndState, cVerts, helide]
      · rw [if_neg helide]
        rcases htry : try_add_smooth_quad style .Svg prev p1 p2 with _ | f
        · dsimp only
          rw [decodeFrag_quad style d p1 p2 curr hexEl.1 hexEl.2 hc hdc
            hrest2]
          rw [ih start p2 (some (.quadTo p1 p2))
            ⟨p2, d.start, d.verts ++ [p2]⟩ rest hexRest hs hexEl.2
            ⟨hexEl, rfl⟩ hds rfl hrest]
          simp [pathEndState, elEndState, cVerts, helide]
        · dsimp only
          obtain ⟨pp1, pp2, hprev2, hcond, hf⟩ := try_add_smooth_quad_some
            htry
          rw [hprev2] at hprev
          obtain ⟨hexPrev, hcurrEnd⟩ := hprev
          have hcurrPp2 : curr = pp2 := hcurrEnd
          rw [hf]
          rw [decodeFrag_smooth_quad style d p2 pp2 hexEl.2 hexPrev.2
            (hdc.trans hcurrPp2) hrest2]
          rw [ih start p2 (some (.quadTo p1 p2))
            ⟨p2, d.start, d.verts ++ [p2]⟩ rest hexRest hs hexEl.2
            ⟨hexEl, rfl⟩ hds rfl hrest]
          simp [pathEndState, elEndState, cVerts, helide]
    | curveTo p1 p2 p3 =>
      dsimp only [elEndState] at hrest2 ⊢
      rw [show compactFrag style .Svg start curr prev (.curveTo p1 p2 p3) =
        (if style.roundEqPt curr p3 then []
         else match try_add_smooth_curve style .Svg prev p1 p2 p3 with
           | some frag => frag
           | none => commandFrag style .Svg DrawingCommandType.Svg.curve_cmd
             [p1, p2, p3] (some curr)) from rfl]
      by_cases helide : style.roundEqPt curr p3 = true
      · rw [if_pos helide, List.nil_append]
        have hcp : curr = p3 := (roundEqPt_of_exact hc hexEl.2.2).mp helide
        rw [ih start p3 (some (.curveTo p1 p2 p3)) d rest hexRest hs
          hexEl.2.2 ⟨hexEl, rfl⟩ hds (hdc.trans hcp) hrest]
        simp [pathEndState, elEndState, cVerts, helide]
      · rw [if_neg helide]
        rcases htry : try_add_smooth_curve style .Svg prev p1 p2 p3 with _ | f
        · dsimp only
          rw [decodeFrag_curve style d p1 p2 p3 curr hexEl.1 hexEl.2.1
            hexEl.2.2 hc hdc hrest2]
          rw [ih start p3 (some (.curveTo p1 p2 p3))
            ⟨p3, d.start, d.verts ++ [p3]⟩ rest hexRest hs hexEl.2.2
            ⟨hexEl, rfl⟩ hds rfl hrest]
          simp [pathEndState, elEndState, cVerts, helide]
        · dsimp only
          obtain ⟨pp1, pp2, pp3, hprev2, hcond, hf⟩ :=
            try_add_smooth_curve_some htry
          rw [hprev2] at hprev
          obtain ⟨hexPrev, hcurrEnd⟩ := hprev
          rw [hf]
          rw [decodeFrag_smooth_curve style d p2 p3 pp3 hexEl.2.1
            hexEl.2.2 hexPrev.2.2 (hdc.trans hcurrEnd) hrest2]
          rw [ih start p3 (some (.curveTo p1 p2 p3))
            ⟨p3, d.start, d.verts ++ [p3]⟩ rest hexRest hs hexEl.2.2
            ⟨hexEl, rfl⟩ hds rfl hrest]
          simp [pathEndState, elEndState, cVerts, helide]
    | closePath =>
      dsimp only [elEndState] at hrest2 ⊢
      rw [show compactFrag style .Svg start curr prev .closePath =
        (if style.roundEqPt curr start then []
         else compact_line_to style .Svg start curr) ++
          DrawingCommandType.Svg.close_cmd.abs from rfl]
      by_cases hclose : style.roundEqPt curr start = true
      · rw [if_pos hclose, List.nil_append]
        rw [decodeFrag_closeZ .Svg d rfl]
        rw [hds]
        rw [ih start start (some .closePath) ⟨start, start, d.verts⟩ rest
          hexRest hs hs ⟨trivial, rfl⟩ rfl rfl hrest]
        simp [pathEndState, elEndState, cVerts, hclose]
      · rw [if_neg hclose, List.append_assoc]
        have hrest3 : restOK (DrawingCommandType.Svg.close_cmd.abs ++
            (compactTrace style .Svg start start (some .closePath) els ++
              rest)) := by
          rw [show (DrawingCommandType.Svg.close_cmd.abs ++
            (compactTrace style .Svg start start (some .closePath) els ++
              rest)) =
            'Z' :: (compactTrace style .Svg start start (some .closePath)
              els ++ rest) from rfl]
          exact restOK_cons (by decide)
        unfold compact_line_to
        by_cases hx : start.x = curr.x
        · rw [if_pos hx]
          rw [decodeFrag_vline style d start curr hs hc hx hdc hrest3]
          rw [decodeFrag_closeZ .Svg
            ⟨start, d.start, d.verts ++ [start]⟩ rfl]
          rw [show ((⟨start, d.start, d.verts ++ [start]⟩ :
            DecState).start) = d.start from rfl]
          rw [show ((⟨start, d.start, d.verts ++ [start]⟩ :
            DecState).verts) = d.verts ++ [start] from rfl]
          rw [hds]
          rw [ih start start (some .closePath)
            ⟨start, start, d.verts ++ [start]⟩ rest hexRest hs hs
            ⟨trivial, rfl⟩ rfl rfl hrest]
          simp [pathEndState, elEndState, cVerts, hclose]
        · rw [if_neg hx]
          by_cases hy : start.y = curr.y
          · rw [if_pos hy]
            rw [decodeFrag_hline style d start curr hs hc hy hdc hrest3]
            rw [decodeFrag_closeZ .Svg
              ⟨start, d.start, d.verts ++ [start]⟩ rfl]
            rw [show ((⟨start, d.start, d.verts ++ [start]⟩ :
              DecState).start) = d.start from rfl]
            rw [show ((⟨start, d.start, d.verts ++ [start]⟩ :
              DecState).verts) = d.verts ++ [start] from rfl]
            rw [hds]
            rw [ih start start (some .closePath)
              ⟨start, start, d.verts ++ [start]⟩ rest hexRest hs hs
              ⟨trivial, rfl⟩ rfl rfl hrest]
            simp [pathEndState, elEndState, cVerts, hclose]
          · rw [if_neg hy]
            rw [decodeFrag_line style d start curr hs hc hdc hrest3]
            rw [decodeFrag_closeZ .Svg
              ⟨start, d.start, d.verts ++ [start]⟩ rfl]
            rw [show ((⟨start, d.start, d.verts ++ [start]⟩ :
              DecState).start) = d.start from rfl]
            rw [show ((⟨start, d.start, d.verts ++ [start]⟩ :
              DecState).verts) = d.verts ++ [start] from rfl]
            rw [hds]
            rw [ih start start (some .closePath)
              ⟨start, start, d.verts ++ [start]⟩ rest hexRest hs hs
              ⟨trivial, rfl⟩ rfl rfl hrest]
            simp [pathEndState, elEndState, cVerts, hclose]

/-! ## Same polygon: squashing duplicate vertices -/

/-- The running anchor after squashing a vertex list. -/
def anchorAfter (a : Pt) : List Pt → Pt
  | [] => a
  | x :: xs => if x = a then anchorAfter a xs else anchorAfter x xs

theorem squash_append :
    ∀ (l1 : List Pt) (a : Pt) (l2 : List Pt),
      squash a (l1 ++ l2) = squash a l1 ++ squash (anchorAfter a l1) l2 := by
  intro l1
  induction l1 with
  | nil =>
    intro a l2
    simp [squash, anchorAfter]
  | cons x xs ih =>
    intro a l2
    by_cases hx : x = a
    · subst hx
      simp only [List.cons_append, squash, anchorAfter, if_pos rfl,
        List.append_eq]
      exact ih x l2
    · simp only [List.cons_append, squash, anchorAfter, if_neg hx,
        List.append_eq]
      rw [ih x l2]

theorem roundPrecPt_exact {precision : ℕ} {p : Pt}
    (h : exactPt precision p) : roundPrecPt p precision = p := by
  cases p
  unfold roundPrecPt
  rw [h.1, h.2]

theorem map_round_exact {precision : ℕ} :
    ∀ (l : List Pt), (∀ v ∈ l, exactPt precision v) →
      l.map (fun p => roundPrecPt p precision) = l := by
  intro l
  induction l with
  | nil => intro _; rfl
  | cons x xs ih =>
    intro hl
    simp only [List.map_cons]
    rw [roundPrecPt_exact (hl x (List.mem_cons_self _ _)),
      ih (fun v hv => hl v (List.mem_cons_of_mem _ hv))]

theorem uVerts_exact {precision : ℕ} :
    ∀ (els : List PathEl) (start curr : Pt),
      pathExact precision els → exactPt precision start →
      ∀ v ∈ uVerts start curr els, exactPt precision v := by
  intro els
  induction els with
  | nil =>
    intro start curr _ _ v hv
    simp [uVerts] at hv
  | cons el els ih =>
    intro start curr hex hs v hv
    have hexEl : elExact precision el := hex el (List.mem_cons_self _ _)
    have hexRest : pathExact precision els :=
      fun e he => hex e (List.mem_cons_of_mem _ he)
    cases el with
    | moveTo p =>
      simp only [uVerts, List.mem_append] at hv
      rcases hv with hv | hv
      · simp at hv
        rw [hv]
        exact hexEl
      · exact ih _ _ hexRest hexEl v hv
    | lineTo p =>
      simp only [uVerts, List.mem_append] at hv
      rcases hv with hv | hv
      · simp at hv
        rw [hv]
        exact hexEl
      · exact ih _ _ hexRest hs v hv
    | quadTo p1 p2 =>
      simp only [uVerts, List.mem_append] at hv
      rcases hv with hv | hv
      · simp at hv
        rw [hv]
        exact hexEl.2
      · exact ih _ _ hexRest hs v hv
    | curveTo p1 p2 p3 =>
      simp only [uVerts, List.mem_append] at hv
      rcases hv with hv | hv
      · simp at hv
        rw [hv]
        exact hexEl.2.2
      · exact ih _ _ hexRest hs v hv
    | closePath =>
      simp only [uVerts, List.mem_append] at hv
      rcases hv with hv | hv
      · split at hv
        · simp at hv
          rw [hv]
          exact hs
        · simp at hv
      · exact ih _ _ hexRest hs v hv

theorem cVerts_exact {style : SvgPathStyle} :
    ∀ (els : List PathEl) (start curr : Pt),
      pathExact style.precision els → exactPt style.precision start →
      ∀ v ∈ cVerts style start curr els, exactPt style.precision v := by
  intro els
  induction els with
  | nil =>
    intro start curr _ _ v hv
    simp [cVerts] at hv
  | cons el els ih =>
    intro start curr hex hs v hv
    have hexEl : elExact style.precision el := hex el (List.mem_cons_self _ _)
    have hexRest : pathExact style.precision els :=
      fun e he => hex e (List.mem_cons_of_mem _ he)
    cases el with
    | moveTo p =>
      simp only [cVerts, List.mem_append] at hv
      rcases hv with hv | hv
      · simp at hv
        rw [hv]
        exact hexEl
      · exact ih _ _ hexRest hexEl v hv
    | lineTo p =>
      simp only [cVerts, List.mem_append] at hv
      rcases hv with hv | hv
      · split at hv
        · simp at hv
        · simp at hv
          rw [hv]
          exact hexEl
      · exact ih _ _ hexRest hs v hv
    | quadTo p1 p2 =>
      simp only [cVerts, List.mem_append] at hv
      rcases hv with hv | hv
      · split at hv
        · simp at hv
        · simp at hv
          rw [hv]
          exact hexEl.2
      · exact ih _ _ hexRest hs v hv
    | curveTo p1 p2 p3 =>
      simp only [cVerts, List.mem_append] at hv
      rcases hv with hv | hv
      · split at hv
        · simp at hv
        · simp at hv
          rw [hv]
          exact hexEl.2.2
      · exact ih _ _ hexRest hs v hv
    | closePath =>
      simp only [cVerts, List.mem_append] at hv
      rcases hv with hv | hv
      · split at hv
        · simp at hv
        · simp at hv
          rw [hv]
          exact hs
      · exact ih _ _ hexRest hs v hv

theorem anchorAfter_single (a p : Pt) : anchorAfter a [p] = p := by
  by_cases h : p = a
  · simp [anchorAfter, h]
  · simp [anchorAfter, h]

theorem anchorAfter_append :
    ∀ (l1 : List Pt) (a : Pt) (l2 : List Pt),
      anchorAfter a (l1 ++ l2) = anchorAfter (anchorAfter a l1) l2 := by
  intro l1
  induction l1 with
  | nil =>
    intro a l2
    simp [anchorAfter]
  | cons x xs ih =>
    intro a l2
    by_cases hx : x = a
    · simp only [List.cons_append, anchorAfter, if_pos hx]
      exact ih a l2
    · simp only [List.cons_append, anchorAfter, if_neg hx]
      exact ih x l2

theorem squash_anchor_pair {curr p : Pt} {b : Bool}
    (hb : b = true ↔ curr = p) :
    squash curr [p] = squash curr (if b then [] else [p]) ∧
      anchorAfter curr [p] = p ∧
      anchorAfter curr (if b then [] else [p]) = p := by
  cases b with
  | true =>
    have hcp : curr = p := hb.mp rfl
    subst hcp
    simp [squash, anchorAfter]
  | false =>
    have hcp : curr ≠ p := fun h => absurd (hb.mpr h) (by simp)
    have hpc : p ≠ curr := fun h => hcp h.symm
    simp [squash, anchorAfter, hpc]

theorem squash_anchor_pair_close {curr p : Pt} {b : Bool}
    (hb : b = true ↔ curr = p) :
    squash curr (if curr ≠ p then [p] else []) =
        squash curr (if b then [] else [p]) ∧
      anchorAfter curr (if curr ≠ p then [p] else []) = p ∧
      anchorAfter curr (if b then [] else [p]) = p := by
  by_cases hcp : curr = p
  · have hbt : b = true := hb.mpr hcp
    subst hcp
    simp [hbt, squash, anchorAfter]
  · have hbf : b = false := by
      cases b
      · rfl
      · exact absurd (hb.mp rfl) hcp
    have hpc : p ≠ curr := fun h => hcp h.symm
    simp [hbf, hcp, squash, anchorAfter, hpc]

theorem verts_squash (style : SvgPathStyle) :
    ∀ (els : List PathEl) (start curr : Pt),
      pathExact style.precision els → exactPt style.precision start →
      exactPt style.precision curr →
      squash curr (uVerts start curr els) =
          squash curr (cVerts style start curr els) ∧
        anchorAfter curr (uVerts start curr els) =
          (pathEndState start curr els).2 ∧
        anchorAfter curr (cVerts style start curr els) =
          (pathEndState start curr els).2 := by
  intro els
  induction els with
  | nil =>
    intro start curr _ _ _
    simp [uVerts, cVerts, squash, anchorAfter, pathEndState]
  | cons el els ih =>
    intro start curr hex hs hc
    have hexEl : elExact style.precision el := hex el (List.mem_cons_self _ _)
    have hexRest : pathExact style.precision els :=
      fun e he => hex e (List.mem_cons_of_mem _ he)
    cases el with
    | moveTo p =>
      simp only [uVerts, cVerts, pathEndState]
      dsimp only [elEndState]
      obtain ⟨ih1, ih2, ih3⟩ := ih p p hexRest hexEl hexEl
      refine ⟨?_, ?_, ?_⟩
      · rw [squash_append, squash_append, anchorAfter_single, ih1]
      · rw [anchorAfter_append, anchorAfter_single, ih2]
      · rw [anchorAfter_append, anchorAfter_single, ih3]
    | lineTo p =>
      simp only [uVerts, cVerts, pathEndState]
      dsimp only [elEndState]
      obtain ⟨ih1, ih2, ih3⟩ := ih start p hexRest hs hexEl
      obtain ⟨e1, e2, e3⟩ :=
        squash_anchor_pair (roundEqPt_of_exact hc hexEl)
      refine ⟨?_, ?_, ?_⟩
      · rw [squash_append, squash_append, e1, e2, e3, ih1]
      · rw [anchorAfter_append, e2, ih2]
      · rw [anchorAfter_append, e3, ih3]
    | quadTo p1 p2 =>
      simp only [uVerts, cVerts, pathEndState]
      dsimp only [elEndState]
      obtain ⟨ih1, ih2, ih3⟩ := ih start p2 hexRest hs hexEl.2
      obtain ⟨e1, e2, e3⟩ :=
        squash_anchor_pair (roundEqPt_of_exact hc hexEl.2)
      refine ⟨?_, ?_, ?_⟩
      · rw [squash_append, squash_append, e1, e2, e3, ih1]
      · rw [anchorAfter_append, e2, ih2]
      · rw [anchorAfter_append, e3, ih3]
    | curveTo p1 p2 p3 =>
      simp only [uVerts, cVerts, pathEndState]
      dsimp only [elEndState]
      obtain ⟨ih1, ih2, ih3⟩ := ih start p3 hexRest hs hexEl.2.2
      obtain ⟨e1, e2, e3⟩ :=
        squash_anchor_pair (roundEqPt_of_exact hc hexEl.2.2)
      refine ⟨?_, ?_, ?_⟩
      · rw [squash_append, squash_append, e1, e2, e3, ih1]
      · rw [anchorAfter_append, e2, ih2]
      · rw [anchorAfter_append, e3, ih3]
    | closePath =>
      simp only [uVerts, cVerts, pathEndState]
      dsimp only [elEndState]
      obtain ⟨ih1, ih2, ih3⟩ := ih start start hexRest hs hs
      obtain ⟨e1, e2, e3⟩ :=
        squash_anchor_pair_close (roundEqPt_of_exact hc hs)
      refine ⟨?_, ?_, ?_⟩
      · rw [squash_append, squash_append, e1, e2, e3, ih1]
      · rw [anchorAfter_append, e2, ih2]
      · rw [anchorAfter_append, e3, ih3]

theorem decodeLoop_nil (st : DecState) : decodeLoop st [] = some st := by
  rw [decodeLoop]

/-! ## C2: the claim, its counterexample, and the amended claim -/

/-- The path of the `compact_1d_lines` unit test: every coordinate is a
multiple of `10 ^ (-2)`, hence exact at precision 2. -/
def c2wPath : List PathEl :=
  [.moveTo ⟨1, 1⟩, .lineTo ⟨2, 2⟩, .lineTo ⟨3, 2⟩, .lineTo ⟨3, 3⟩,
    .lineTo ⟨5 / 4, 3⟩, .lineTo ⟨5 / 4, 3 / 2⟩, .closePath]

/-- A two-element path whose coordinates are not exact at precision 0:
`10.375` and `10.625` both round to distinct integers absolutely, but the
relative delta `0.25` rounds to `0`. -/
def c2cexPath : List PathEl := [.moveTo ⟨83 / 8, 0⟩, .lineTo ⟨85 / 8, 0⟩]

set_option maxHeartbeats 800000 in
/-- C2 (as stated, refuted elsewhere at `c2cexPath`; amended): when every
coordinate of the path is exact at the configured precision, decoding the
Compact-mode output and decoding the Unchanged-mode output describe the
same polygon after rounding every coordinate to that precision.  Without
the exactness hypothesis the claim is false: a relative command rounds the
delta against the unrounded current point, so rounding errors accumulate
in the decoded position. -/
theorem C2_compact_unchanged_same_geometry (precision : ℕ)
    (path : List PathEl) (hex : pathExact precision path) :
    decodedGeometry precision
        (to_compact_path path .Svg (.Compact precision)) =
      decodedGeometry precision
        (to_unchanged_path path .Svg (.Unchanged precision)) := by
  have hexC :
      pathExact (SvgPathStyle.precision (.Compact precision)) path := hex
  have hexU :
      pathExact (SvgPathStyle.precision (.Unchanged precision)) path := hex
  have hC := simC (.Compact precision) path ⟨0, 0⟩ ⟨0, 0⟩ none
    ⟨⟨0, 0⟩, ⟨0, 0⟩, []⟩ [] hexC (exactPt_origin _) (exactPt_origin _)
    trivial rfl rfl restOK_nil
  have hU := simU (.Unchanged precision) path ⟨0, 0⟩ ⟨0, 0⟩
    ⟨⟨0, 0⟩, ⟨0, 0⟩, []⟩ [] hexU (exactPt_origin _) (exactPt_origin _)
    rfl rfl restOK_nil
  rw [List.append_nil] at hC hU
  unfold decodedGeometry
  rw [to_compact_path_eq_trace, to_unchanged_path_eq_trace, hC, hU,
    decodeLoop_nil, decodeLoop_nil]
  simp only [Option.map_some', List.nil_append]
  congr 1
  have e1 : List.map (fun p => roundPrecPt p precision)
      (cVerts (.Compact precision) ⟨0, 0⟩ ⟨0, 0⟩ path) =
      cVerts (.Compact precision) ⟨0, 0⟩ ⟨0, 0⟩ path :=
    map_round_exact _ (fun v hv =>
      cVerts_exact path ⟨0, 0⟩ ⟨0, 0⟩ hexC (exactPt_origin _) v hv)
  have e2 : List.map (fun p => roundPrecPt p precision)
      (uVerts ⟨0, 0⟩ ⟨0, 0⟩ path) = uVerts ⟨0, 0⟩ ⟨0, 0⟩ path :=
    map_round_exact _ (fun v hv =>
      uVerts_exact path ⟨0, 0⟩ ⟨0, 0⟩ hexU (exactPt_origin _) v hv)
  rw [e1, e2]
  exact (verts_squash (.Compact precision) path ⟨0, 0⟩ ⟨0, 0⟩ hexC
    (exactPt_origin _) (exactPt_origin _)).1.symm

/-- C2 counterexample: at precision 0 the path `M 10.375,0 L 10.625,0`
compacts to `M10,0h0` (the relative delta `0.25` rounds to `0`), which
decodes to the single point `(10, 0)`, while the Unchanged output
`M10,0L11,0` decodes to the segment `(10, 0) – (11, 0)`: the two outputs
do not describe the same rounded geometry, refuting the claim as stated
for arbitrary paths. -/
theorem C2_counterexample :
    decodedGeometry 0 (to_compact_path c2cexPath .Svg (.Compact 0)) ≠
      decodedGeometry 0
        (to_unchanged_path c2cexPath .Svg (.Unchanged 0)) :=
  of_decide_eq_false (by with_unfolding_all rfl)

/-- Witness: the amended C2 theorem applied at a concrete exact path. -/
theorem C2_witness :
    pathExact 2 c2wPath ∧
      decodedGeometry 2 (to_compact_path c2wPath .Svg (.Compact 2)) =
        decodedGeometry 2
          (to_unchanged_path c2wPath .Svg (.Unchanged 2)) :=
  ⟨of_decide_eq_true (by with_unfolding_all rfl),
    C2_compact_unchanged_same_geometry 2 c2wPath
      (of_decide_eq_true (by with_unfolding_all rfl))⟩

/-! ## C3: smooth commands are emitted exactly on the reflection condition -/

theorem commandFrag_svg_head (style : SvgPathStyle) (cmd : DrawingCommand)
    (ps : List Pt) (b : Pt) {A a : Char} (hA : cmd.abs = [A])
    (ha : cmd.rel = [a]) :
    (commandFrag style .Svg cmd ps (some b)).head? = some A ∨
      (commandFrag style .Svg cmd ps (some b)).head? = some a := by
  rw [commandFrag_pts_some]
  split
  · right
    rw [ha]
    rfl
  · left
    rw [hA]
    rfl

theorem headTwo_ne {f : List Char} {a b c d : Char}
    (h : f.head? = some a ∨ f.head? = some b)
    (hac : a ≠ c) (had : a ≠ d) (hbc : b ≠ c) (hbd : b ≠ d) :
    ¬ (f.head? = some c ∨ f.head? = some d) := by
  rintro (hc | hc) <;> rcases h with h | h <;> rw [h] at hc
  · exact hac (Option.some.inj hc)
  · exact hbc (Option.some.inj hc)
  · exact had (Option.some.inj hc)
  · exact hbd (Option.some.inj hc)

/-- C3: in Compact mode (any style and state), for a non-elided quad
segment the emitted command starts with `T`/`t` (smooth quad) exactly when
the previous path element is a quad whose control point reflected over its
endpoint (`2 * prior_end - prior_control = implied_control`) equals the new
segment's control point after rounding, and starts with `Q`/`q` (full
quad) exactly otherwise; symmetrically for cubics with `S`/`s` vs `C`/`c`
and the reflection of the prior cubic's second control point over its
endpoint. -/
theorem C3_smooth_iff_reflection (style : SvgPathStyle) (start curr : Pt)
    (prev : Option PathEl) :
    (∀ p1 p2 : Pt, style.roundEqPt curr p2 = false →
      ((((compactFrag style .Svg start curr prev (.quadTo p1 p2)).head? =
            some 'T' ∨
          (compactFrag style .Svg start curr prev
            (.quadTo p1 p2)).head? = some 't') ↔
        ∃ q1 q2, prev = some (.quadTo q1 q2) ∧
          style.roundEqPt (implied_control q1 q2) p1 = true) ∧
       (((compactFrag style .Svg start curr prev
            (.quadTo p1 p2)).head? = some 'Q' ∨
          (compactFrag style .Svg start curr prev
            (.quadTo p1 p2)).head? = some 'q') ↔
        ¬ ∃ q1 q2, prev = some (.quadTo q1 q2) ∧
          style.roundEqPt (implied_control q1 q2) p1 = true))) ∧
    (∀ p1 p2 p3 : Pt, style.roundEqPt curr p3 = false →
      ((((compactFrag style .Svg start curr prev
            (.curveTo p1 p2 p3)).head? = some 'S' ∨
          (compactFrag style .Svg start curr prev
            (.curveTo p1 p2 p3)).head? = some 's') ↔
        ∃ q1 q2 q3, prev = some (.curveTo q1 q2 q3) ∧
          style.roundEqPt (implied_control q2 q3) p1 = true) ∧
       (((compactFrag style .Svg start curr prev
            (.curveTo p1 p2 p3)).head? = some 'C' ∨
          (compactFrag style .Svg start curr prev
            (.curveTo p1 p2 p3)).head? = some 'c') ↔
        ¬ ∃ q1 q2 q3, prev = some (.curveTo q1 q2 q3) ∧
          style.roundEqPt (implied_control q2 q3) p1 = true))) := by
  constructor
  · intro p1 p2 hne
    rcases hq : try_add_smooth_quad style .Svg prev p1 p2 with _ | f
    · have hfrag : compactFrag style .Svg start curr prev (.quadTo p1 p2) =
          commandFrag style .Svg DrawingCommandType.Svg.quad_cmd [p1, p2]
            (some curr) := by
        simp only [compactFrag]
        split
        · rename_i h
          rw [hne] at h
          exact absurd h (by decide)
        · rw [hq]
      have hh := commandFrag_svg_head style DrawingCommandType.Svg.quad_cmd
        [p1, p2] curr rfl rfl
      rw [← hfrag] at hh
      have hnc : ¬ ∃ q1 q2, prev = some (.quadTo q1 q2) ∧
          style.roundEqPt (implied_control q1 q2) p1 = true := by
        rintro ⟨q1, q2, hprev, hr⟩
        rw [hprev] at hq
        rw [show try_add_smooth_quad style .Svg (some (.quadTo q1 q2))
            p1 p2 =
          if style.roundEqPt (implied_control q1 q2) p1 then
            some (commandFrag style .Svg
              DrawingCommandType.Svg.smooth_quad_cmd [p2] (some q2))
          else none from rfl, hr] at hq
        simp at hq
      constructor
      · constructor
        · intro hT
          exact absurd hT
            (headTwo_ne hh (by decide) (by decide) (by decide) (by decide))
        · intro hc
          exact absurd hc hnc
      · exact ⟨fun _ => hnc, fun _ => hh⟩
    · obtain ⟨pp1, pp2, hprev, hr, hf⟩ := try_add_smooth_quad_some hq
      have hfrag : compactFrag style .Svg start curr prev (.quadTo p1 p2) =
          f := by
        simp only [compactFrag]
        split
        · rename_i h
          rw [hne] at h
          exact absurd h (by decide)
        · rw [hq]
      have hh := commandFrag_svg_head style
        DrawingCommandType.Svg.smooth_quad_cmd [p2] pp2 rfl rfl
      rw [← hf, ← hfrag] at hh
      constructor
      · exact ⟨fun _ => ⟨pp1, pp2, hprev, hr⟩, fun _ => hh⟩
      · constructor
        · intro hQ
          exact absurd hQ
            (headTwo_ne hh (by decide) (by decide) (by decide) (by decide))
        · intro hnc
          exact absurd ⟨pp1, pp2, hprev, hr⟩ hnc
  · intro p1 p2 p3 hne
    rcases hq : try_add_smooth_curve style .Svg prev p1 p2 p3 with _ | f
    · have hfrag : compactFrag style .Svg start curr prev
          (.curveTo p1 p2 p3) =
          commandFrag style .Svg DrawingCommandType.Svg.curve_cmd
            [p1, p2, p3] (some curr) := by
        simp only [compactFrag]
        split
        · rename_i h
          rw [hne] at h
          exact absurd h (by decide)
        · rw [hq]
      have hh := commandFrag_svg_head style DrawingCommandType.Svg.curve_cmd
        [p1, p2, p3] curr rfl rfl
      rw [← hfrag] at hh
      have hnc : ¬ ∃ q1 q2 q3, prev = some (.curveTo q1 q2 q3) ∧
          style.roundEqPt (implied_control q2 q3) p1 = true := by
        rintro ⟨q1, q2, q3, hprev, hr⟩
        rw [hprev] at hq
        rw [show try_add_smooth_curve style .Svg (some (.curveTo q1 q2 q3))
            p1 p2 p3 =
          if style.roundEqPt (implied_control q2 q3) p1 then
            some (commandFrag style .Svg
              DrawingCommandType.Svg.smooth_curve_cmd [p2, p3] (some q3))
          else none from rfl, hr] at hq
        simp at hq
      constructor
      · constructor
        · intro hS
          exact absurd hS
            (headTwo_ne hh (by decide) (by decide) (by decide) (by decide))
        · intro hc
          exact absurd hc hnc
      · exact ⟨fun _ => hnc, fun _ => hh⟩
    · obtain ⟨pp1, pp2, pp3, hprev, hr, hf⟩ := try_add_smooth_curve_some hq
      have hfrag : compactFrag style .Svg start curr prev
          (.curveTo p1 p2 p3) = f := by
        simp only [compactFrag]
        split
        · rename_i h
          rw [hne] at h
          exact absurd h (by decide)
        · rw [hq]
      have hh := commandFrag_svg_head style
        DrawingCommandType.Svg.smooth_curve_cmd [p2, p3] pp3 rfl rfl
      rw [← hf, ← hfrag] at hh
      constructor
      · exact ⟨fun _ => ⟨pp1, pp2, pp3, hprev, hr⟩, fun _ => hh⟩
      · constructor
        · intro hC
          exact absurd hC
            (headTwo_ne hh (by decide) (by decide) (by decide) (by decide))
        · intro hnc
          exact absurd ⟨pp1, pp2, pp3, hprev, hr⟩ hnc

/-- Witness: after a quad from `(0,0)` to `(1,1)` with control `(0,0)`,
a quad with control `(2,2)` (the exact reflection) to `(3,3)` is emitted
as a smooth quad. -/
theorem C3_witness :
    SvgPathStyle.roundEqPt (.Compact 0) ⟨1, 1⟩ ⟨3, 3⟩ = false ∧
      ((compactFrag (.Compact 0) .Svg ⟨9, 9⟩ ⟨1, 1⟩
          (some (.quadTo ⟨0, 0⟩ ⟨1, 1⟩)) (.quadTo ⟨2, 2⟩ ⟨3, 3⟩)).head? =
          some 'T' ∨
        (compactFrag (.Compact 0) .Svg ⟨9, 9⟩ ⟨1, 1⟩
          (some (.quadTo ⟨0, 0⟩ ⟨1, 1⟩)) (.quadTo ⟨2, 2⟩ ⟨3, 3⟩)).head? =
          some 't') :=
  ⟨by with_unfolding_all rfl,
    ((C3_smooth_iff_reflection (.Compact 0) ⟨9, 9⟩ ⟨1, 1⟩
        (some (.quadTo ⟨0, 0⟩ ⟨1, 1⟩))).1 ⟨2, 2⟩ ⟨3, 3⟩
        (by with_unfolding_all rfl)).1.mpr
      ⟨⟨0, 0⟩, ⟨1, 1⟩, rfl, by with_unfolding_all rfl⟩⟩

/-! ## C4: command letters of the Unchanged output -/

theorem isAlpha_false_of_isDigit {c : Char} (h : c.isDigit = true) :
    c.isAlpha = false := by
  simp only [Char.isDigit, Char.isAlpha, Char.isUpper, Char.isLower,
    Bool.and_eq_true, decide_eq_true_eq, Char.le_def] at h ⊢
  obtain ⟨h1, h2⟩ := h
  have h1n : (48 : ℕ) ≤ c.val.toNat := h1
  have h2n : c.val.toNat ≤ 57 := h2
  rw [Bool.or_eq_false_iff]
  constructor
  · rw [Bool.and_eq_false_iff]
    left
    simp only [decide_eq_false_iff_not, Char.le_def]
    show ¬ (65 : ℕ) ≤ c.val.toNat
    omega
  · rw [Bool.and_eq_false_iff]
    left
    simp only [decide_eq_false_iff_not, Char.le_def]
    show ¬ (97 : ℕ) ≤ c.val.toNat
    omega

theorem formatScaled_isAlpha (n : ℤ) (p : ℕ) :
    ∀ c ∈ formatScaled n p, c.isAlpha = false := by
  intro c hc
  rw [formatScaled_eq] at hc
  simp only [List.append_assoc, List.mem_append] at hc
  rcases hc with hc | hc | hc
  · split at hc
    · rw [List.mem_singleton] at hc
      rw [hc]
      rfl
    · simp at hc
  · exact isAlpha_false_of_isDigit (natStr_all_digits c hc)
  · split at hc
    · simp at hc
    · rw [List.mem_cons] at hc
      rcases hc with rfl | hc
      · rfl
      · exact isAlpha_false_of_isDigit (fracPartStr_all_digits c hc)

theorem round_coord_isAlpha (q : ℚ) (p : ℕ) :
    ∀ c ∈ round_coord q p, c.isAlpha = false := by
  intro c hc
  rw [round_coord_eq] at hc
  split at hc
  · rcases List.mem_cons.mp hc with rfl | hc
    · rfl
    · rw [List.mem_singleton] at hc
      rw [hc]
      rfl
  · exact formatScaled_isAlpha _ _ c hc

theorem writeAbsPt_isAlpha (p : Pt) (style : SvgPathStyle) :
    ∀ c ∈ writeAbsPt p style .Svg, c.isAlpha = false := by
  intro c hc
  rw [writeAbsPt_svg] at hc
  rw [List.mem_append] at hc
  rcases hc with hc | hc
  · exact round_coord_isAlpha _ _ c hc
  · split at hc
    · exact round_coord_isAlpha _ _ c hc
    · rcases List.mem_cons.mp hc with rfl | hc
      · rfl
      · exact round_coord_isAlpha _ _ c hc

theorem collect_coords_foldl_isAlpha :
    ∀ (coords : List (List Char)) (acc : List Char),
      (∀ c ∈ acc, c.isAlpha = false) →
      (∀ l ∈ coords, ∀ c ∈ l, c.isAlpha = false) →
      ∀ c ∈ coords.foldl
        (fun path coord =>
          path ++
            (if path ≠ [] ∧ coord.head? ≠ some '-' then [' '] else []) ++
              coord) acc,
        c.isAlpha = false := by
  intro coords
  induction coords with
  | nil =>
    intro acc hacc _ c hc
    exact hacc c hc
  | cons l ls ih =>
    intro acc hacc hl c hc
    rw [List.foldl_cons] at hc
    refine ih _ ?_ ?_ c hc
    · intro e he
      simp only [List.append_assoc, List.mem_append] at he
      rcases he with he | he | he
      · exact hacc e he
      · split at he
        · rw [List.mem_singleton] at he
          rw [he]
          rfl
        · simp at he
      · exact hl l (List.mem_cons_self _ _) e he
    · intro l2 hl2 e he
      exact hl l2 (List.mem_cons_of_mem _ hl2) e he

theorem collect_coords_svg_isAlpha (coords : List (List Char))
    (h : ∀ l ∈ coords, ∀ c ∈ l, c.isAlpha = false) :
    ∀ c ∈ DrawingCommandType.Svg.collect_coords coords,
      c.isAlpha = false :=
  collect_coords_foldl_isAlpha coords [] (by intro c hc; simp at hc) h

theorem filter_isAlpha_nil {l : List Char}
    (h : ∀ c ∈ l, c.isAlpha = false) :
    l.filter (fun c => c.isAlpha) = [] := by
  induction l with
  | nil => rfl
  | cons x xs ih =>
    simp only [List.filter_cons, h x (List.mem_cons_self _ _),
      Bool.false_eq_true, if_false]
    exact ih fun c hc => h c (List.mem_cons_of_mem _ hc)

theorem commandFrag_none_filter (style : SvgPathStyle)
    (cmd : DrawingCommand) (ps : List Pt) {A : Char} (hA : cmd.abs = [A])
    (hAa : A.isAlpha = true) :
    (commandFrag style .Svg cmd ps none).filter (fun c => c.isAlpha) =
      [A] := by
  rw [commandFrag_pts_none, hA, List.filter_append]
  rw [filter_isAlpha_nil (collect_coords_svg_isAlpha _ ?_)]
  · simp [hAa]
  · intro l hl c hc
    rw [List.mem_map] at hl
    obtain ⟨q, _, rfl⟩ := hl
    exact writeAbsPt_isAlpha q style c hc

/-- The command letters the Unchanged writer is specified to emit: one
absolute command letter per path op, except that a close of a subpath
whose current point differs from its start first emits a line back to the
start. -/
def unchangedLetters : Pt → Pt → List PathEl → List Char
  | _, _, [] => []
  | start, curr, el :: els =>
    (match el with
     | .moveTo _ => ['M']
     | .lineTo _ => ['L']
     | .quadTo _ _ => ['Q']
     | .curveTo _ _ _ => ['C']
     | .closePath => if curr ≠ start then ['L', 'Z'] else ['Z']) ++
      unchangedLetters (elEndState start curr el).1
        (elEndState start curr el).2 els

theorem unchangedFrag_filter (style : SvgPathStyle) (start curr : Pt)
    (el : PathEl) :
    (unchangedFrag style .Svg start curr el).filter (fun c => c.isAlpha) =
      (match el with
       | .moveTo _ => ['M']
       | .lineTo _ => ['L']
       | .quadTo _ _ => ['Q']
       | .curveTo _ _ _ => ['C']
       | .closePath => if curr ≠ start then ['L', 'Z'] else ['Z']) := by
  cases el with
  | moveTo p =>
    exact @commandFrag_none_filter style DrawingCommandType.Svg.move_cmd
      [p] 'M' rfl rfl
  | lineTo p =>
    exact @commandFrag_none_filter style DrawingCommandType.Svg.line_cmd
      [p] 'L' rfl rfl
  | quadTo p1 p2 =>
    exact @commandFrag_none_filter style DrawingCommandType.Svg.quad_cmd
      [p1, p2] 'Q' rfl rfl
  | curveTo p1 p2 p3 =>
    exact @commandFrag_none_filter style DrawingCommandType.Svg.curve_cmd
      [p1, p2, p3] 'C' rfl rfl
  | closePath =>
    show ((if curr ≠ start
        then commandFrag style .Svg DrawingCommandType.Svg.line_cmd
          [start] none
        else []) ++ DrawingCommandType.Svg.close_cmd.abs).filter
        (fun c => c.isAlpha) = _
    rw [List.filter_append]
    split
    · rw [@commandFrag_none_filter style DrawingCommandType.Svg.line_cmd
        [start] 'L' rfl rfl]
      rfl
    · rfl

theorem unchangedTrace_filter (style : SvgPathStyle) :
    ∀ (els : List PathEl) (start curr : Pt),
      (unchangedTrace style .Svg start curr els).filter
          (fun c => c.isAlpha) =
        unchangedLetters start curr els := by
  intro els
  induction els with
  | nil =>
    intro start curr
    rfl
  | cons el els ih =>
    intro start curr
    rw [show unchangedTrace style .Svg start curr (el :: els) =
      unchangedFrag style .Svg start curr el ++
        unchangedTrace style .Svg (elEndState start curr el).1
          (elEndState start curr el).2 els from rfl]
    rw [List.filter_append, unchangedFrag_filter, ih]
    cases el <;> rfl

theorem unchangedLetters_mem :
    ∀ (els : List PathEl) (start curr : Pt) (c : Char),
      c ∈ unchangedLetters start curr els →
      c = 'M' ∨ c = 'L' ∨ c = 'Q' ∨ c = 'C' ∨ c = 'Z' := by
  intro els
  induction els with
  | nil =>
    intro start curr c hc
    simp [unchangedLetters] at hc
  | cons el els ih =>
    intro start curr c hc
    cases el with
    | moveTo p =>
      simp only [unchangedLetters, List.mem_append] at hc
      rcases hc with hc | hc
      · rw [List.mem_singleton] at hc
        exact Or.inl hc
      · exact ih _ _ c hc
    | lineTo p =>
      simp only [unchangedLetters, List.mem_append] at hc
      rcases hc with hc | hc
      · rw [List.mem_singleton] at hc
        exact Or.inr (Or.inl hc)
      · exact ih _ _ c hc
    | quadTo p1 p2 =>
      simp only [unchangedLetters, List.mem_append] at hc
      rcases hc with hc | hc
      · rw [List.mem_singleton] at hc
        exact Or.inr (Or.inr (Or.inl hc))
      · exact ih _ _ c hc
    | curveTo p1 p2 p3 =>
      simp only [unchangedLetters, List.mem_append] at hc
      rcases hc with hc | hc
      · rw [List.mem_singleton] at hc
        exact Or.inr (Or.inr (Or.inr (Or.inl hc)))
      · exact ih _ _ c hc
    | closePath =>
      simp only [unchangedLetters, List.mem_append] at hc
      rcases hc with hc | hc
      · split at hc
        · rcases List.mem_cons.mp hc with rfl | hc
          · exact Or.inr (Or.inl rfl)
          · rw [List.mem_singleton] at hc
            exact Or.inr (Or.inr (Or.inr (Or.inr hc)))
        · rw [List.mem_singleton] at hc
          exact Or.inr (Or.inr (Or.inr (Or.inr hc)))
      · exact ih _ _ c hc

/-- C4 (amended; the claim as stated is refuted elsewhere at
`[moveTo (0,0), lineTo (1,1), closePath]`): in Unchanged mode the command
letters of the SVG output are exactly one absolute command letter per
recorded op — `M`/`L`/`Q`/`C` for move/line/quad/curve — except that a
close whose current point differs from the subpath start emits a line back
to the start and then `Z`; in particular every emitted command is
absolute (uppercase `M`, `L`, `Q`, `C`, `Z`) and no relative,
horizontal/vertical, or smooth command letters ever appear, and no
segment is elided. -/
theorem C4_unchanged_absolute_commands (precision : ℕ)
    (path : List PathEl) :
    (to_unchanged_path path .Svg (.Unchanged precision)).filter
        (fun c => c.isAlpha) =
      unchangedLetters ⟨0, 0⟩ ⟨0, 0⟩ path ∧
    ∀ c ∈ unchangedLetters ⟨0, 0⟩ ⟨0, 0⟩ path,
      c = 'M' ∨ c = 'L' ∨ c = 'Q' ∨ c = 'C' ∨ c = 'Z' := by
  constructor
  · rw [to_unchanged_path_eq_trace]
    exact unchangedTrace_filter _ path ⟨0, 0⟩ ⟨0, 0⟩
  · intro c hc
    exact unchangedLetters_mem path ⟨0, 0⟩ ⟨0, 0⟩ c hc

/-- C4 counterexample: for `M (0,0), L (1,1), Z` the Unchanged output is
`M0,0L1,1L0,0Z` — the close emits a line back to the subpath start and
then `Z`, so the output has four command letters for three recorded ops,
refuting "exactly one absolute command per recorded path op". -/
theorem C4_counterexample :
    ¬ ((to_unchanged_path
          [.moveTo ⟨0, 0⟩, .lineTo ⟨1, 1⟩, .closePath] .Svg
          (.Unchanged 0)).filter (fun c => c.isAlpha)).length =
        ([.moveTo ⟨0, 0⟩, .lineTo ⟨1, 1⟩, .closePath] :
          List PathEl).length :=
  of_decide_eq_false (by with_unfolding_all rfl)

/-- Witness: the amended C4 theorem applied at a concrete path. -/
theorem C4_witness :
    ((to_unchanged_path [.moveTo ⟨0, 0⟩, .lineTo ⟨1, 1⟩, .closePath] .Svg
        (.Unchanged 0)).filter (fun c => c.isAlpha) =
      unchangedLetters ⟨0, 0⟩ ⟨0, 0⟩
        [.moveTo ⟨0, 0⟩, .lineTo ⟨1, 1⟩, .closePath]) ∧
    'Z' ∈ unchangedLetters ⟨0, 0⟩ ⟨0, 0⟩
        [.moveTo ⟨0, 0⟩, .lineTo ⟨1, 1⟩, .closePath] ∧
    ('Z' = 'M' ∨ 'Z' = 'L' ∨ 'Z' = 'Q' ∨ 'Z' = 'C' ∨ 'Z' = 'Z') :=
  ⟨(C4_unchanged_absolute_commands 0
      [.moveTo ⟨0, 0⟩, .lineTo ⟨1, 1⟩, .closePath]).1,
    of_decide_eq_true (by with_unfolding_all rfl),
    (C4_unchanged_absolute_commands 0
      [.moveTo ⟨0, 0⟩, .lineTo ⟨1, 1⟩, .closePath]).2 'Z'
      (of_decide_eq_true (by with_unfolding_all rfl))⟩

/-! ## `pens.rs`: the `GlyphPainter` color-painter state machine

Shallow embedding of `GlyphPainter` and its `ColorPainter` implementation.
External collaborators (the outline collection, glyph drawing, and the
tiny-skia gradient constructors) are supplied by an environment record,
so the embedding captures exactly the control flow of `pens.rs`. -/

/-- kurbo `Affine`: coefficients `[a, b, c, d, e, f]`. -/
structure Affine where
  c0 : ℚ
  c1 : ℚ
  c2 : ℚ
  c3 : ℚ
  c4 : ℚ
  c5 : ℚ
deriving DecidableEq, Repr

/-- kurbo `Affine` multiplication (composition). -/
def Affine.mul (A B : Affine) : Affine :=
  ⟨A.c0 * B.c0 + A.c2 * B.c1, A.c1 * B.c0 + A.c3 * B.c1,
    A.c0 * B.c2 + A.c2 * B.c3, A.c1 * B.c2 + A.c3 * B.c3,
    A.c0 * B.c4 + A.c2 * B.c5 + A.c4, A.c1 * B.c4 + A.c3 * B.c5 + A.c5⟩

/-- kurbo `Affine::IDENTITY` (`Affine::default`). -/
def Affine.identity : Affine := ⟨1, 0, 0, 1, 0, 0⟩

/-- kurbo `Affine::scale_non_uniform`. -/
def Affine.scale_non_uniform (sx sy : ℚ) : Affine := ⟨sx, 0, 0, sy, 0, 0⟩

/-- kurbo `Affine::then_scale_non_uniform`: `self` followed by scaling. -/
def Affine.then_scale_non_uniform (A : Affine) (sx sy : ℚ) : Affine :=
  (Affine.scale_non_uniform sx sy).mul A

/-- kurbo `Affine * Point`. -/
def Affine.applyPt (A : Affine) (p : Pt) : Pt :=
  ⟨A.c0 * p.x + A.c2 * p.y + A.c4, A.c1 * p.x + A.c3 * p.y + A.c5⟩

/-- kurbo `Affine * BezPath` on one element. -/
def Affine.applyEl (A : Affine) : PathEl → PathEl
  | .moveTo p => .moveTo (A.applyPt p)
  | .lineTo p => .lineTo (A.applyPt p)
  | .quadTo p1 p2 => .quadTo (A.applyPt p1) (A.applyPt p2)
  | .curveTo p1 p2 p3 =>
    .curveTo (A.applyPt p1) (A.applyPt p2) (A.applyPt p3)
  | .closePath => .closePath

/-- One `OutlinePen` callback issued while drawing a glyph outline. -/
inductive OutlineCmd where
  | move (x y : ℚ)
  | line (x y : ℚ)
  | quad (cx0 cy0 x y : ℚ)
  | curve (cx0 cy0 cx1 cy1 x y : ℚ)
  | close
deriving DecidableEq, Repr

/-- The path `SvgPathPen` accumulates: every point mapped through the
pen's transform. -/
def penPath (t : Affine) (cmds : List OutlineCmd) : List PathEl :=
  cmds.map fun
    | .move x y => .moveTo (t.applyPt ⟨x, y⟩)
    | .line x y => .lineTo (t.applyPt ⟨x, y⟩)
    | .quad cx0 cy0 x y => .quadTo (t.applyPt ⟨cx0, cy0⟩) (t.applyPt ⟨x, y⟩)
    | .curve cx0 cy0 cx1 cy1 x y =>
      .curveTo (t.applyPt ⟨cx0, cy0⟩) (t.applyPt ⟨cx1, cy1⟩)
        (t.applyPt ⟨x, y⟩)
    | .close => .closePath

/-- tiny-skia `Color` (rgba, each channel in `[0, 1]`). -/
structure Color where
  red : ℚ
  green : ℚ
  blue : ℚ
  alpha : ℚ
deriving DecidableEq, Repr

/-- `Color::from_rgba8`. -/
def Color.from_rgba8 (r g b a : ℕ) : Color :=
  ⟨(r : ℚ) / 255, (g : ℚ) / 255, (b : ℚ) / 255, (a : ℚ) / 255⟩

/-- `($alpha * max).clamp(0.0, max) as u8` in `color_or_exit`. -/
def alphaByte (alpha : ℚ) : ℕ :=
  (max 0 (min (alpha * 255) 255)).floor.toNat

/-- cpal `ColorRecord`. -/
structure ColorRecord where
  red : ℕ
  green : ℕ
  blue : ℕ
deriving DecidableEq, Repr

/-- skrifa `Extend` (non-exhaustive in Rust, hence the extra variant). -/
inductive Extend where
  | Pad
  | Repeat
  | Reflect
  | Other
deriving DecidableEq, Repr

/-- tiny-skia `SpreadMode`. -/
inductive SpreadMode where
  | Pad
  | Repeat
  | Reflect
deriving DecidableEq, Repr

/-- `spread_mode` from `pens.rs`. -/
def spread_mode : Extend → SpreadMode
  | .Pad => .Pad
  | .Repeat => .Repeat
  | .Reflect => .Reflect
  | .Other => .Pad

/-- tiny-skia `GradientStop`. -/
structure GradientStop where
  offset : ℚ
  color : Color
deriving DecidableEq, Repr

/-- tiny-skia `Transform` built from the affine coefficients. -/
structure SkiaTransform where
  sx : ℚ
  ky : ℚ
  kx : ℚ
  sy : ℚ
  tx : ℚ
  ty : ℚ
deriving DecidableEq, Repr

/-- The `SkiaTransform { sx: t[0], ky: t[1], ... }` construction in
`fill`. -/
def skiaTransformOf (t : Affine) : SkiaTransform :=
  ⟨t.c0, t.c1, t.c2, t.c3, t.c4, t.c5⟩

/-- tiny-skia `Shader` (gradient shaders kept abstract by handle). -/
inductive Shader where
  | SolidColor (c : Color)
  | Gradient (id : ℕ)
deriving DecidableEq, Repr

/-- tiny-skia `Paint` (only the shader field is set by `pens.rs`). -/
structure Paint where
  shader : Shader
deriving DecidableEq, Repr

/-- A raw COLR `ColorStop`. -/
structure ColorStopRaw where
  offset : ℚ
  palette_index : ℕ
  alpha : ℚ
deriving DecidableEq, Repr

/-- skrifa `Brush`. -/
inductive Brush where
  | Solid (palette_index : ℕ) (alpha : ℚ)
  | LinearGradient (p0 p1 : Pt) (color_stops : List ColorStopRaw)
      (extend : Extend)
  | RadialGradient (c0 : Pt) (r0 : ℚ) (c1 : Pt) (r1 : ℚ)
      (color_stops : List ColorStopRaw) (extend : Extend)
  | SweepGradient
deriving DecidableEq, Repr

/-- skrifa `Size`: unscaled or a pixels-per-em value. -/
inductive SizeM where
  | unscaled
  | size (ppem : ℚ)
deriving DecidableEq, Repr

/-- `GlyphPainterError` from `pens.rs` (`DrawError` kept abstract by
handle). -/
inductive GlyphPainterError where
  | GlyphNotFound (gid : ℕ)
  | UnsupportedFontFeature (feature : String)
  | MalformedGradient
  | DrawError (e : ℕ)
deriving DecidableEq, Repr

/-- `ColorFill` from `pens.rs`. -/
structure ColorFill where
  paint : Paint
  clip_paths : List (List PathEl)
  offset_x : ℚ
  offset_y : ℚ
deriving DecidableEq, Repr

/-- `ColorFillsBuilder` from `pens.rs`. -/
structure ColorFillsBuilder where
  paths : List (List PathEl)
  transforms : List Affine
  fills : List ColorFill
deriving DecidableEq, Repr

/-- `ColorFillsBuilder::current_transform`. -/
def ColorFillsBuilder.current_transform (b : ColorFillsBuilder) : Affine :=
  b.transforms.getLast?.getD Affine.identity

/-- `GlyphPainter` from `pens.rs`. -/
structure GlyphPainter where
  x : ℚ
  y : ℚ
  size : SizeM
  scale : ℚ
  foreground : Color
  is_colr : Bool
  colors : List ColorRecord
  builder : Except GlyphPainterError ColorFillsBuilder
deriving Repr

/-- `GlyphPainter::into_fills`. -/
def into_fills (p : GlyphPainter) :
    Except GlyphPainterError (List ColorFill) :=
  p.builder.map ColorFillsBuilder.fills

/-- `GlyphPainter::set_err`: keep only the first error. -/
def set_err (p : GlyphPainter) (err : GlyphPainterError) : GlyphPainter :=
  match p.builder with
  | .ok _ => { p with builder := .error err }
  | .error _ => p

/-- `color_or_exit!` from `fill`. -/
def color_or_exit (p : GlyphPainter) (palette_idx : ℕ) (alpha : ℚ) :
    Except GlyphPainterError Color :=
  if palette_idx = 0xFFFF then .ok { p.foreground with alpha := alpha }
  else
    match p.colors.get? palette_idx with
    | none =>
      .error (.UnsupportedFontFeature "color palette index out of bounds")
    | some cr =>
      .ok (Color.from_rgba8 cr.red cr.green cr.blue (alphaByte alpha))

/-- The gradient-stop resolution loop in `fill` (the first failing stop
aborts the whole `fill`). -/
def resolveStops (p : GlyphPainter) :
    List ColorStopRaw → Except GlyphPainterError (List GradientStop)
  | [] => .ok []
  | s :: rest =>
    match color_or_exit p s.palette_index s.alpha with
    | .error e => .error e
    | .ok c => (resolveStops p rest).map (fun l => ⟨s.offset, c⟩ :: l)

/-- Environment: the external collaborators of `GlyphPainter`. -/
structure PenEnv where
  outlines_get : ℕ → Option ℕ
  glyph_draw : ℕ → SizeM → Except ℕ (List OutlineCmd)
  linear_gradient_new : Pt → Pt → List GradientStop → SpreadMode →
    SkiaTransform → Option Shader
  radial_gradient_new : Pt → Pt → ℚ → List GradientStop → SpreadMode →
    SkiaTransform → Option Shader

/-- The paint resolved by `fill` for a brush, or the first error. -/
def fillPaint (env : PenEnv) (p : GlyphPainter) (transform : Affine) :
    Brush → Except GlyphPainterError Paint
  | .Solid palette_index alpha =>
    (color_or_exit p palette_index alpha).map
      (fun c => ⟨Shader.SolidColor c⟩)
  | .LinearGradient p0 p1 color_stops extend =>
    match resolveStops p color_stops with
    | .error e => .error e
    | .ok sk_color_stops =>
      match env.linear_gradient_new p0 p1 sk_color_stops
          (spread_mode extend) (skiaTransformOf transform) with
      | none => .error .MalformedGradient
      | some sh => .ok ⟨sh⟩
  | .RadialGradient c0 _ c1 r1 color_stops extend =>
    match resolveStops p color_stops with
    | .error e => .error e
    | .ok sk_color_stops =>
      match env.radial_gradient_new c0 c1 r1 sk_color_stops
          (spread_mode extend) (skiaTransformOf transform) with
      | none => .error .MalformedGradient
      | some sh => .ok ⟨sh⟩
  | .SweepGradient => .error (.UnsupportedFontFeature "colr sweep gradients")

/-- One `ColorPainter` callback. -/
inductive PaintOp where
  | push_transform (t : SkiaTransform)
  | pop_transform
  | push_clip_glyph (gid : ℕ)
  | push_clip_box (x_min y_min x_max y_max : ℚ)
  | pop_clip
  | fill (b : Brush)
  | push_layer (mode : ℕ)
deriving DecidableEq, Repr

/-- The `Affine::new([xx, yx, xy, yy, dx, dy])` conversion in
`push_transform` (skrifa's `Transform` has the same six fields). -/
def affineOfTransform (t : SkiaTransform) : Affine :=
  ⟨t.sx, t.ky, t.kx, t.sy, t.tx, t.ty⟩

/-- One step of the `ColorPainter` implementation in `pens.rs`. -/
def applyOp (env : PenEnv) (p : GlyphPainter) : PaintOp → GlyphPainter
  | .push_transform t =>
    match p.builder with
    | .error _ => p
    | .ok b =>
      let t2 := affineOfTransform t
      let new_transform :=
        match b.transforms.getLast? with
        | some prev_transform => t2.mul prev_transform
        | none => t2
      { p with builder :=
          Except.ok { b with transforms := b.transforms ++ [new_transform] } }
  | .pop_transform =>
    match p.builder with
    | .error _ => p
    | .ok b =>
      { p with builder :=
          Except.ok { b with transforms := b.transforms.dropLast } }
  | .push_clip_glyph gid =>
    match p.builder with
    | .error _ => p
    | .ok b =>
      match env.outlines_get gid with
      | none => set_err p (.GlyphNotFound gid)
      | some glyph =>
        let size_scale : SizeM × ℚ :=
          if p.is_colr then (.unscaled, p.scale) else (p.size, 1)
        let pen_transform := b.current_transform.then_scale_non_uniform
          size_scale.2 (-size_scale.2)
        match env.glyph_draw glyph size_scale.1 with
        | .ok cmds =>
          { p with builder :=
              Except.ok { b with paths :=
                b.paths ++ [penPath pen_transform cmds] } }
        | .error e => set_err p (.DrawError e)
  | .push_clip_box x_min y_min x_max y_max =>
    match p.builder with
    | .error _ => p
    | .ok b =>
      let path : List PathEl :=
        [.moveTo ⟨x_min, y_min⟩, .lineTo ⟨x_max, y_min⟩,
          .lineTo ⟨x_max, y_max⟩, .lineTo ⟨x_min, y_max⟩, .closePath]
      let transform := b.current_transform.then_scale_non_uniform
        p.scale (-p.scale)
      { p with builder :=
          Except.ok { b with paths :=
            b.paths ++ [path.map transform.applyEl] } }
  | .pop_clip =>
    match p.builder with
    | .error _ => p
    | .ok b =>
      { p with builder :=
          Except.ok { b with paths := b.paths.dropLast } }
  | .fill brush =>
    match p.builder with
    | .error _ => p
    | .ok b =>
      let transform := b.current_transform.then_scale_non_uniform
        p.scale (-p.scale)
      match fillPaint env p transform brush with
      | .error e => set_err p e
      | .ok paint =>
        { p with builder :=
            Except.ok { b with fills := b.fills ++
              [⟨paint, b.paths, p.x, p.y⟩] } }
  | .push_layer _ => set_err p (.UnsupportedFontFeature "colr layers")

/-- A whole sequence of `ColorPainter` callbacks. -/
def runOps (env : PenEnv) (p : GlyphPainter) (ops : List PaintOp) :
    GlyphPainter :=
  ops.foldl (applyOp env) p

theorem applyOp_error (env : PenEnv) (p : GlyphPainter) (op : PaintOp)
    {e : GlyphPainterError} (h : p.builder = .error e) :
    applyOp env p op = p := by
  cases op <;> simp [applyOp, set_err, h]

theorem runOps_error (env : PenEnv) :
    ∀ (ops : List PaintOp) (p : GlyphPainter) {e : GlyphPainterError},
      p.builder = .error e → runOps env p ops = p := by
  intro ops
  induction ops with
  | nil =>
    intro p e _
    rfl
  | cons op ops ih =>
    intro p e h
    show runOps env (applyOp env p op) ops = p
    rw [applyOp_error env p op h]
    exact ih p h

/-- C1: the sticky single-error rule.  (1) Once the painter holds an
error, every further paint operation leaves the whole painter — paths,
transform stack, fills — unchanged, and `into_fills` returns that error.
(2) If applying one more operation after some prefix leaves the builder
holding error `e`, then running any continuation still returns `e` from
`into_fills` — the first error wins, regardless of what follows.
(3) If no operation failed (the final builder is intact), `into_fills`
returns the complete list of captured fills. -/
theorem C1_sticky_first_error (env : PenEnv) :
    (∀ (p : GlyphPainter) (e : GlyphPainterError) (ops : List PaintOp),
        p.builder = .error e →
        runOps env p ops = p ∧
          into_fills (runOps env p ops) = .error e) ∧
    (∀ (p : GlyphPainter) (pre : List PaintOp) (op : PaintOp)
        (post : List PaintOp) (e : GlyphPainterError),
        (applyOp env (runOps env p pre) op).builder = .error e →
        into_fills (runOps env p (pre ++ op :: post)) = .error e) ∧
    (∀ (p : GlyphPainter) (ops : List PaintOp) (b : ColorFillsBuilder),
        (runOps env p ops).builder = .ok b →
        into_fills (runOps env p ops) = .ok b.fills) := by
  refine ⟨?_, ?_, ?_⟩
  · intro p e ops h
    have hfix := runOps_error env ops p h
    refine ⟨hfix, ?_⟩
    rw [hfix]
    unfold into_fills
    rw [h]
    rfl
  · intro p pre op post e h
    have : runOps env p (pre ++ op :: post) =
        runOps env (applyOp env (runOps env p pre) op) post := by
      unfold runOps
      rw [List.foldl_append, List.foldl_cons]
    rw [this, runOps_error env post _ h]
    unfold into_fills
    rw [h]
    rfl
  · intro p ops b h
    unfold into_fills
    rw [h]
    rfl

/-- An environment in which every external collaborator fails. -/
def trivialPenEnv : PenEnv :=
  ⟨fun _ => none, fun _ _ => .error 0, fun _ _ _ _ _ => none,
    fun _ _ _ _ _ _ => none⟩

/-- A freshly constructed painter (empty intact builder). -/
def painter0 : GlyphPainter :=
  ⟨0, 0, .unscaled, 1, ⟨0, 0, 0, 1⟩, false, [], .ok ⟨[], [], []⟩⟩

/-- A painter already holding an error. -/
def painterErr : GlyphPainter :=
  { painter0 with builder := Except.error .MalformedGradient }

/-- Witness: the sticky-error theorem applied at concrete inputs:
a painter holding an error absorbs a `pop_transform`; a `push_layer`
failure on the fresh painter survives a trailing `pop_clip`; an intact
run returns its fills. -/
theorem C1_witness :
    (painterErr.builder = .error .MalformedGradient ∧
      runOps trivialPenEnv painterErr [.pop_transform] = painterErr ∧
      into_fills (runOps trivialPenEnv painterErr [.pop_transform]) =
        .error .MalformedGradient) ∧
    ((applyOp trivialPenEnv (runOps trivialPenEnv painter0 [])
          (.push_layer 0)).builder =
        .error (.UnsupportedFontFeature "colr layers") ∧
      into_fills (runOps trivialPenEnv painter0
          ([] ++ .push_layer 0 :: [.pop_clip])) =
        .error (.UnsupportedFontFeature "colr layers")) ∧
    ((runOps trivialPenEnv painter0
          [.push_transform ⟨1, 0, 0, 1, 0, 0⟩]).builder =
        .ok ⟨[], [⟨1, 0, 0, 1, 0, 0⟩], []⟩ ∧
      into_fills (runOps trivialPenEnv painter0
          [.push_transform ⟨1, 0, 0, 1, 0, 0⟩]) = .ok []) :=
  ⟨⟨rfl,
    (C1_sticky_first_error trivialPenEnv).1 painterErr .MalformedGradient
      [.pop_transform] rfl⟩,
    ⟨rfl,
      (C1_sticky_first_error trivialPenEnv).2.1 painter0 [] (.push_layer 0)
        [.pop_clip] (.UnsupportedFontFeature "colr layers") rfl⟩,
    ⟨rfl,
      (C1_sticky_first_error trivialPenEnv).2.2 painter0
        [.push_transform ⟨1, 0, 0, 1, 0, 0⟩] ⟨[], [⟨1, 0, 0, 1, 0, 0⟩], []⟩
        rfl⟩⟩

/-- C9: stack discipline of the painter.  Popping the transform (resp.
clip) stack when it is empty is a total no-op that leaves the painter
unchanged; on a non-empty stack it removes exactly the most recently
pushed entry; pushing a transform composes the new matrix with the
current top of the stack, or becomes the top when the stack is empty
(in both cases the previous entries are kept). -/
theorem C9_stack_discipline (env : PenEnv) (p : GlyphPainter)
    (b : ColorFillsBuilder) (hb : p.builder = .ok b) :
    (b.transforms = [] → applyOp env p .pop_transform = p) ∧
    (b.paths = [] → applyOp env p .pop_clip = p) ∧
    (∀ ts t, b.transforms = ts ++ [t] →
      applyOp env p .pop_transform =
        { p with builder := Except.ok { b with transforms := ts } }) ∧
    (∀ ps q, b.paths = ps ++ [q] →
      applyOp env p .pop_clip =
        { p with builder := Except.ok { b with paths := ps } }) ∧
    (∀ t, b.transforms = [] →
      applyOp env p (.push_transform t) =
        { p with builder :=
            Except.ok { b with transforms := [affineOfTransform t] } }) ∧
    (∀ t ts top, b.transforms = ts ++ [top] →
      applyOp env p (.push_transform t) =
        { p with builder := Except.ok { b with transforms :=
            (ts ++ [top]) ++ [(affineOfTransform t).mul top] } }) := by
  obtain ⟨px, py, psz, psc, pfg, pic, pco, pb⟩ := p
  obtain ⟨bpaths, btrans, bfills⟩ := b
  simp only at hb
  subst hb
  refine ⟨?_, ?_, ?_, ?_, ?_, ?_⟩
  · intro h
    simp only at h
    subst h
    rfl
  · intro h
    simp only at h
    subst h
    rfl
  · intro ts t h
    simp only at h
    subst h
    simp [applyOp, List.dropLast_concat]
  · intro ps q h
    simp only at h
    subst h
    simp [applyOp, List.dropLast_concat]
  · intro t h
    simp only at h
    subst h
    rfl
  · intro t ts top h
    simp only at h
    subst h
    simp [applyOp, List.getLast?_concat]

/-- A painter with one transform and one clip path on its stacks. -/
def painter1 : GlyphPainter :=
  { painter0 with
    builder := Except.ok ⟨[[PathEl.closePath]], [⟨2, 0, 0, 2, 0, 0⟩], []⟩ }

/-- Witness: the stack-discipline theorem applied at concrete painters:
pops on the empty stacks are no-ops, pops remove the single pushed entry,
and a push onto a one-entry stack composes with that top. -/
theorem C9_witness :
    (painter0.builder = .ok ⟨[], [], []⟩ ∧
      applyOp trivialPenEnv painter0 .pop_transform = painter0 ∧
      applyOp trivialPenEnv painter0 .pop_clip = painter0) ∧
    (painter1.builder =
        .ok ⟨[[PathEl.closePath]], [⟨2, 0, 0, 2, 0, 0⟩], []⟩ ∧
      applyOp trivialPenEnv painter1 .pop_transform =
        { painter1 with
          builder := Except.ok ⟨[[PathEl.closePath]], [], []⟩ } ∧
      applyOp trivialPenEnv painter1
          (.push_transform ⟨1, 0, 0, 1, 5, 7⟩) =
        { painter1 with
          builder := Except.ok ⟨[[PathEl.closePath]],
            [⟨2, 0, 0, 2, 0, 0⟩,
              (affineOfTransform ⟨1, 0, 0, 1, 5, 7⟩).mul
                ⟨2, 0, 0, 2, 0, 0⟩], []⟩ }) :=
  ⟨⟨rfl,
    (C9_stack_discipline trivialPenEnv painter0 ⟨[], [], []⟩ rfl).1 rfl,
    (C9_stack_discipline trivialPenEnv painter0 ⟨[], [], []⟩ rfl).2.1 rfl⟩,
    ⟨rfl,
      (C9_stack_discipline trivialPenEnv painter1
          ⟨[[PathEl.closePath]], [⟨2, 0, 0, 2, 0, 0⟩], []⟩ rfl).2.2.1
        [] ⟨2, 0, 0, 2, 0, 0⟩ rfl,
      (C9_stack_discipline trivialPenEnv painter1
          ⟨[[PathEl.closePath]], [⟨2, 0, 0, 2, 0, 0⟩], []⟩ rfl).2.2.2.2.2
        ⟨1, 0, 0, 1, 5, 7⟩ [] ⟨2, 0, 0, 2, 0, 0⟩ rfl⟩⟩

/-! ## `iconid.rs` and `ligatures.rs`: icon resolution

Shallow embedding of `resolve_ligature`, `IconIdentifier::resolve`,
`matches` and `apply_location_based_substitution`.  Read errors from
parsed font tables are kept abstract as numeric handles; fallible table
accesses are `Except`-valued fields of the font model. -/

/-- `IconResolutionError` from `error.rs`. -/
inductive IconResolutionError where
  | ReadError (e : ℕ)
  | UnmappedCharError (c : Char)
  | NoGlyphIds (name : String)
  | NoLigature (name : String)
  | NoCmapEntry (cp : ℕ)
  | NoCmapEntryForGid (gid : ℕ)
  | InvalidCharacter (cp : ℕ)
  | Invalid (s : String)
  | BigGid (gid : ℕ)
deriving DecidableEq, Repr

/-- One `(liga_first, Ligature)` pair yielded by `Ligatures::ligatures`.
`component_count` is the count stored in the font; the trailing component
glyphs (2..n) are listed separately. -/
structure LigatureEntry where
  liga_first : ℕ
  component_count : ℕ
  component_glyph_ids : List ℕ
  ligature_glyph : ℕ
deriving DecidableEq, Repr

/-- GSUB `ConditionFormat1`. -/
structure Condition where
  axis_index : ℕ
  filter_range_min_value : ℚ
  filter_range_max_value : ℚ
deriving DecidableEq, Repr

/-- A `SingleSubst` subtable (coverage lookup abstracted as a function). -/
inductive SingleSubstM where
  | Format1 (coverage : Except ℕ (ℕ → Option ℕ)) (delta_glyph_id : ℤ)
  | Format2 (coverage : Except ℕ (ℕ → Option ℕ))
      (substitute_glyph_ids : List ℕ)

/-- The alternate feature referenced by a feature-table substitution. -/
structure AlternateFeature where
  lookup_list_indices : List ℕ

/-- One record of a `FeatureTableSubstitution`. -/
structure SubstitutionRecordM where
  alternate_feature : Except ℕ AlternateFeature

/-- `SubstitutionSubtables`: single substitutions or any other kind. -/
inductive SubstSubtablesM where
  | Single (tables : List (Except ℕ SingleSubstM))
  | OtherKind

/-- One GSUB lookup. -/
structure LookupM where
  subtables : Except ℕ SubstSubtablesM

/-- One `FeatureVariationRecord`. -/
structure FeatureVariationRecordM where
  condition_set : Option (Except ℕ (List (Except ℕ Condition)))
  feature_table_substitution :
    Option (Except ℕ (List SubstitutionRecordM))

/-- The GSUB table. -/
structure GsubM where
  feature_variations : Option (Except ℕ (List FeatureVariationRecordM))
  lookup_list : Except ℕ (List LookupM)

/-- The font model: the collaborators used by icon resolution. -/
structure FontM where
  charmap : Char → Option ℕ
  ligatures : List LigatureEntry
  cmap : Except ℕ (ℕ → Option ℕ)
  has_gsub : Bool
  gsub : Except ℕ GsubM

/-- The `name.chars().map(...).collect::<Result<Vec<_>, _>>()` step of
`resolve_ligature`. -/
def mapChars (charmap : Char → Option ℕ) :
    List Char → Except IconResolutionError (List ℕ)
  | [] => .ok []
  | c :: cs =>
    match charmap c with
    | none => .error (.UnmappedCharError c)
    | some g => (mapChars charmap cs).map (fun l => g :: l)

/-- The ligature scan of `resolve_ligature`: first glyph, stored component
count, and component-by-component equality (via `zip`, as in the
source). -/
def scanLigatures (first : ℕ) (rest : List ℕ) :
    List LigatureEntry → Option ℕ
  | [] => none
  | l :: ls =>
    if l.liga_first = first ∧ l.component_count = rest.length + 1 ∧
        (rest.zip l.component_glyph_ids).all (fun gc => gc.1 = gc.2)
    then some l.ligature_glyph
    else scanLigatures first rest ls

/-- `Ligatures::resolve_ligature` from `ligatures.rs`. -/
def resolve_ligature (font : FontM) (name : String) :
    Except IconResolutionError (Option ℕ) :=
  match mapChars font.charmap name.data with
  | .error e => .error e
  | .ok gids =>
    match gids with
    | [] => .error (.NoGlyphIds name)
    | first :: rest =>
      match scanLigatures first rest font.ligatures with
      | some gid => .ok (some gid)
      | none => .ok none

/-- The conjunctive condition loop of `matches` in `iconid.rs`. -/
def matchLoop (coords : List ℚ) :
    List (Except ℕ Condition) → Except ℕ Bool
  | [] => .ok true
  | .error e :: _ => .error e
  | .ok c :: rest =>
    if (coords.get? c.axis_index).getD 0 < c.filter_range_min_value ∨
        (coords.get? c.axis_index).getD 0 > c.filter_range_max_value
    then .ok false
    else matchLoop coords rest

/-- `matches` from `iconid.rs`: an absent condition set matches every
location. -/
def matchesM
    (condition_set : Option (Except ℕ (List (Except ℕ Condition))))
    (coords : List ℚ) : Except ℕ Bool :=
  match condition_set with
  | none => .ok true
  | some (.error e) => .error e
  | some (.ok conds) => matchLoop coords conds

/-- The inner singles loop of `apply_location_based_substitution`:
`some new_gid` when a live single substitution covers `gid`. -/
def singlesLoop (gid : ℕ) :
    List (Except ℕ SingleSubstM) → Except ℕ (Option ℕ)
  | [] => .ok none
  | .error e :: _ => .error e
  | .ok single :: rest =>
    match
      (match single with
       | .Format1 cov _ => cov
       | .Format2 cov _ => cov) with
    | .error e => .error e
    | .ok coverage =>
      match coverage gid with
      | none => singlesLoop gid rest
      | some coverage_idx =>
        .ok (some
          (match single with
           | .Format1 _ delta => (((gid : ℤ) + delta) % 65536).toNat
           | .Format2 _ subs => (subs.get? coverage_idx).getD gid))

/-- The lookup-index loop: fetch each lookup, skip non-`Single`
subtables, stop at the first live single substitution. -/
def lookupIdxLoop (lookups : List LookupM) (gid : ℕ) :
    List ℕ → Except ℕ (Option ℕ)
  | [] => .ok none
  | idx :: rest =>
    match lookups.get? idx with
    | none => .error 0
    | some lookup =>
      match lookup.subtables with
      | .error e => .error e
      | .ok .OtherKind => lookupIdxLoop lookups gid rest
      | .ok (.Single tables) =>
        match singlesLoop gid tables with
        | .error e => .error e
        | .ok (some g) => .ok (some g)
        | .ok none => lookupIdxLoop lookups gid rest

/-- The substitution-record loop of a matched feature variation
record. -/
def subLoop (lookups : List LookupM) (gid : ℕ) :
    List SubstitutionRecordM → Except ℕ (Option ℕ)
  | [] => .ok none
  | sub :: rest =>
    match sub.alternate_feature with
    | .error e => .error e
    | .ok alt =>
      match lookupIdxLoop lookups gid alt.lookup_list_indices with
      | .error e => .error e
      | .ok (some g) => .ok (some g)
      | .ok none => subLoop lookups gid rest

/-- The feature-variation-record loop of
`apply_location_based_substitution`: skip non-matching records; the first
matching record decides (`break` afterwards, falling through to
`Ok(gid)`). -/
def recordLoop (lookups : List LookupM) (coords : List ℚ) (gid : ℕ) :
    List FeatureVariationRecordM → Except ℕ ℕ
  | [] => .ok gid
  | r :: rest =>
    match matchesM r.condition_set coords with
    | .error e => .error e
    | .ok false => recordLoop lookups coords gid rest
    | .ok true =>
      match r.feature_table_substitution with
      | none => .ok gid
      | some (.error e) => .error e
      | some (.ok fts) =>
        match subLoop lookups gid fts with
        | .error e => .error e
        | .ok (some g) => .ok g
        | .ok none => .ok gid

/-- `apply_location_based_substitution` from `iconid.rs`. -/
def apply_location_based_substitution (font : FontM) (coords : List ℚ)
    (gid : ℕ) : Except ℕ ℕ :=
  if font.has_gsub = false then .ok gid
  else
    match font.gsub with
    | .error e => .error e
    | .ok gsub =>
      match gsub.feature_variations with
      | none => .ok gid
      | some (.error e) => .error e
      | some (.ok fv_records) =>
        match gsub.lookup_list with
        | .error e => .error e
        | .ok lookups => recordLoop lookups coords gid fv_records

/-- `IconIdentifier` from `iconid.rs`. -/
inductive IconIdentifierM where
  | GlyphId (gid : ℕ)
  | Codepoint (cp : ℕ)
  | Name (name : String)

/-- `IconIdentifier::resolve`. -/
def resolveIcon (font : FontM) (coords : List ℚ)
    (ident : IconIdentifierM) : Except IconResolutionError ℕ :=
  let gidRes : Except IconResolutionError ℕ :=
    match ident with
    | .GlyphId gid => .ok gid
    | .Codepoint cp =>
      match font.cmap with
      | .error e => .error (.ReadError e)
      | .ok map_codepoint =>
        match map_codepoint cp with
        | none => .error (.NoCmapEntry cp)
        | some gid => .ok gid
    | .Name name =>
      match resolve_ligature font name with
      | .error e => .error e
      | .ok (some gid) => .ok gid
      | .ok none => .error (.NoLigature name)
  match gidRes with
  | .error e => .error e
  | .ok gid =>
    match apply_location_based_substitution font coords gid with
    | .error e => .error (.ReadError e)
    | .ok g => .ok g

/-- C10: resolving a `Name` identifier whose string is empty always fails
with the `NoGlyphIds` ("resolved to 0 glyph ids") error, for every font
and location: the empty name maps to zero glyph ids, `gids.first()` is
`None`, and `resolve_ligature` returns `NoGlyphIds` before any ligature
scan or substitution runs — never a glyph id and never `NoLigature`. -/
theorem C10_empty_name_no_glyph_ids (font : FontM) (coords : List ℚ) :
    resolveIcon font coords (.Name "") = .error (.NoGlyphIds "") := rfl

/-- C7: feature-variation records are examined in order and only the
first matching record is consulted.  (i) A record whose condition set
evaluates to `false` is skipped.  (ii) Once a record matches, the result
is the same as if the later records did not exist — they are never
examined, regardless of the outcome on the matching record.  (iii) A
matching record with no feature-table substitution returns the glyph id
unchanged.  (iv) A matching record whose substitutions contain no live
single substitution covering the glyph also returns it unchanged.
(v) An absent condition set matches every location.  (vi) A well-formed
condition set matches exactly when every per-axis `[min, max]` range
contains the location's coordinate for that axis (missing coordinates
default to 0).  (vii) `apply_location_based_substitution` is this record
loop when GSUB and its feature variations are present and readable. -/
theorem C7_first_matching_record (lookups : List LookupM)
    (coords : List ℚ) (gid : ℕ) (r : FeatureVariationRecordM)
    (rest : List FeatureVariationRecordM) :
    (matchesM r.condition_set coords = .ok false →
      recordLoop lookups coords gid (r :: rest) =
        recordLoop lookups coords gid rest) ∧
    (matchesM r.condition_set coords = .ok true →
      recordLoop lookups coords gid (r :: rest) =
        recordLoop lookups coords gid [r]) ∧
    (matchesM r.condition_set coords = .ok true →
      r.feature_table_substitution = none →
      recordLoop lookups coords gid (r :: rest) = .ok gid) ∧
    (∀ fts, matchesM r.condition_set coords = .ok true →
      r.feature_table_substitution = some (.ok fts) →
      subLoop lookups gid fts = .ok none →
      recordLoop lookups coords gid (r :: rest) = .ok gid) ∧
    (matchesM none coords = .ok true) ∧
    (∀ conds : List Condition,
      matchesM (some (.ok (conds.map Except.ok))) coords =
        .ok (decide (∀ c ∈ conds,
          c.filter_range_min_value ≤ (coords.get? c.axis_index).getD 0 ∧
          (coords.get? c.axis_index).getD 0 ≤
            c.filter_range_max_value))) ∧
    (∀ (font : FontM) (gsub : GsubM)
        (fv_records : List FeatureVariationRecordM),
      font.has_gsub = true → font.gsub = .ok gsub →
      gsub.feature_variations = some (.ok fv_records) →
      gsub.lookup_list = .ok lookups →
      apply_location_based_substitution font coords gid =
        recordLoop lookups coords gid fv_records) := by
  refine ⟨?_, ?_, ?_, ?_, rfl, ?_, ?_⟩
  · intro h
    simp only [recordLoop, h]
  · intro h
    simp only [recordLoop, h]
  · intro h hfts
    simp only [recordLoop, h, hfts]
  · intro fts h hfts hsub
    simp only [recordLoop, h, hfts, hsub]
  · intro conds
    show matchLoop coords (conds.map Except.ok) = _
    induction conds with
    | nil => rfl
    | cons c cs ih =>
      rw [List.map_cons]
      by_cases hc : (coords.get? c.axis_index).getD 0 <
          c.filter_range_min_value ∨
          (coords.get? c.axis_index).getD 0 > c.filter_range_max_value
      · rw [show matchLoop coords (.ok c :: cs.map Except.ok) =
            if (coords.get? c.axis_index).getD 0 <
                c.filter_range_min_value ∨
                (coords.get? c.axis_index).getD 0 >
                  c.filter_range_max_value
            then Except.ok false
            else matchLoop coords (cs.map Except.ok) from rfl,
          if_pos hc]
        have hnall : ¬ (∀ x ∈ c :: cs,
            x.filter_range_min_value ≤
              (coords.get? x.axis_index).getD 0 ∧
            (coords.get? x.axis_index).getD 0 ≤
              x.filter_range_max_value) := by
          intro hall
          obtain ⟨h1, h2⟩ := hall c (List.mem_cons_self _ _)
          rcases hc with hc | hc
          · exact absurd h1 (not_le.mpr hc)
          · exact absurd h2 (not_le.mpr hc)
        rw [decide_eq_false hnall]
      · rw [show matchLoop coords (.ok c :: cs.map Except.ok) =
            if (coords.get? c.axis_index).getD 0 <
                c.filter_range_min_value ∨
                (coords.get? c.axis_index).getD 0 >
                  c.filter_range_max_value
            then Except.ok false
            else matchLoop coords (cs.map Except.ok) from rfl,
          if_neg hc, ih]
        have hPc : c.filter_range_min_value ≤
            (coords.get? c.axis_index).getD 0 ∧
            (coords.get? c.axis_index).getD 0 ≤
              c.filter_range_max_value :=
          ⟨not_lt.mp (fun h => hc (Or.inl h)),
            not_lt.mp (fun h => hc (Or.inr h))⟩
        have heq : (∀ x ∈ c :: cs,
            x.filter_range_min_value ≤
              (coords.get? x.axis_index).getD 0 ∧
            (coords.get? x.axis_index).getD 0 ≤
              x.filter_range_max_value) =
            (∀ x ∈ cs,
              x.filter_range_min_value ≤
                (coords.get? x.axis_index).getD 0 ∧
              (coords.get? x.axis_index).getD 0 ≤
                x.filter_range_max_value) := by
          apply propext
          constructor
          · intro h x hx
            exact h x (List.mem_cons_of_mem _ hx)
          · intro h x hx
            rcases List.mem_cons.mp hx with rfl | hx
            · exact hPc
            · exact h x hx
        rw [decide_eq_decide.mpr (Eq.to_iff heq)]
  · intro font gsub fv_records hhas hgsub hfv hll
    unfold apply_location_based_substitution
    rw [hhas, if_neg (show ¬(true = false) by decide), hgsub]
    dsimp only
    rw [hfv]
    dsimp only
    rw [hll]

/-- Witness: the first-matching-record theorem applied at concrete data:
a record with no condition set matches; a second record is never
consulted; a matching record with an empty substitution list leaves the
glyph unchanged. -/
theorem C7_witness :
    (matchesM (FeatureVariationRecordM.mk none none).condition_set [] =
        .ok true ∧
      recordLoop [] [] 7
          [⟨none, none⟩, ⟨none, some (.error 3)⟩] =
        recordLoop [] [] 7 [⟨none, none⟩]) ∧
    (matchesM (FeatureVariationRecordM.mk none
          (some (.ok []))).condition_set [] = .ok true ∧
      (FeatureVariationRecordM.mk none
          (some (.ok []))).feature_table_substitution = some (.ok []) ∧
      subLoop [] 7 [] = .ok none ∧
      recordLoop [] [] 7
          [⟨none, some (.ok [])⟩, ⟨none, some (.error 3)⟩] = .ok 7) :=
  ⟨⟨rfl,
    (C7_first_matching_record [] [] 7 ⟨none, none⟩
        [⟨none, some (.error 3)⟩]).2.1 rfl⟩,
    rfl, rfl, rfl,
    (C7_first_matching_record [] [] 7 ⟨none, some (.ok [])⟩
        [⟨none, some (.error 3)⟩]).2.2.2.1 [] rfl rfl rfl⟩

/-! ## `icon2svg.rs`: SVG assembly, clip/paint/filter caches

Shallow embedding of `XmlElement`, the three dedup caches, `add_items`
and `to_svg`.  The `DrawItem`/`Paint` item tree consumed by `add_items`
is imported by `icon2svg.rs` from a newer `pens.rs` that is not in the
repository's `src/`; those two types are modelled from the spec.  The
textual serialization of colors, gradients and offsets (`HexColor`,
`TruncatedFloat`, `f64` display) is abstracted behind an environment. -/

/-- `XmlElement` from `xml_element.rs`. -/
inductive XmlElement where
  | mk (tag : String) (attributes : List (String × String))
      (children : List XmlElement)

mutual

/-- Structural equality test for elements. -/
def XmlElement.beq : XmlElement → XmlElement → Bool
  | .mk t1 a1 c1, .mk t2 a2 c2 =>
    decide (t1 = t2) && decide (a1 = a2) && XmlElement.beqList c1 c2

/-- Structural equality test for child lists. -/
def XmlElement.beqList : List XmlElement → List XmlElement → Bool
  | [], [] => true
  | x :: xs, y :: ys => XmlElement.beq x y && XmlElement.beqList xs ys
  | _, _ => false

end

theorem XmlElement.beq_sound (n : ℕ) :
    (∀ a b : XmlElement, sizeOf a ≤ n →
      (XmlElement.beq a b = true ↔ a = b)) ∧
    (∀ xs ys : List XmlElement, sizeOf xs ≤ n →
      (XmlElement.beqList xs ys = true ↔ xs = ys)) := by
  induction n with
  | zero =>
    constructor
    · intro a b ha
      cases a
      simp at ha
    · intro xs ys hxs
      cases xs with
      | nil => simp at hxs
      | cons x t => simp at hxs
  | succ n ih =>
    constructor
    · intro a b ha
      cases a with
      | mk t1 a1 c1 =>
        cases b with
        | mk t2 a2 c2 =>
          have hc1 : sizeOf c1 ≤ n := by
            simp only [XmlElement.mk.sizeOf_spec] at ha
            omega
          rw [show XmlElement.beq (.mk t1 a1 c1) (.mk t2 a2 c2) =
            (decide (t1 = t2) && decide (a1 = a2) &&
              XmlElement.beqList c1 c2) from rfl]
          rw [Bool.and_eq_true, Bool.and_eq_true, decide_eq_true_eq,
            decide_eq_true_eq, ih.2 c1 c2 hc1, XmlElement.mk.injEq]
          tauto
    · intro xs ys hxs
      cases xs with
      | nil =>
        cases ys with
        | nil => simp [XmlElement.beqList]
        | cons y t => simp [XmlElement.beqList]
      | cons x t =>
        cases ys with
        | nil => simp [XmlElement.beqList]
        | cons y s =>
          have hx : sizeOf x ≤ n := by
            simp only [List.cons.sizeOf_spec] at hxs
            omega
          have ht : sizeOf t ≤ n := by
            simp only [List.cons.sizeOf_spec] at hxs
            omega
          rw [show XmlElement.beqList (x :: t) (y :: s) =
            (XmlElement.beq x y && XmlElement.beqList t s) from rfl]
          rw [Bool.and_eq_true, ih.1 x y hx, ih.2 t s ht, List.cons.injEq]

instance : DecidableEq XmlElement := fun a b =>
  decidable_of_iff (XmlElement.beq a b = true)
    ((XmlElement.beq_sound (sizeOf a)).1 a b (Nat.le_refl _))

/-- The tag of an element. -/
def XmlElement.tag : XmlElement → String
  | .mk t _ _ => t

/-- The attributes of an element. -/
def XmlElement.attributes : XmlElement → List (String × String)
  | .mk _ a _ => a

/-- The children of an element. -/
def XmlElement.children : XmlElement → List XmlElement
  | .mk _ _ c => c

/-- `XmlElement::add_attribute` (push at the end). -/
def XmlElement.add_attribute : XmlElement → String → String → XmlElement
  | .mk t a c, n, v => .mk t (a ++ [(n, v)]) c

/-- `CompositeMode` from skrifa (the 28 COLR composite modes). -/
inductive CompositeMode where
  | Clear
  | Src
  | Dest
  | SrcOver
  | DestOver
  | SrcIn
  | DestIn
  | SrcOut
  | DestOut
  | SrcAtop
  | DestAtop
  | Xor
  | Plus
  | Screen
  | Overlay
  | Darken
  | Lighten
  | ColorDodge
  | ColorBurn
  | HardLight
  | SoftLight
  | Difference
  | Exclusion
  | Multiply
  | HslHue
  | HslSaturation
  | HslColor
  | HslLuminosity
deriving DecidableEq, Repr, Fintype

/-- `composite_mode_to_mix_blend_mode` from `icon2svg.rs` (`SrcOver` is
deliberately `None`: it is the default; the `_` arm catches the
non-blend modes). -/
def composite_mode_to_mix_blend_mode : CompositeMode → Option String
  | .SrcOver => none
  | .Screen => some "screen"
  | .Overlay => some "overlay"
  | .Darken => some "darken"
  | .Lighten => some "lighten"
  | .ColorDodge => some "color-dodge"
  | .ColorBurn => some "color-burn"
  | .HardLight => some "hard-light"
  | .SoftLight => some "soft-light"
  | .Difference => some "difference"
  | .Exclusion => some "exclusion"
  | .Multiply => some "multiply"
  | .HslHue => some "hue"
  | .HslSaturation => some "saturation"
  | .HslColor => some "color"
  | .HslLuminosity => some "luminosity"
  | _ => none

/-- `FilterDef` from `icon2svg.rs`. -/
structure FilterDef where
  operator : String
  swap : Bool
deriving DecidableEq, Repr

/-- `composite_mode_to_filter_operator` from `icon2svg.rs`. -/
def composite_mode_to_filter_operator : CompositeMode → Option FilterDef
  | .Clear => some ⟨"clear", false⟩
  | .DestOver => some ⟨"over", true⟩
  | .SrcIn => some ⟨"in", false⟩
  | .DestIn => some ⟨"in", true⟩
  | .SrcOut => some ⟨"out", false⟩
  | .DestOut => some ⟨"out", true⟩
  | .SrcAtop => some ⟨"atop", false⟩
  | .DestAtop => some ⟨"atop", true⟩
  | .Xor => some ⟨"xor", false⟩
  | .Plus => some ⟨"arithmetic", false⟩
  | _ => none

/-- Decimal string of a natural number, as a Lean `String`. -/
def natString (n : ℕ) : String := ⟨natStr n⟩

/-- Modelled from the spec: the `Paint` enum `icon2svg.rs` imports from
`pens.rs` (a solid color, a linear or radial gradient, or an unsupported
sweep gradient); the repository's `pens.rs` does not define it.  Gradient
payloads are kept abstract by handle. -/
inductive PaintItem where
  | Solid (c : Color)
  | LinearGradient (data : ℕ)
  | RadialGradient (data : ℕ)
  | SweepGradient
deriving DecidableEq, Repr

/-- Modelled from the spec: one `Fill` of the `DrawItem` tree: a paint,
the stack of clip paths (the last one is the path that is drawn), and a
translation offset. -/
structure FillItem where
  paint : PaintItem
  clip_paths : List (List PathEl)
  offset_x : ℚ
  offset_y : ℚ
deriving DecidableEq, Repr

/-- Modelled from the spec: the `DrawItem` tree `icon2svg.rs` renders:
fills, and layers carrying a composite mode. -/
inductive DrawItem where
  | Fill (fill : FillItem)
  | Layer (composite_mode : CompositeMode) (items : List DrawItem)

/-- The serialization environment: how colors, gradient definitions and
`f64` offsets are rendered to text (Rust `Display` of `HexColor`,
`TruncatedFloat`-built gradient elements, and `f64`). -/
structure SvgEnv where
  solid_fill_value : Color → String
  linear_gradient_element : ℕ → XmlElement
  radial_gradient_element : ℕ → XmlElement
  float_str : ℚ → String

/-- The `DrawSvgError` cases `to_svg` can produce. -/
inductive DrawSvgErrorM where
  | SweepGradientNotSupported
deriving DecidableEq, Repr

/-- `ClipsCache`: insertion-ordered key-to-id pairs; the `HashMap` of the
source assigns each new key the id `len` at insertion time, so sorting
its entries by id recovers exactly the insertion order kept here. -/
abbrev ClipsCache := List ((Option ℕ × String) × ℕ)

/-- Key lookup in a cache. -/
def lookupKey (cache : ClipsCache) (k : Option ℕ × String) : Option ℕ :=
  (cache.find? (fun e => e.1 = k)).map (fun e => e.2)

/-- `ClipsCache::get_id`: `next_id = len`, `entry(key).or_insert`. -/
def ClipsCache.get_id (cache : ClipsCache) (parent_id : Option ℕ)
    (path_d : String) : ℕ × ClipsCache :=
  let next_id := cache.length
  match lookupKey cache (parent_id, path_d) with
  | some id => (id, cache)
  | none => (next_id, cache ++ [((parent_id, path_d), next_id)])

/-- One `<clipPath>` element of `ClipsCache::into_svg`. -/
def clipElement (entry : (Option ℕ × String) × ℕ) : XmlElement :=
  let base := XmlElement.mk "clipPath"
    [("id", "c" ++ natString entry.2)]
    [.mk "path" [("d", entry.1.2)] []]
  match entry.1.1 with
  | none => base
  | some pid => base.add_attribute "clip-path" ("url(#c" ++ natString pid ++ ")")

/-- `ClipsCache::into_svg` (entries already in id order). -/
def clipsIntoSvg (cache : ClipsCache) : List XmlElement :=
  cache.map clipElement

/-- `PaintCache`: gradient element to id, insertion-ordered. -/
abbrev PaintCache := List (XmlElement × ℕ)

/-- `FilterCache`: filter definition to id, insertion-ordered. -/
abbrev FilterCache := List (FilterDef × ℕ)

/-- `FilterCache::get_id`. -/
def FilterCache.get_id (cache : FilterCache) (fd : FilterDef) :
    ℕ × FilterCache :=
  let next_id := cache.length
  match (cache.find? (fun e => e.1 = fd)).map (fun e => e.2) with
  | some id => (id, cache)
  | none => (next_id, cache ++ [(fd, next_id)])

/-- One `<filter>` element of `FilterCache::into_svg`. -/
def filterElement (fd : FilterDef) (id : ℕ) : XmlElement :=
  let src_dst : String × String :=
    if fd.swap then ("BackgroundImage", "SourceGraphic")
    else ("SourceGraphic", "BackgroundImage")
  let fe :=
    if fd.operator = "arithmetic" then
      XmlElement.mk "feComposite"
        [("in", src_dst.1), ("in2", src_dst.2), ("operator", "arithmetic"),
          ("k1", "0"), ("k2", "1"), ("k3", "1"), ("k4", "0")] []
    else if fd.operator = "clear" then
      XmlElement.mk "feFlood"
        [("flood-color", "black"), ("flood-opacity", "0")] []
    else
      XmlElement.mk "feComposite"
        [("in", src_dst.1), ("in2", src_dst.2), ("operator", fd.operator)] []
  XmlElement.mk "filter"
    [("id", "fm" ++ natString id), ("x", "0%"), ("y", "0%"),
      ("width", "100%"), ("height", "100%")] [fe]

/-- `FilterCache::into_svg`. -/
def filtersIntoSvg (cache : FilterCache) : List XmlElement :=
  cache.map (fun e => filterElement e.1 e.2)

/-- `PaintCache::into_svg`. -/
def paintsIntoSvg (cache : PaintCache) : List XmlElement :=
  cache.map (fun e => e.1.add_attribute "id" ("p" ++ natString e.2))

/-- `PaintCache::add_fill`: set the path's `fill` attribute, deduplicating
gradient definitions by the built element. -/
def add_fill (env : SvgEnv) (cache : PaintCache) (path : XmlElement)
    (paint : PaintItem) : Except DrawSvgErrorM (XmlElement × PaintCache) :=
  match paint with
  | .Solid c =>
    .ok (path.add_attribute "fill" (env.solid_fill_value c), cache)
  | .LinearGradient data =>
    let grad := env.linear_gradient_element data
    let next_id := cache.length
    match (cache.find? (fun e => e.1 = grad)).map (fun e => e.2) with
    | some id =>
      .ok (path.add_attribute "fill" ("url(#p" ++ natString id ++ ")"), cache)
    | none =>
      .ok (path.add_attribute "fill" ("url(#p" ++ natString next_id ++ ")"),
        cache ++ [(grad, next_id)])
  | .RadialGradient data =>
    let grad := env.radial_gradient_element data
    let next_id := cache.length
    match (cache.find? (fun e => e.1 = grad)).map (fun e => e.2) with
    | some id =>
      .ok (path.add_attribute "fill" ("url(#p" ++ natString id ++ ")"), cache)
    | none =>
      .ok (path.add_attribute "fill" ("url(#p" ++ natString next_id ++ ")"),
        cache ++ [(grad, next_id)])
  | .SweepGradient => .error .SweepGradientNotSupported

/-- The clip-chain loop in `add_items`: register every serialized clip
under the key `(parent-id-or-none, path string)`, threading the id. -/
def clipChain (cache : ClipsCache) (parent : Option ℕ) :
    List String → Option ℕ × ClipsCache
  | [] => (parent, cache)
  | d :: rest =>
    let r := ClipsCache.get_id cache parent d
    clipChain r.2 (some r.1) rest

/-- The mutable state threaded through `add_items`. -/
structure SvgState where
  group : List XmlElement
  clips : ClipsCache
  fills : PaintCache
  filters : FilterCache

/-- `add_items` from `icon2svg.rs`. -/
def add_items (env : SvgEnv) (style : SvgPathStyle) :
    List DrawItem → SvgState → Except DrawSvgErrorM SvgState
  | [], st => .ok st
  | .Fill fill :: rest, st =>
    match fill.clip_paths.getLast? with
    | none => add_items env style rest st
    | some p =>
      let path0 := XmlElement.mk "path"
        [("d", write_svg_path style p)] []
      match add_fill env st.fills path0 fill.paint with
      | .error e => .error e
      | .ok (path1, fills2) =>
        let cr : Option ℕ × ClipsCache :=
          if fill.clip_paths.length > 1 then
            clipChain st.clips none
              ((fill.clip_paths.take (fill.clip_paths.length - 1)).map
                (write_svg_path style))
          else (none, st.clips)
        let path2 :=
          match cr.1 with
          | some id =>
            path1.add_attribute "clip-path" ("url(#c" ++ natString id ++ ")")
          | none => path1
        let path3 :=
          if fill.offset_x ≠ 0 ∨ fill.offset_y ≠ 0 then
            path2.add_attribute "transform"
              ("translate(" ++ env.float_str fill.offset_x ++ " " ++
                env.float_str fill.offset_y ++ ")")
          else path2
        add_items env style rest
          ⟨st.group ++ [path3], cr.2, fills2, st.filters⟩
  | .Layer mode litems :: rest, st =>
    if mode = .Dest then add_items env style rest st
    else
      match add_items env style litems
          ⟨[], st.clips, st.fills, st.filters⟩ with
      | .error e => .error e
      | .ok stL =>
        let g0 := XmlElement.mk "g" [] stL.group
        let gf : XmlElement × FilterCache :=
          match composite_mode_to_mix_blend_mode mode with
          | some blend_mode =>
            (g0.add_attribute "style"
              ("mix-blend-mode: " ++ blend_mode ++ "; isolation: isolate"),
              stL.filters)
          | none =>
            match composite_mode_to_filter_operator mode with
            | some fd =>
              let r := FilterCache.get_id stL.filters fd
              (g0.add_attribute "filter"
                ("url(#fm" ++ natString r.1 ++ ")"), r.2)
            | none => (g0, stL.filters)
        add_items env style rest
          ⟨st.group ++ [gf.1], stL.clips, stL.fills, gf.2⟩
termination_by items _ => sizeOf items
decreasing_by
  all_goals (simp; try omega)

/-- `to_svg` from `icon2svg.rs`. -/
def to_svg (env : SvgEnv) (items : List DrawItem) (style : SvgPathStyle) :
    Except DrawSvgErrorM XmlElement :=
  match add_items env style items ⟨[], [], [], []⟩ with
  | .error e => .error e
  | .ok st =>
    let group :=
      if st.fills ≠ ([] : PaintCache) ∨ st.clips ≠ ([] : ClipsCache) ∨
          st.filters ≠ ([] : FilterCache) then
        st.group ++ [XmlElement.mk "defs" []
          (clipsIntoSvg st.clips ++ paintsIntoSvg st.fills ++
            filtersIntoSvg st.filters)]
      else st.group
    .ok
      (match group with
       | [x] => x
       | _ => XmlElement.mk "g" [] group)

/-! ## C5/C6 support: cache lookup lemmas -/

/-- The keys of a clips cache are pairwise distinct. -/
def keysNodup (c : ClipsCache) : Prop := (c.map Prod.fst).Nodup

/-- `c2` preserves every association of `c`. -/
def cacheExtends (c2 c : ClipsCache) : Prop :=
  ∀ k v, lookupKey c k = some v → lookupKey c2 k = some v

theorem cacheExtends_refl (c : ClipsCache) : cacheExtends c c :=
  fun _ _ h => h

theorem cacheExtends_trans {c3 c2 c1 : ClipsCache}
    (h32 : cacheExtends c3 c2) (h21 : cacheExtends c2 c1) :
    cacheExtends c3 c1 :=
  fun k v h => h32 k v (h21 k v h)

theorem lookupKey_cons_pos {x : (Option ℕ × String) × ℕ}
    {xs : ClipsCache} {k : Option ℕ × String} (h : x.1 = k) :
    lookupKey (x :: xs) k = some x.2 := by
  unfold lookupKey
  rw [List.find?_cons_of_pos _ (by simp [h])]
  rfl

theorem lookupKey_cons_neg {x : (Option ℕ × String) × ℕ}
    {xs : ClipsCache} {k : Option ℕ × String} (h : ¬ x.1 = k) :
    lookupKey (x :: xs) k = lookupKey xs k := by
  unfold lookupKey
  rw [List.find?_cons_of_neg _ (by simp [h])]

theorem lookupKey_append_some {k : Option ℕ × String} {v : ℕ} :
    ∀ {c : ClipsCache} (e : ClipsCache),
      lookupKey c k = some v → lookupKey (c ++ e) k = some v := by
  intro c
  induction c with
  | nil =>
    intro e h
    simp [lookupKey] at h
  | cons x xs ih =>
    intro e h
    by_cases hx : x.1 = k
    · rw [lookupKey_cons_pos hx] at h
      rw [List.cons_append, lookupKey_cons_pos hx, h]
    · rw [lookupKey_cons_neg hx] at h
      rw [List.cons_append, lookupKey_cons_neg hx]
      exact ih e h

theorem lookupKey_not_mem {k : Option ℕ × String} :
    ∀ {c : ClipsCache}, lookupKey c k = none → k ∉ c.map Prod.fst := by
  intro c
  induction c with
  | nil =>
    intro _ h
    simp at h
  | cons x xs ih =>
    intro h hmem
    by_cases hx : x.1 = k
    · rw [lookupKey_cons_pos hx] at h
      exact absurd h (by simp)
    · rw [lookupKey_cons_neg hx] at h
      rw [List.map_cons, List.mem_cons] at hmem
      rcases hmem with hmem | hmem
      · exact hx hmem.symm
      · exact ih h hmem

theorem lookupKey_append_self {c : ClipsCache} {k : Option ℕ × String}
    {v : ℕ} (h : lookupKey c k = none) :
    lookupKey (c ++ [(k, v)]) k = some v := by
  induction c with
  | nil =>
    rw [List.nil_append, lookupKey_cons_pos rfl]
  | cons x xs ih =>
    by_cases hx : x.1 = k
    · rw [lookupKey_cons_pos hx] at h
      exact absurd h (by simp)
    · rw [lookupKey_cons_neg hx] at h
      rw [List.cons_append, lookupKey_cons_neg hx]
      exact ih h

theorem get_id_some {c : ClipsCache} {p : Option ℕ} {d : String} {id : ℕ}
    (h : lookupKey c (p, d) = some id) :
    ClipsCache.get_id c p d = (id, c) := by
  rw [show ClipsCache.get_id c p d =
    (match lookupKey c (p, d) with
     | some id => (id, c)
     | none => (c.length, c ++ [((p, d), c.length)])) from rfl, h]

theorem get_id_none {c : ClipsCache} {p : Option ℕ} {d : String}
    (h : lookupKey c (p, d) = none) :
    ClipsCache.get_id c p d =
      (c.length, c ++ [((p, d), c.length)]) := by
  rw [show ClipsCache.get_id c p d =
    (match lookupKey c (p, d) with
     | some id => (id, c)
     | none => (c.length, c ++ [((p, d), c.length)])) from rfl, h]

theorem get_id_lookup_self (c : ClipsCache) (p : Option ℕ) (d : String) :
    lookupKey (ClipsCache.get_id c p d).2 (p, d) =
      some (ClipsCache.get_id c p d).1 := by
  rcases h : lookupKey c (p, d) with _ | id
  · rw [get_id_none h]
    exact lookupKey_append_self h
  · rw [get_id_some h]
    exact h

theorem get_id_extends (c : ClipsCache) (p : Option ℕ) (d : String) :
    cacheExtends (ClipsCache.get_id c p d).2 c := by
  intro k v hv
  rcases h : lookupKey c (p, d) with _ | id
  · rw [get_id_none h]
    exact lookupKey_append_some _ hv
  · rw [get_id_some h]
    exact hv

theorem get_id_nodup (c : ClipsCache) (p : Option ℕ) (d : String)
    (h : keysNodup c) : keysNodup (ClipsCache.get_id c p d).2 := by
  rcases hl : lookupKey c (p, d) with _ | id
  · rw [get_id_none hl]
    unfold keysNodup at h ⊢
    rw [List.map_append, List.nodup_append]
    refine ⟨h, List.nodup_singleton _, ?_⟩
    intro a ha hb
    rw [List.map_singleton, List.mem_singleton] at hb
    rw [hb] at ha
    exact lookupKey_not_mem hl ha
  · rw [get_id_some hl]
    exact h

theorem clipChain_extends :
    ∀ (chain : List String) (c : ClipsCache) (parent : Option ℕ),
      cacheExtends (clipChain c parent chain).2 c := by
  intro chain
  induction chain with
  | nil =>
    intro c parent
    exact cacheExtends_refl c
  | cons d rest ih =>
    intro c parent
    exact cacheExtends_trans
      (ih (ClipsCache.get_id c parent d).2 (some (ClipsCache.get_id c parent d).1))
      (get_id_extends c parent d)

theorem clipChain_nodup :
    ∀ (chain : List String) (c : ClipsCache) (parent : Option ℕ),
      keysNodup c → keysNodup (clipChain c parent chain).2 := by
  intro chain
  induction chain with
  | nil =>
    intro c parent h
    exact h
  | cons d rest ih =>
    intro c parent h
    exact ih _ _ (get_id_nodup c parent d h)

theorem clipChain_stable :
    ∀ (chain : List String) (c : ClipsCache) (parent : Option ℕ)
      (c2 : ClipsCache),
      cacheExtends c2 (clipChain c parent chain).2 →
      clipChain c2 parent chain =
        ((clipChain c parent chain).1, c2) := by
  intro chain
  induction chain with
  | nil =>
    intro c parent c2 _
    rfl
  | cons d rest ih =>
    intro c parent c2 hext
    have hself := get_id_lookup_self c parent d
    have hchain := clipChain_extends rest
      (ClipsCache.get_id c parent d).2 (some (ClipsCache.get_id c parent d).1)
    have hc2 : lookupKey c2 (parent, d) =
        some (ClipsCache.get_id c parent d).1 :=
      hext _ _ (hchain _ _ hself)
    rw [show clipChain c2 parent (d :: rest) =
      clipChain (ClipsCache.get_id c2 parent d).2
        (some (ClipsCache.get_id c2 parent d).1) rest from rfl,
      get_id_some hc2]
    rw [show clipChain c parent (d :: rest) =
      clipChain (ClipsCache.get_id c parent d).2
        (some (ClipsCache.get_id c parent d).1) rest from rfl]
    exact ih _ _ c2 hext

theorem ite_clips (P : Prop) [Decidable P] (c : ClipsCache)
    (chain : List String) :
    cacheExtends
        (if P then clipChain c none chain
         else ((none : Option ℕ), c)).2 c ∧
      (keysNodup c →
        keysNodup (if P then clipChain c none chain
          else ((none : Option ℕ), c)).2) := by
  split
  · exact ⟨clipChain_extends _ _ _, clipChain_nodup _ _ _⟩
  · exact ⟨cacheExtends_refl _, fun h => h⟩

theorem add_items_clips_aux (env : SvgEnv) (style : SvgPathStyle) :
    ∀ (n : ℕ) (items : List DrawItem) (st st2 : SvgState),
      sizeOf items ≤ n → add_items env style items st = .ok st2 →
      cacheExtends st2.clips st.clips ∧
        (keysNodup st.clips → keysNodup st2.clips) := by
  intro n
  induction n with
  | zero =>
    intro items st st2 hsz hok
    cases items with
    | nil =>
      rw [add_items] at hok
      injection hok with hok
      rw [← hok]
      exact ⟨cacheExtends_refl _, fun h => h⟩
    | cons item rest =>
      exfalso
      simp at hsz
  | succ n ih =>
    intro items st st2 hsz hok
    cases items with
    | nil =>
      rw [add_items] at hok
      injection hok with hok
      rw [← hok]
      exact ⟨cacheExtends_refl _, fun h => h⟩
    | cons item rest =>
      have hrest : sizeOf rest ≤ n := by
        simp at hsz
        omega
      cases item with
      | Fill fill =>
        rw [add_items] at hok
        dsimp only at hok
        split at hok
        · exact ih rest st st2 hrest hok
        · split at hok
          · exact absurd hok (by simp)
          · rename_i path1fills2 heq
            obtain ⟨hext, hnd⟩ := ih rest _ st2 hrest hok
            obtain ⟨he2, hn2⟩ := ite_clips (fill.clip_paths.length > 1)
              st.clips
              ((fill.clip_paths.take (fill.clip_paths.length - 1)).map
                (write_svg_path style))
            exact ⟨cacheExtends_trans hext he2, fun h => hnd (hn2 h)⟩
      | Layer mode litems =>
        have hlit : sizeOf litems ≤ n := by
          simp at hsz
          omega
        rw [add_items] at hok
        split at hok
        · exact ih rest st st2 hrest hok
        · dsimp only at hok
          split at hok
          · exact absurd hok (by simp)
          · rename_i stL heqL
            obtain ⟨hextL, hndL⟩ := ih litems _ stL hlit heqL
            obtain ⟨hext, hnd⟩ := ih rest _ st2 hrest hok
            exact ⟨cacheExtends_trans hext hextL,
              fun h => hnd (hndL h)⟩

/-- C5: clip-path deduplication.  (i) `get_id` registers clips under the
key `(parent-clip-id-or-none, serialized path string)`: a key already
present yields its existing id and leaves the cache unchanged; a fresh
key is appended with id equal to the cache size.  (ii) Re-running an
identical serialized clip chain against any later state of the cache
yields the same final clip id and adds nothing — two fills with identical
chains reference the same id.  (iii) Across the whole document,
`add_items` only extends the cache (established ids never change) and
keeps its keys pairwise distinct.  (iv) `into_svg` emits exactly one
`<clipPath>` element per cache entry, i.e. one per distinct key. -/
theorem C5_clip_cache_dedup (env : SvgEnv) (style : SvgPathStyle) :
    (∀ (cache : ClipsCache) (parent : Option ℕ) (d : String),
      (∀ id, lookupKey cache (parent, d) = some id →
        ClipsCache.get_id cache parent d = (id, cache)) ∧
      (lookupKey cache (parent, d) = none →
        ClipsCache.get_id cache parent d =
          (cache.length, cache ++ [((parent, d), cache.length)]))) ∧
    (∀ (chain : List String) (cache : ClipsCache) (parent : Option ℕ)
        (c2 : ClipsCache),
      cacheExtends c2 (clipChain cache parent chain).2 →
      clipChain c2 parent chain =
        ((clipChain cache parent chain).1, c2)) ∧
    (∀ (items : List DrawItem) (st st2 : SvgState),
      add_items env style items st = .ok st2 →
      cacheExtends st2.clips st.clips ∧
        (keysNodup st.clips → keysNodup st2.clips)) ∧
    (∀ cache : ClipsCache,
      (clipsIntoSvg cache).length = cache.length ∧
      ∀ el ∈ clipsIntoSvg cache, el.tag = "clipPath") := by
  refine ⟨?_, ?_, ?_, ?_⟩
  · intro cache parent d
    exact ⟨fun id h => get_id_some h, fun h => get_id_none h⟩
  · intro chain cache parent c2 hext
    exact clipChain_stable chain cache parent c2 hext
  · intro items st st2 hok
    exact add_items_clips_aux env style (sizeOf items) items st st2
      (Nat.le_refl _) hok
  · intro cache
    constructor
    · simp [clipsIntoSvg]
    · intro el hel
      rw [clipsIntoSvg, List.mem_map] at hel
      obtain ⟨e, _, rfl⟩ := hel
      rcases e with ⟨⟨p, dstr⟩, id⟩
      cases p <;> rfl

/-- A trivial serialization environment. -/
def env0 : SvgEnv :=
  ⟨fun _ => "", fun _ => .mk "linearGradient" [] [],
    fun _ => .mk "radialGradient" [] [], fun _ => ""⟩

/-- A fill with a two-deep clip chain and a drawn path. -/
def c5Fill : FillItem :=
  ⟨.Solid ⟨0, 0, 0, 1⟩,
    [[PathEl.closePath], [PathEl.moveTo ⟨0, 0⟩, PathEl.closePath],
      [PathEl.lineTo ⟨1, 1⟩]], 0, 0⟩

/-- Two fills sharing the same clip chain. -/
def c5Items : List DrawItem := [.Fill c5Fill, .Fill c5Fill]

/-- The empty rendering state. -/
def c5State : SvgState := ⟨[], [], [], []⟩

/-- The path element both fills produce. -/
def c5Path : XmlElement :=
  .mk "path" [("d", "L1,1"), ("fill", ""), ("clip-path", "url(#c1)")] []

/-- The state after rendering both fills: one shared chain of two clip
entries, both paths referencing the same final clip id. -/
def c5Result : SvgState :=
  ⟨[c5Path, c5Path], [((none, "Z"), 0), ((some 0, "M0,0Z"), 1)], [], []⟩

/-- Witness: the dedup theorem applied at concrete inputs: an existing
key returns its id unchanged; an identical chain re-run adds nothing;
two fills with the same chain produce a nodup-keyed two-entry cache;
one `clipPath` element per entry. -/
theorem C5_witness :
    (lookupKey [((none, "Z"), 0)] (none, "Z") = some 0 ∧
      ClipsCache.get_id [((none, "Z"), 0)] none "Z" =
        (0, [((none, "Z"), 0)])) ∧
    (clipChain (clipChain [] none ["Z", "M0,0Z"]).2 none
        ["Z", "M0,0Z"] =
      ((clipChain [] none ["Z", "M0,0Z"]).1,
        (clipChain [] none ["Z", "M0,0Z"]).2)) ∧
    (add_items env0 (.Unchanged 0) c5Items c5State = .ok c5Result ∧
      cacheExtends c5Result.clips c5State.clips ∧
      (keysNodup c5State.clips → keysNodup c5Result.clips)) ∧
    ((clipsIntoSvg c5Result.clips).length = c5Result.clips.length ∧
      ∀ el ∈ clipsIntoSvg c5Result.clips, el.tag = "clipPath") :=
  ⟨⟨by with_unfolding_all rfl,
    ((C5_clip_cache_dedup env0 (.Unchanged 0)).1 [((none, "Z"), 0)]
        none "Z").1 0 (by with_unfolding_all rfl)⟩,
    (C5_clip_cache_dedup env0 (.Unchanged 0)).2.1 ["Z", "M0,0Z"] []
      none (clipChain [] none ["Z", "M0,0Z"]).2 (cacheExtends_refl _),
    ⟨by with_unfolding_all rfl,
      (C5_clip_cache_dedup env0 (.Unchanged 0)).2.2.1 c5Items c5State
        c5Result (by with_unfolding_all rfl)⟩,
    (C5_clip_cache_dedup env0 (.Unchanged 0)).2.2.2 c5Result.clips⟩

/-- C6 counterexample: `SrcOver` refutes the three-way partition as
stated: it is not `Dest` (not skipped), it maps to no `mix-blend-mode`
(deliberately, as the default), and it maps to no filter — the renderer
handles it a fourth way, as a plain group. -/
theorem C6_counterexample :
    ¬ (CompositeMode.SrcOver = CompositeMode.Dest ∨
      (composite_mode_to_mix_blend_mode .SrcOver).isSome = true ∨
      (composite_mode_to_filter_operator .SrcOver).isSome = true) := by
  decide

/-- C6 (amended; as stated it is refuted elsewhere at `SrcOver`): every
known composite mode is handled in exactly one of FOUR ways — skipped
(`Dest`), a `mix-blend-mode` style, a deduplicated `feComposite`/`feFlood`
filter (`Clear`, `DestOver`, `SrcIn`/`Out`/`Atop`, `DestIn`/`Out`/`Atop`,
`Xor`, `Plus`), or a plain group with default compositing (`Src` and
`SrcOver`).  A `Dest` layer contributes nothing to the output.  `Clear`
maps to the `"clear"` filter, which renders as an `feFlood` with
`flood-opacity` 0 — fully transparent. -/
theorem C6_composite_modes (env : SvgEnv) (style : SvgPathStyle)
    (litems rest : List DrawItem) (st : SvgState) (id : ℕ) :
    (∀ mode : CompositeMode,
      ((if mode = .Dest then 1 else 0) +
        (if (composite_mode_to_mix_blend_mode mode).isSome then 1
          else 0) +
        (if (composite_mode_to_filter_operator mode).isSome then 1
          else 0) +
        (if mode = .Src ∨ mode = .SrcOver then 1 else 0) : ℕ) = 1) ∧
    (add_items env style (.Layer .Dest litems :: rest) st =
      add_items env style rest st) ∧
    (composite_mode_to_filter_operator .Clear = some ⟨"clear", false⟩) ∧
    (filterElement ⟨"clear", false⟩ id =
      XmlElement.mk "filter"
        [("id", "fm" ++ natString id), ("x", "0%"), ("y", "0%"),
          ("width", "100%"), ("height", "100%")]
        [.mk "feFlood"
          [("flood-color", "black"), ("flood-opacity", "0")] []]) := by
  refine ⟨by decide, ?_, rfl, by with_unfolding_all rfl⟩
  rw [add_items, if_pos rfl]

/-! ## `icon2png.rs`: raster canvas bounds and centering

Shallow embedding of `clip_bounds`, `compute_bounds` and the centering
offsets of `icon_to_pixmap`.  The kurbo `bounding_box` of a path involves
bezier extrema (irrational in general), so it is supplied as an abstract
function. -/

/-- kurbo `Rect`. -/
structure Rect where
  x0 : ℚ
  y0 : ℚ
  x1 : ℚ
  y1 : ℚ
deriving DecidableEq, Repr

/-- kurbo `Rect::intersect`. -/
def Rect.intersect (a b : Rect) : Rect :=
  ⟨max a.x0 b.x0, max a.y0 b.y0, min a.x1 b.x1, min a.y1 b.y1⟩

/-- kurbo `Rect::union`. -/
def Rect.union (a b : Rect) : Rect :=
  ⟨min a.x0 b.x0, min a.y0 b.y0, max a.x1 b.x1, max a.y1 b.y1⟩

/-- kurbo `Rect + Vec2`. -/
def Rect.addVec (a : Rect) (vx vy : ℚ) : Rect :=
  ⟨a.x0 + vx, a.y0 + vy, a.x1 + vx, a.y1 + vy⟩

/-- kurbo `Rect::width`. -/
def Rect.width (a : Rect) : ℚ := a.x1 - a.x0

/-- kurbo `Rect::height`. -/
def Rect.height (a : Rect) : ℚ := a.y1 - a.y0

/-- kurbo `Rect::min_x`. -/
def Rect.min_x (a : Rect) : ℚ := a.x0

/-- kurbo `Rect::min_y`. -/
def Rect.min_y (a : Rect) : ℚ := a.y0

/-- `b` contains `a`. -/
def Rect.le (a b : Rect) : Prop :=
  b.x0 ≤ a.x0 ∧ b.y0 ≤ a.y0 ∧ a.x1 ≤ b.x1 ∧ a.y1 ≤ b.y1

/-- `clip_bounds` from `icon2png.rs`: intersection of the bounding boxes
of the paths, `None` for an empty list (`reduce`). -/
def clip_bounds (bbox : List PathEl → Rect)
    (paths : List (List PathEl)) : Option Rect :=
  match paths.map bbox with
  | [] => none
  | r :: rs => some (rs.foldl Rect.intersect r)

/-- `compute_bounds` from `icon2png.rs`: union (`reduce`) of each fill's
offset clip bounds, the zero `Rect::default` when no fill contributes. -/
def compute_bounds (bbox : List PathEl → Rect)
    (fills : List ColorFill) : Rect :=
  match fills.filterMap (fun fill =>
      (clip_bounds bbox fill.clip_paths).map
        (fun b => b.addVec fill.offset_x fill.offset_y)) with
  | [] => ⟨0, 0, 0, 0⟩
  | r :: rs => rs.foldl Rect.union r

/-- The per-fill translation used by `icon_to_pixmap`: the fill's own
offset plus the centering offsets derived from `compute_bounds`. -/
def fillTransforms (bbox : List PathEl → Rect) (fills : List ColorFill)
    (size : ℚ) : List (ℚ × ℚ) :=
  let bounds := compute_bounds bbox fills
  let x_offset := (size - bounds.width) / 2 - bounds.min_x
  let y_offset := (size - bounds.height) / 2 - bounds.min_y
  fills.map (fun fill =>
    (fill.offset_x + x_offset, fill.offset_y + y_offset))

/-- Modelled from the spec: the canvas bounds as the spec words them —
the union, over all fills having at least one clip path, of the
intersection of the bounding boxes of that fill's clip paths translated
by the fill's offset; the default (zero) rectangle when there is no such
fill. -/
def spec_bounds (bbox : List PathEl → Rect)
    (fills : List ColorFill) : Rect :=
  match fills.filterMap (fun fill =>
      match fill.clip_paths.map bbox with
      | [] => none
      | r :: rs => some ((rs.foldl Rect.intersect r).addVec
          fill.offset_x fill.offset_y)) with
  | [] => ⟨0, 0, 0, 0⟩
  | r :: rs => rs.foldl Rect.union r

theorem foldl_union_le :
    ∀ (rs : List Rect) (r : Rect), Rect.le r (rs.foldl Rect.union r) := by
  intro rs
  induction rs with
  | nil =>
    intro r
    exact ⟨le_refl _, le_refl _, le_refl _, le_refl _⟩
  | cons s rs ih =>
    intro r
    have h1 := ih (r.union s)
    have h2 : Rect.le r (r.union s) :=
      ⟨min_le_left _ _, min_le_left _ _, le_max_left _ _, le_max_left _ _⟩
    exact ⟨le_trans h1.1 h2.1, le_trans h1.2.1 h2.2.1,
      le_trans h2.2.2.1 h1.2.2.1, le_trans h2.2.2.2 h1.2.2.2⟩

theorem foldl_union_le_of_mem :
    ∀ (rs : List Rect) (r b : Rect), b ∈ rs →
      Rect.le b (rs.foldl Rect.union r) := by
  intro rs
  induction rs with
  | nil =>
    intro r b hb
    simp at hb
  | cons s rs ih =>
    intro r b hb
    rcases List.mem_cons.mp hb with rfl | hb
    · have h1 := foldl_union_le rs (r.union b)
      have h2 : Rect.le b (r.union b) :=
        ⟨min_le_right _ _, min_le_right _ _, le_max_right _ _,
          le_max_right _ _⟩
      exact ⟨le_trans h1.1 h2.1, le_trans h1.2.1 h2.2.1,
        le_trans h2.2.2.1 h1.2.2.1, le_trans h2.2.2.2 h1.2.2.2⟩
    · exact ih _ b hb

/-- C8: canvas bounds.  (i) `compute_bounds` is exactly the spec's
union-of-offset-intersections (fills with no clip path contribute
nothing).  (ii) A fill with no clip paths is ignored.  (iii) When no fill
has a clip path the bounds are the default zero rectangle.  (iv) The
computed bounds contain every contributing fill's offset
intersection-of-bounding-boxes.  (v) The pixmap translation of each fill
is its own offset plus the centering offsets, and those offsets center
the bounds: the left and right (resp. top and bottom) margins of the
translated bounds agree. -/
theorem C8_canvas_bounds (bbox : List PathEl → Rect)
    (fills : List ColorFill) (size : ℚ) :
    (compute_bounds bbox fills = spec_bounds bbox fills) ∧
    (∀ fill : ColorFill, fill.clip_paths = [] →
      compute_bounds bbox (fill :: fills) = compute_bounds bbox fills) ∧
    ((∀ fill ∈ fills, fill.clip_paths = []) →
      compute_bounds bbox fills = ⟨0, 0, 0, 0⟩) ∧
    (∀ fill ∈ fills, ∀ r rs, fill.clip_paths.map bbox = r :: rs →
      Rect.le ((rs.foldl Rect.intersect r).addVec
          fill.offset_x fill.offset_y)
        (compute_bounds bbox fills)) ∧
    (fillTransforms bbox fills size = fills.map (fun fill =>
      (fill.offset_x +
        ((size - (compute_bounds bbox fills).width) / 2 -
          (compute_bounds bbox fills).min_x),
        fill.offset_y +
        ((size - (compute_bounds bbox fills).height) / 2 -
          (compute_bounds bbox fills).min_y)))) ∧
    ((compute_bounds bbox fills).min_x +
        ((size - (compute_bounds bbox fills).width) / 2 -
          (compute_bounds bbox fills).min_x) =
      size - ((compute_bounds bbox fills).x1 +
        ((size - (compute_bounds bbox fills).width) / 2 -
          (compute_bounds bbox fills).min_x))) := by
  refine ⟨?_, ?_, ?_, ?_, rfl, ?_⟩
  · unfold compute_bounds spec_bounds clip_bounds
    have hfun : (fun (fill : ColorFill) =>
        Option.map (fun b => Rect.addVec b fill.offset_x fill.offset_y)
          (match fill.clip_paths.map bbox with
           | [] => none
           | r :: rs => some (rs.foldl Rect.intersect r))) =
        (fun (fill : ColorFill) =>
          match fill.clip_paths.map bbox with
          | [] => none
          | r :: rs => some ((rs.foldl Rect.intersect r).addVec
              fill.offset_x fill.offset_y)) := by
      funext fill
      cases hm : fill.clip_paths.map bbox with
      | nil => rfl
      | cons r rs => rfl
    rw [hfun]
  · intro fill hnil
    unfold compute_bounds
    rw [List.filterMap_cons]
    rw [show clip_bounds bbox fill.clip_paths = none by
      rw [hnil]
      rfl]
    rfl
  · intro hall
    unfold compute_bounds
    rw [show fills.filterMap (fun fill =>
        (clip_bounds bbox fill.clip_paths).map
          (fun b => b.addVec fill.offset_x fill.offset_y)) = [] from ?_]
    rw [List.filterMap_eq_nil]
    intro fill hf
    rw [hall fill hf]
    rfl
  · intro fill hf r rs hmap
    have hmem : ((rs.foldl Rect.intersect r).addVec
        fill.offset_x fill.offset_y) ∈
        fills.filterMap (fun fill =>
          (clip_bounds bbox fill.clip_paths).map
            (fun b => b.addVec fill.offset_x fill.offset_y)) := by
      rw [List.mem_filterMap]
      refine ⟨fill, hf, ?_⟩
      rw [show clip_bounds bbox fill.clip_paths =
        some (rs.foldl Rect.intersect r) by
          unfold clip_bounds
          rw [hmap]]
      rfl
    unfold compute_bounds
    rcases hl : fills.filterMap (fun fill =>
        (clip_bounds bbox fill.clip_paths).map
          (fun b => b.addVec fill.offset_x fill.offset_y)) with _ | ⟨b0, bs⟩
    · rw [hl] at hmem
      simp at hmem
    · rw [hl] at hmem
      rw [hl]
      dsimp only
      rcases List.mem_cons.mp hmem with heq | hmem2
      · rw [heq]
        exact foldl_union_le bs b0
      · exact foldl_union_le_of_mem bs b0 _ hmem2
  · unfold Rect.width Rect.min_x
    ring

/-- A fill with no clip paths. -/
def c8Fill0 : ColorFill := ⟨⟨.SolidColor ⟨0, 0, 0, 1⟩⟩, [], 1, 2⟩

/-- A fill with one clip path, offset by `(3, 4)`. -/
def c8Fill1 : ColorFill :=
  ⟨⟨.SolidColor ⟨0, 0, 0, 1⟩⟩, [[PathEl.closePath]], 3, 4⟩

/-- A concrete bounding-box oracle: the unit square for every path. -/
def c8bbox : List PathEl → Rect := fun _ => ⟨0, 0, 1, 1⟩

/-- Witness: the canvas-bounds theorem applied at concrete fills: a fill
with no clip paths is ignored; a list of only such fills gives the zero
rectangle; a contributing fill's offset bounds are contained in the
computed bounds. -/
theorem C8_witness :
    (c8Fill0.clip_paths = [] ∧
      compute_bounds c8bbox (c8Fill0 :: [c8Fill1]) =
        compute_bounds c8bbox [c8Fill1]) ∧
    ((∀ fill ∈ [c8Fill0], fill.clip_paths = []) ∧
      compute_bounds c8bbox [c8Fill0] = ⟨0, 0, 0, 0⟩) ∧
    (c8Fill1 ∈ [c8Fill0, c8Fill1] ∧
      c8Fill1.clip_paths.map c8bbox = [⟨0, 0, 1, 1⟩] ∧
      Rect.le
        ((([] : List Rect).foldl Rect.intersect ⟨0, 0, 1, 1⟩).addVec
          c8Fill1.offset_x c8Fill1.offset_y)
        (compute_bounds c8bbox [c8Fill0, c8Fill1])) :=
  ⟨⟨rfl, (C8_canvas_bounds c8bbox [c8Fill1] 0).2.1 c8Fill0 rfl⟩,
    ⟨of_decide_eq_true (by with_unfolding_all rfl),
      (C8_canvas_bounds c8bbox [c8Fill0] 0).2.2.1
        (of_decide_eq_true (by with_unfolding_all rfl))⟩,
    of_decide_eq_true (by with_unfolding_all rfl), rfl,
    (C8_canvas_bounds c8bbox [c8Fill0, c8Fill1] 0).2.2.2.1 c8Fill1
      (of_decide_eq_true (by with_unfolding_all rfl)) ⟨0, 0, 1, 1⟩ [] rfl⟩

end Sleipnir
